import Mathlib

/-!
# File downloader (`src/go/filedownloader.go`): a verification development

The Go program fetches a page, extracts `href` links that contain a file
extension, resolves them against a base URL and downloads them concurrently.

Modelling conventions.

* A Go `string` is a byte sequence: `GoString := List Nat`, every byte a natural
  number below 256 (nothing here overflows; the only arithmetic on bytes is the
  hexadecimal coding of `net/url` and the decoding of UTF-8). A rune is a natural
  number.
* A function of the standard library that returns `(value, error)` returns an
  `Option`: `none` is a non-nil error. A function of the program that returns an
  error returns `Except Error`.
* A call that panics returns `none`. The one panic of the program is that of
  `regexp.MustCompile` in `ParseFileLinks`, when the extension is not valid
  UTF-8; it ends the program, and `DownloadFilesFromPage` and
  `DownloadFromMultiplePages` pass it on.
* The functions of the Go standard library the program calls (`net/url`, `path`,
  `path/filepath`, `strings`, `regexp`, `unicode/utf8`) are transcribed from the
  Go 1.21 sources (the version the repository's Dockerfile builds with) under
  namespaces named after their packages. Where a Go loop walks a string piece by
  piece, the model folds over the pieces. The limits of the machine (memory, the
  cap of the regexp parser on the size of a pattern) are not modelled.
* The network and the file system are an environment `Env` of answers; an answer
  depends only on the arguments of the call. The calls made are recorded in a
  trace, which is passed through the program together with the clock of the
  scheduler (`World`).
* The goroutines of `DownloadFilesFromPage` are a transition system: a schedule
  `Nat → Nat` chooses, at every step, one of the goroutines that can move, so
  that a property proved for every schedule holds for every interleaving.
  `DownloadFile` is one step of a goroutine; the increment of the shared counter
  is two steps, a load and a store, between `mu.Lock()` and `mu.Unlock()`.

The definitions come first: the standard library, the program, then the notions
in which the specification's claims are stated. The theorems follow.
-/

namespace Descargador

/-- A Go string: its bytes. -/
abbrev GoString := List Nat

/-! ## Package `unicode/utf8` -/

namespace utf8

/-- Go `utf8.RuneError`: U+FFFD, the rune an invalid byte reads as. -/
def RuneError : Nat := 0xFFFD

/-- Go's table `first`, by ranges of the first byte of a sequence: `0xF0` (`as`)
for ASCII, `0xF1` (`xx`) for a byte that starts no sequence; otherwise the low
three bits are the length of the sequence and the high four bits the index into
`acceptRanges`. -/
def first (b : Nat) : Nat :=
  if b < 0x80 then 0xF0
  else if b < 0xC2 then 0xF1
  else if b < 0xE0 then 0x02
  else if b = 0xE0 then 0x13
  else if b < 0xED then 0x03
  else if b = 0xED then 0x23
  else if b < 0xF0 then 0x03
  else if b = 0xF0 then 0x34
  else if b < 0xF4 then 0x04
  else if b = 0xF4 then 0x44
  else 0xF1

/-- Go's table `acceptRanges`: the range `(lo, hi)` of a valid second byte. -/
def acceptRanges (i : Nat) : Nat × Nat :=
  match i with
  | 0 => (0x80, 0xBF)
  | 1 => (0xA0, 0xBF)
  | 2 => (0x80, 0x9F)
  | 3 => (0x90, 0xBF)
  | 4 => (0x80, 0x8F)
  | _ => (0, 0)

/-- Go `utf8.DecodeRuneInString(s)`: the first rune of `s` and its width in
bytes; `(RuneError, 1)` for a byte that is not part of a valid sequence and
`(RuneError, 0)` for the empty string. The masks of the Go code keep low bits
(`b & 0x3F` is `b % 64`) and the shifted pieces do not overlap, so `|` adds
them. -/
def DecodeRuneInString (s : GoString) : Nat × Nat :=
  match s with
  | [] => (RuneError, 0)
  | s0 :: rest =>
    let x := first s0
    if x ≥ 0xF0 then
      -- `mask := rune(x) << 31 >> 31`: all ones for `xx`, zero for `as`
      (if x % 2 = 1 then RuneError else s0, 1)
    else
      let sz := x % 8
      let accept := acceptRanges (x / 16)
      if s.length < sz then (RuneError, 1)
      else
        match rest with
        | [] => (RuneError, 1)
        | s1 :: rest1 =>
          if s1 < accept.1 ∨ accept.2 < s1 then (RuneError, 1)
          else if sz ≤ 2 then (s0 % 32 * 64 + s1 % 64, 2)
          else
            match rest1 with
            | [] => (RuneError, 1)
            | s2 :: rest2 =>
              if s2 < 0x80 ∨ 0xBF < s2 then (RuneError, 1)
              else if sz ≤ 3 then (s0 % 16 * 4096 + s1 % 64 * 64 + s2 % 64, 3)
              else
                match rest2 with
                | [] => (RuneError, 1)
                | s3 :: _ =>
                  if s3 < 0x80 ∨ 0xBF < s3 then (RuneError, 1)
                  else (s0 % 8 * 262144 + s1 % 64 * 4096 + s2 % 64 * 64 + s3 % 64, 4)

/-- The UTF-8 encoding of one code point (Go `utf8.AppendRune` on a valid rune). -/
def AppendRune (c : Nat) : List Nat :=
  if c < 0x80 then [c]
  else if c < 0x800 then [0xC0 + c / 64, 0x80 + c % 64]
  else if c < 0x10000 then [0xE0 + c / 4096, 0x80 + c / 64 % 64, 0x80 + c % 64]
  else [0xF0 + c / 262144, 0x80 + c / 4096 % 64, 0x80 + c / 64 % 64, 0x80 + c % 64]

end utf8

/-- The UTF-8 text of a sequence of code points. -/
def utf8.encode (cps : List Nat) : GoString :=
  (cps.map utf8.AppendRune).flatten

/-- The Go string written as the literal `s` (Go source text is UTF-8). -/
def lit (s : String) : GoString :=
  utf8.encode (s.toList.map (fun c => c.toNat))

/-! ## Package `strings` -/

namespace strings

/-- Go `strings.HasPrefix(s, p)`. -/
def HasPrefix (s p : GoString) : Bool := p.isPrefixOf s

/-- Go `strings.HasSuffix(s, p)`. -/
def HasSuffix (s p : GoString) : Bool := p.reverse.isPrefixOf s.reverse

/-- Go `strings.Index(s, sep)`: the byte offset of the first occurrence of `sep`,
`none` standing for Go's `-1`. -/
def Index : GoString → GoString → Option Nat
  | [], sep => if sep = [] then some 0 else none
  | c :: cs, sep =>
    if sep.isPrefixOf (c :: cs) then some 0
    else (Index cs sep).map (· + 1)

/-- Go `strings.LastIndex(s, sep)`: the byte offset of the last occurrence of
`sep`, `none` standing for Go's `-1`. -/
def LastIndex : GoString → GoString → Option Nat
  | [], sep => if sep = [] then some 0 else none
  | c :: cs, sep =>
    match LastIndex cs sep with
    | some i => some (i + 1)
    | none => if sep.isPrefixOf (c :: cs) then some 0 else none

/-- Go `strings.Contains(s, sub)`. -/
def Contains (s sub : GoString) : Bool := (Index s sub).isSome

/-- Go `strings.Cut(s, sep)`: `(before, after, found)`. -/
def Cut (s sep : GoString) : GoString × GoString × Bool :=
  match Index s sep with
  | some i => (s.take i, s.drop (i + sep.length), true)
  | none => (s, [], false)

/-- Go `strings.Count(s, sep)` for a separator `sep` of one byte `c`. -/
def Count (s : GoString) (c : Nat) : Nat := s.count c

/-- Go `strings.Split(s, sep)` for a separator of one byte `c`: the pieces
between the separators, always at least one. -/
def Split (c : Nat) : GoString → List GoString
  | [] => [[]]
  | x :: xs =>
    if x = c then [] :: Split c xs
    else
      match Split c xs with
      | [] => [[x]]
      | e :: es => (x :: e) :: es

/-- Go `strings.ToLower` on an ASCII string (the only strings the program lowers
are URL schemes, which `getScheme` guarantees to be ASCII). -/
def ToLower (s : GoString) : GoString :=
  s.map (fun c => if 65 ≤ c ∧ c ≤ 90 then c + 32 else c)

end strings

/-! ## Package `net/url` (Go 1.21) -/

namespace url

/-- Go `url.Userinfo`. -/
structure Userinfo where
  username : GoString
  password : GoString
  passwordSet : Bool
deriving DecidableEq, Repr

/-- Go `url.URL`. -/
structure URL where
  Scheme : GoString := []
  Opaque : GoString := []
  User : Option Userinfo := none
  Host : GoString := []
  Path : GoString := []
  RawPath : GoString := []
  OmitHost : Bool := false
  ForceQuery : Bool := false
  RawQuery : GoString := []
  Fragment : GoString := []
  RawFragment : GoString := []
deriving DecidableEq, Repr

/-- Go `url.encoding`: the part of a URL being escaped or unescaped. -/
inductive encoding where
  | encodePath
  | encodePathSegment
  | encodeHost
  | encodeZone
  | encodeUserPassword
  | encodeQueryComponent
  | encodeFragment
deriving DecidableEq, Repr

/-- Go `ishex`. -/
def ishex (c : Nat) : Bool :=
  (48 ≤ c ∧ c ≤ 57) ∨ (97 ≤ c ∧ c ≤ 102) ∨ (65 ≤ c ∧ c ≤ 70)

/-- Go `unhex`. -/
def unhex (c : Nat) : Nat :=
  if 48 ≤ c ∧ c ≤ 57 then c - 48
  else if 97 ≤ c ∧ c ≤ 102 then c - 97 + 10
  else if 65 ≤ c ∧ c ≤ 70 then c - 65 + 10
  else 0

/-- Go `shouldEscape(c, mode)`. -/
def shouldEscape (c : Nat) (mode : encoding) : Bool :=
  -- §2.3 unreserved characters (alphanum)
  if (97 ≤ c ∧ c ≤ 122) ∨ (65 ≤ c ∧ c ≤ 90) ∨ (48 ≤ c ∧ c ≤ 57) then false
  -- host and zone: ! $ & ' ( ) * + , ; = : [ ] < > "
  else if (mode = .encodeHost ∨ mode = .encodeZone) ∧
      c ∈ [33, 36, 38, 39, 40, 41, 42, 43, 44, 59, 61, 58, 91, 93, 60, 62, 34] then false
  -- - _ . ~
  else if c ∈ [45, 95, 46, 126] then false
  -- $ & + , / : ; = ? @
  else if c ∈ [36, 38, 43, 44, 47, 58, 59, 61, 63, 64] then
    match mode with
    | .encodePath => c = 63
    | .encodePathSegment => c = 47 ∨ c = 59 ∨ c = 44 ∨ c = 63
    | .encodeUserPassword => c = 64 ∨ c = 47 ∨ c = 63 ∨ c = 58
    | .encodeQueryComponent => true
    | .encodeFragment => false
    | _ => true
  -- fragment: ! ( ) *
  else if mode = .encodeFragment ∧ c ∈ [33, 40, 41, 42] then false
  else true

/-- First loop of Go `unescape`: are all `%` escapes well formed (and allowed
in this mode), and are all other bytes allowed in a host? -/
def unescapeValid (mode : encoding) : GoString → Bool
  | [] => true
  | 37 :: h1 :: h2 :: rest =>
    if !ishex h1 || !ishex h2 then false
    else if mode = .encodeHost ∧ unhex h1 < 8 ∧ [37, h1, h2] ≠ [37, 50, 53] then false
    else if mode = .encodeZone ∧ [37, h1, h2] ≠ [37, 50, 53] ∧
        unhex h1 * 16 + unhex h2 ≠ 32 ∧ shouldEscape (unhex h1 * 16 + unhex h2) .encodeHost then
      false
    else unescapeValid mode rest
  | 37 :: _ => false
  | 43 :: rest => unescapeValid mode rest
  | c :: rest =>
    if (mode = .encodeHost ∨ mode = .encodeZone) ∧ c < 128 ∧ shouldEscape c .encodeHost then false
    else unescapeValid mode rest

/-- Second loop of Go `unescape`: decode. -/
def unescapeDecode (mode : encoding) : GoString → GoString
  | [] => []
  | 37 :: h1 :: h2 :: rest => (unhex h1 * 16 + unhex h2) :: unescapeDecode mode rest
  | 43 :: rest =>
    (if mode = .encodeQueryComponent then 32 else 43) :: unescapeDecode mode rest
  | c :: rest => c :: unescapeDecode mode rest

/-- Go `unescape(s, mode)`. -/
def unescape (s : GoString) (mode : encoding) : Option GoString :=
  if unescapeValid mode s then some (unescapeDecode mode s) else none

/-- The digit `"0123456789ABCDEF"[n]`. -/
def upperhex (n : Nat) : Nat := if n < 10 then 48 + n else 55 + n

/-- Go `escape(s, mode)`. A byte `c` is below 256, so `c / 16` is `c>>4`. -/
def escape (s : GoString) (mode : encoding) : GoString :=
  (s.map (fun c =>
    if c = 32 ∧ mode = .encodeQueryComponent then [43]
    else if shouldEscape c mode then [37, upperhex (c / 16 % 16), upperhex (c % 16)]
    else [c])).flatten

/-- Go `getScheme`, the loop; `i` is the index of the byte `c` looked at. -/
def getSchemeLoop (rawURL : GoString) : Nat → GoString → Option (GoString × GoString)
  | _, [] => some ([], rawURL)
  | i, c :: cs =>
    if (97 ≤ c ∧ c ≤ 122) ∨ (65 ≤ c ∧ c ≤ 90) then getSchemeLoop rawURL (i + 1) cs
    else if (48 ≤ c ∧ c ≤ 57) ∨ c = 43 ∨ c = 45 ∨ c = 46 then
      if i = 0 then some ([], rawURL) else getSchemeLoop rawURL (i + 1) cs
    else if c = 58 then
      if i = 0 then none else some (rawURL.take i, rawURL.drop (i + 1))
    else some ([], rawURL)

/-- Go `getScheme(rawURL)`: `(scheme, rest)`, or an error. -/
def getScheme (rawURL : GoString) : Option (GoString × GoString) :=
  getSchemeLoop rawURL 0 rawURL

/-- Go `stringContainsCTLByte`. -/
def stringContainsCTLByte (s : GoString) : Bool :=
  s.any (fun b => b < 32 ∨ b = 127)

/-- Go `validOptionalPort`. -/
def validOptionalPort (port : GoString) : Bool :=
  match port with
  | [] => true
  | c :: rest => if c ≠ 58 then false else rest.all (fun b => 48 ≤ b ∧ b ≤ 57)

/-- Go `validUserinfo`. Every accepted rune is ASCII, so the loop over runes
accepts exactly the strings whose bytes are all accepted. -/
def validUserinfo (s : GoString) : Bool :=
  s.all (fun r =>
    (65 ≤ r ∧ r ≤ 90) ∨ (97 ≤ r ∧ r ≤ 122) ∨ (48 ≤ r ∧ r ≤ 57) ∨
    -- - . _ : ~ ! $ & ' ( ) * + , ; = % @
    r ∈ [45, 46, 95, 58, 126, 33, 36, 38, 39, 40, 41, 42, 43, 44, 59, 61, 37, 64])

/-- Go `parseHost`. -/
def parseHost (host : GoString) : Option GoString :=
  if strings.HasPrefix host [91] then
    match strings.LastIndex host [93] with
    | none => none
    | some i =>
      if !validOptionalPort (host.drop (i + 1)) then none
      else
        match strings.Index (host.take i) [37, 50, 53] with
        | some zone =>
          match unescape (host.take zone) .encodeHost,
                unescape ((host.take i).drop zone) .encodeZone,
                unescape (host.drop i) .encodeHost with
          | some host1, some host2, some host3 => some (host1 ++ host2 ++ host3)
          | _, _, _ => none
        | none => unescape host .encodeHost
  else
    match strings.LastIndex host [58] with
    | some i =>
      if !validOptionalPort (host.drop i) then none else unescape host .encodeHost
    | none => unescape host .encodeHost

/-- Go `parseAuthority`: `(user, host)`. -/
def parseAuthority (authority : GoString) : Option (Option Userinfo × GoString) :=
  match strings.LastIndex authority [64] with
  | none => (parseHost authority).map (fun host => (none, host))
  | some i =>
    match parseHost (authority.drop (i + 1)) with
    | none => none
    | some host =>
      let userinfo := authority.take i
      if !validUserinfo userinfo then none
      else if !strings.Contains userinfo [58] then
        (unescape userinfo .encodeUserPassword).map
          (fun u => (some ⟨u, [], false⟩, host))
      else
        match strings.Cut userinfo [58] with
        | (username, password, _) =>
          match unescape username .encodeUserPassword,
                unescape password .encodeUserPassword with
          | some u, some p => some (some ⟨u, p, true⟩, host)
          | _, _ => none

/-- Go `(*URL).setPath`. -/
def setPath (u : URL) (p : GoString) : Option URL :=
  match unescape p .encodePath with
  | none => none
  | some path =>
    some { u with Path := path, RawPath := if p = escape path .encodePath then [] else p }

/-- Go `(*URL).setFragment`. -/
def setFragment (u : URL) (f : GoString) : Option URL :=
  match unescape f .encodeFragment with
  | none => none
  | some frag =>
    some { u with Fragment := frag,
                  RawFragment := if f = escape frag .encodeFragment then [] else f }

/-- Go `parse(rawURL, viaRequest)`, the part after the scheme and the query
have been split off: `url` holds them, `rest` is what is left. -/
def parseRest (url : URL) (rest : GoString) (viaRequest : Bool) : Option URL :=
  if !strings.HasPrefix rest [47] ∧ url.Scheme ≠ [] then
    -- rootless paths are opaque
    some { url with Opaque := rest }
  else if !strings.HasPrefix rest [47] ∧ viaRequest then none
  else if !strings.HasPrefix rest [47] ∧
      strings.Contains (strings.Cut rest [47]).1 [58] then
    -- first path segment in URL cannot contain colon
    none
  else if (url.Scheme ≠ [] ∨ (!viaRequest ∧ !strings.HasPrefix rest [47, 47, 47])) ∧
      strings.HasPrefix rest [47, 47] then
    let authority0 := rest.drop 2
    let authority : GoString :=
      match strings.Index authority0 [47] with
      | some i => authority0.take i
      | none => authority0
    let rest1 : GoString :=
      match strings.Index authority0 [47] with
      | some i => authority0.drop i
      | none => []
    match parseAuthority authority with
    | none => none
    | some (user, host) => setPath { url with User := user, Host := host } rest1
  else if url.Scheme ≠ [] ∧ strings.HasPrefix rest [47] then
    setPath { url with OmitHost := true } rest
  else setPath url rest

/-- Go `parse(rawURL, viaRequest)`. -/
def parse (rawURL : GoString) (viaRequest : Bool) : Option URL :=
  if stringContainsCTLByte rawURL then none
  else if rawURL = [] ∧ viaRequest then none
  else if rawURL = [42] then some { Path := [42] }
  else
    match getScheme rawURL with
    | none => none
    | some (scheme, rest) =>
      let forceQuery : Bool := strings.HasSuffix rest [63] ∧ strings.Count rest 63 = 1
      parseRest
        { Scheme := strings.ToLower scheme,
          ForceQuery := forceQuery,
          RawQuery := if forceQuery then [] else (strings.Cut rest [63]).2.1 }
        (if forceQuery then rest.take (rest.length - 1) else (strings.Cut rest [63]).1)
        viaRequest

/-- Go `url.Parse(rawURL)`. -/
def Parse (rawURL : GoString) : Option URL :=
  match strings.Cut rawURL [35] with
  | (u, frag, _) =>
    match parse u false with
    | none => none
    | some url => if frag = [] then some url else setFragment url frag

/-- Go `validEncoded(s, mode)`. -/
def validEncoded (s : GoString) (mode : encoding) : Bool :=
  s.all (fun c =>
    -- ! $ & ' ( ) * + , ; = : @ [ ] %
    if c ∈ [33, 36, 38, 39, 40, 41, 42, 43, 44, 59, 61, 58, 64, 91, 93, 37] then true
    else !shouldEscape c mode)

/-- Go `(*URL).EscapedPath`. -/
def EscapedPath (u : URL) : GoString :=
  if u.RawPath ≠ [] ∧ validEncoded u.RawPath .encodePath ∧
      unescape u.RawPath .encodePath = some u.Path then u.RawPath
  else if u.Path = [42] then [42]
  else escape u.Path .encodePath

/-- Go `(*URL).EscapedFragment`. -/
def EscapedFragment (u : URL) : GoString :=
  if u.RawFragment ≠ [] ∧ validEncoded u.RawFragment .encodeFragment ∧
      unescape u.RawFragment .encodeFragment = some u.Fragment then u.RawFragment
  else escape u.Fragment .encodeFragment

/-- Go `(*Userinfo).String` on a non-nil receiver. -/
def Userinfo.String (u : Userinfo) : GoString :=
  escape u.username .encodeUserPassword ++
    (if u.passwordSet then 58 :: escape u.password .encodeUserPassword else [])

/-- Go `(*URL).String`, the bytes written for the authority: `//`, the user
information and the host. -/
def URL.authorityString (u : URL) : GoString :=
  if u.Scheme ≠ [] ∨ u.Host ≠ [] ∨ u.User ≠ none then
    if u.OmitHost ∧ u.Host = [] ∧ u.User = none then []
    else
      (if u.Host ≠ [] ∨ u.Path ≠ [] ∨ u.User ≠ none then [47, 47] else []) ++
      (match u.User with
        | some ui => ui.String ++ [64]
        | none => []) ++
      (if u.Host ≠ [] then escape u.Host .encodeHost else [])
  else []

/-- Go `(*URL).String`, the bytes written after the scheme when the URL is not
opaque; `schemePart` is what the buffer holds before (`buf.Len() == 0` asks
whether anything has been written so far). -/
def URL.hierString (u : URL) (schemePart : GoString) : GoString :=
  let auth := u.authorityString
  let path := EscapedPath u
  let slash : GoString :=
    if path ≠ [] ∧ path.head? ≠ some 47 ∧ u.Host ≠ [] then [47] else []
  let dotSlash : GoString :=
    if schemePart ++ auth ++ slash = [] ∧
        strings.Contains (strings.Cut path [47]).1 [58] then [46, 47]
    else []
  auth ++ slash ++ dotSlash ++ path

/-- Go `(*URL).String`. The builder only appends, so the result is the
concatenation of the pieces written. -/
def URL.String (u : URL) : GoString :=
  let schemePart : GoString := if u.Scheme ≠ [] then u.Scheme ++ [58] else []
  schemePart ++
    (if u.Opaque ≠ [] then u.Opaque else u.hierString schemePart) ++
    (if u.ForceQuery ∨ u.RawQuery ≠ [] then 63 :: u.RawQuery else []) ++
    (if u.Fragment ≠ [] then 35 :: EscapedFragment u else [])

/-- One turn of the loop of Go `resolvePath` on the element `elem`; the state
is the builder `dst` and the flag `first`. -/
def resolveStep (st : GoString × Bool) (elem : GoString) : GoString × Bool :=
  if elem = [46] then (st.1, false)
  else if elem = [46, 46] then
    let str := st.1.drop 1
    match strings.LastIndex str [47] with
    | none => ([47], true)
    | some index => (47 :: str.take index, st.2)
  else ((if !st.2 then st.1 ++ [47] else st.1) ++ elem, false)

/-- Go `resolvePath(base, ref)`. The loop cuts `full` at each `/`, so it visits
the elements of `strings.Split(full, "/")` in order. -/
def resolvePath (base ref : GoString) : GoString :=
  let full : GoString :=
    if ref = [] then base
    else if ref.head? ≠ some 47 then
      (match strings.LastIndex base [47] with
        | some i => base.take (i + 1)
        | none => []) ++ ref
    else ref
  if full = [] then []
  else
    let elems := strings.Split 47 full
    let dst := (elems.foldl resolveStep ([47], true)).1
    let dst := if elems.getLast? = some [46] ∨ elems.getLast? = some [46, 46] then dst ++ [47] else dst
    if dst.length > 1 ∧ (dst.drop 1).head? = some 47 then dst.drop 1 else dst

/-- Go `(*URL).setPath` where the caller ignores the error (the URL is left as
it was when the path does not unescape). -/
def setPathIgnoringError (u : URL) (p : GoString) : URL :=
  (setPath u p).getD u

/-- Go `(*URL).ResolveReference`. -/
def ResolveReference (u ref : URL) : URL :=
  let url : URL := if ref.Scheme = [] then { ref with Scheme := u.Scheme } else ref
  if ref.Scheme ≠ [] ∨ ref.Host ≠ [] ∨ ref.User ≠ none then
    setPathIgnoringError url (resolvePath (EscapedPath ref) [])
  else if ref.Opaque ≠ [] then
    { url with User := none, Host := [], Path := [] }
  else
    let url : URL :=
      if ref.Path = [] ∧ !ref.ForceQuery ∧ ref.RawQuery = [] then
        if ref.Fragment = [] then
          { url with RawQuery := u.RawQuery, Fragment := u.Fragment, RawFragment := u.RawFragment }
        else { url with RawQuery := u.RawQuery }
      else url
    setPathIgnoringError { url with Host := u.Host, User := u.User }
      (resolvePath (EscapedPath u) (EscapedPath ref))

end url

/-! ## Package `path` -/

namespace path

/-- Go `path.Base(path)`. -/
def Base (path : GoString) : GoString :=
  if path = [] then [46]
  else
    -- strip trailing slashes
    let path := path.rdropWhile (· = 47)
    -- find the last element
    let path := match strings.LastIndex path [47] with
      | some i => path.drop (i + 1)
      | none => path
    -- if empty now, it had only slashes
    if path = [] then [47] else path

end path

/-! ## Package `path/filepath` (Unix) -/

namespace filepath

/-- The backtracking of Go `Clean` at a `..` element, on the reversed buffer:
`out.w--`, then `for out.w > dotdot && out[out.w] != '/' { out.w-- }`. The head
of the reversed buffer is the byte `out[out.w]` after the first decrement. -/
def backtrackRev (dotdot : Nat) : List Nat → List Nat
  | [] => []
  | c :: rest => if rest.length > dotdot ∧ c ≠ 47 then backtrackRev dotdot rest else rest

/-- One turn of the loop of Go `Clean` on the path element `elem`; the state is
the written buffer `out` and the index `dotdot`. -/
def cleanStep (rooted : Bool) (st : GoString × Nat) (elem : GoString) : GoString × Nat :=
  if elem = [] ∨ elem = [46] then st
  else if elem = [46, 46] then
    if st.1.length > st.2 then ((backtrackRev st.2 st.1.reverse).reverse, st.2)
    else if !rooted then
      let out := (if st.1.length > 0 then st.1 ++ [47] else st.1) ++ [46, 46]
      (out, out.length)
    else st
  else
    ((if (rooted ∧ st.1.length ≠ 1) ∨ (!rooted ∧ st.1.length ≠ 0) then st.1 ++ [47] else st.1)
      ++ elem, st.2)

/-- Go `filepath.Clean(path)` on Unix. The loop reads `path` element by element
(the pieces between slashes), so it visits `strings.Split(path, "/")` in order. -/
def Clean (path : GoString) : GoString :=
  if path = [] then [46]
  else
    let rooted : Bool := path.head? = some 47
    let st0 : GoString × Nat := if rooted then ([47], 1) else ([], 0)
    let out := ((strings.Split 47 path).foldl (cleanStep rooted) st0).1
    if out = [] then [46] else out

/-- Go `filepath.Join(elem...)` on Unix. -/
def Join (elem : List GoString) : GoString :=
  match elem.dropWhile (· = []) with
  | [] => []
  | e :: rest => Clean (List.intercalate [47] (e :: rest))

/-- Go `filepath.Dir(path)` on Unix. -/
def Dir (path : GoString) : GoString :=
  match strings.LastIndex path [47] with
  | some i => Clean (path.take (i + 1))
  | none => Clean []

end filepath

/-! ## Package `regexp`: the one pattern the program compiles

`ParseFileLinks` compiles `href\s*=\s*['"]([^'"]*EXT[^'"]*)['"]`, where `EXT`
is `regexp.QuoteMeta(fileExtension)`. `QuoteMeta` puts a backslash before each
byte that is special in a pattern (all of them ASCII), so `EXT` is the
extension as a literal: a sequence of runes.

Go's regexp reads pattern and text as sequences of runes, decoded with
`utf8.DecodeRuneInString`. In the pattern, a byte that is not part of a valid
UTF-8 sequence is an error (`ErrInvalidUTF8`); in the text it reads as the rune
U+FFFD of width one. Every byte the pattern names outside `EXT` is ASCII, and an
ASCII byte is always a rune by itself (no longer sequence holds one), so `href`,
`\s`, `=` and the quotes are matched byte by byte; the group is matched rune by
rune. The matcher below is the pattern under Go's leftmost-first semantics. -/

namespace regexp

/-- The class `\s` of Go's regexp syntax: `[\t\n\f\r ]`. -/
def isSpace (c : Nat) : Bool := c = 9 ∨ c = 10 ∨ c = 12 ∨ c = 13 ∨ c = 32

/-- The class `['"]`. -/
def isQuote (c : Nat) : Bool := c = 39 ∨ c = 34

/-- Go `*regexp.Regexp` for the pattern of `ParseFileLinks`: the runes of the
literal `EXT`. -/
structure Regexp where
  ext : List Nat
deriving DecidableEq, Repr

/-- The runes of the literal `EXT`, as the parser reads them (`nextRune`); `none`
is the parser's error for a byte that is not part of a valid UTF-8 sequence.
`skip` bytes still belong to the rune read last. -/
def literalRunes : Nat → GoString → Option (List Nat)
  | _, [] => some []
  | skip + 1, _ :: cs => literalRunes skip cs
  | 0, c :: cs =>
    let d := utf8.DecodeRuneInString (c :: cs)
    if d.1 = utf8.RuneError ∧ d.2 = 1 then none
    else (literalRunes (d.2 - 1) cs).map (fun rs => d.1 :: rs)

/-- Go `regexp.MustCompile(pattern)` for the pattern `ParseFileLinks` builds
from `fileExtension`; `none` is the panic of `MustCompile` when the pattern does
not parse. The pattern is valid UTF-8 exactly when the extension is. -/
def MustCompile (fileExtension : GoString) : Option Regexp :=
  (literalRunes 0 fileExtension).map (fun rs => { ext := rs })

/-- The literal `EXT` at the start of `s`, rune by rune: the text after it. -/
def matchLiteral : List Nat → GoString → Option GoString
  | [], s => some s
  | r :: rs, s =>
    if s = [] then none
    else
      let d := utf8.DecodeRuneInString s
      if d.1 = r then matchLiteral rs (s.drop d.2) else none

/-- The end `[^'"]*)['"]` of the pattern at the start of `s`: the text the star
takes and the text after the closing quote. The star is greedy and the rune
after it must be a quote, so it takes the whole run of runes that are not
quotes. `skip` bytes still belong to the rune read last. -/
def matchClose : Nat → GoString → Option (GoString × GoString)
  | _, [] => none
  | skip + 1, c :: cs => (matchClose skip cs).map (fun p => (c :: p.1, p.2))
  | 0, c :: cs =>
    let d := utf8.DecodeRuneInString (c :: cs)
    if isQuote d.1 then some ([], cs)
    else (matchClose (d.2 - 1) cs).map (fun p => (c :: p.1, p.2))

/-- The tail `EXT[^'"]*)['"]` of the pattern at the start of `s`: the text
matched inside the group and the text after the closing quote. -/
def matchExtTail (ext : List Nat) (s : GoString) : Option (GoString × GoString) :=
  match matchLiteral ext s with
  | none => none
  | some r =>
    match matchClose 0 r with
    | none => none
    | some (run, rest) => some (s.take (s.length - r.length) ++ run, rest)

/-- The group and closing quote `([^'"]*EXT[^'"]*)['"]` at the start of `s`:
the captured text and the text after the closing quote. The first star is
greedy: it takes a rune that is not a quote, and gives it back only when the
rest fails to match. `skip` bytes still belong to the rune taken last. -/
def matchValue (ext : List Nat) : Nat → GoString → Option (GoString × GoString)
  | 0, [] => matchExtTail ext []
  | _ + 1, [] => none
  | skip + 1, c :: cs => (matchValue ext skip cs).map (fun p => (c :: p.1, p.2))
  | 0, c :: cs =>
    let d := utf8.DecodeRuneInString (c :: cs)
    if !isQuote d.1 then
      match matchValue ext (d.2 - 1) cs with
      | some (cap, rest) => some (c :: cap, rest)
      | none => matchExtTail ext (c :: cs)
    else matchExtTail ext (c :: cs)

/-- The whole pattern at the start of `s`: the captured group and the text
after the match. Each `\s*` is followed by a byte that is not a space, so it
takes the whole run of spaces. -/
def matchAt (re : Regexp) (s : GoString) : Option (GoString × GoString) :=
  if (lit "href").isPrefixOf s then
    match (s.drop 4).dropWhile isSpace with
    | 61 :: s1 =>
      match s1.dropWhile isSpace with
      | q :: s2 => if isQuote q then matchValue re.ext 0 s2 else none
      | [] => none
    | _ => none
  else none

/-- The search loop of `FindAllStringSubmatch`: `skip` bytes of the text still
belong to the previous match; at every other position the pattern is tried (a
match starts with the byte `h`, which is always the start of a rune), and after
a match the search goes on at its end. Each result is the pair of the whole
match and the group. -/
def findAll (re : Regexp) : Nat → GoString → List (List GoString)
  | _, [] => []
  | skip + 1, _ :: cs => findAll re skip cs
  | 0, c :: cs =>
    match matchAt re (c :: cs) with
    | some (cap, rest) =>
      [(c :: cs).take ((c :: cs).length - rest.length), cap]
        :: findAll re ((c :: cs).length - rest.length - 1) cs
    | none => findAll re 0 cs

/-- Go `re.FindAllStringSubmatch(s, -1)`. -/
def FindAllStringSubmatch (re : Regexp) (s : GoString) : List (List GoString) :=
  findAll re 0 s

end regexp

/-! ## The program -/

/-- Go `FileDownloader`; the HTTP client is part of the environment. -/
structure FileDownloader where
  BaseURL : GoString
  UserAgent : GoString
  Timeout : Nat
deriving DecidableEq, Repr

/-- Go `(*FileDownloader).ResolveURL` (the receiver is not used). -/
def ResolveURL (baseURL relativeURL : GoString) : GoString :=
  match url.Parse baseURL with
  | none => relativeURL
  | some base =>
    match url.Parse relativeURL with
    | none => relativeURL
    | some relative => (url.ResolveReference base relative).String

/-- Go `ExtractFilename`. -/
def ExtractFilename (fileURL : GoString) : GoString :=
  match url.Parse fileURL with
  | none => lit "downloaded_file"
  | some u =>
    let filename := path.Base u.Path
    if filename = [46] ∨ filename = [47] then lit "downloaded_file" else filename

/-- Go `(*FileDownloader).ParseFileLinks`; `none` when `regexp.MustCompile`
panics. -/
def ParseFileLinks (fd : FileDownloader) (htmlContent fileExtension : GoString) :
    Option (List GoString) :=
  match regexp.MustCompile fileExtension with
  | none => none
  | some re =>
    some ((regexp.FindAllStringSubmatch re htmlContent).filterMap
      (fun m => if m.length > 1 then some (ResolveURL fd.BaseURL (m.getD 1 [])) else none))

/-! ### The environment

The network and the file system answer the program's calls. An answer depends
only on the call's arguments. The calls made are recorded in a trace. -/

/-- What `fd.Client.Do(req)` gives for a GET request. -/
inductive Response where
  /-- `Do` returns an error. -/
  | transportError
  /-- `Do` returns a response with this status code; `body` is `none` when
  reading the body fails. -/
  | status (code : Nat) (body : Option GoString)
deriving DecidableEq, Repr

/-- The answers of the network and the file system. -/
structure Env where
  /-- Answer to a GET request for a URL with a user agent. -/
  Do : GoString → GoString → Response
  /-- Does `os.MkdirAll(path, 0755)` succeed? -/
  MkdirAll : GoString → Bool
  /-- Does `os.Create(path)` succeed? -/
  Create : GoString → Bool
  /-- Does writing this body to the file at this path succeed? -/
  Write : GoString → GoString → Bool

/-- The errors the program builds with `fmt.Errorf`. -/
inductive Error where
  | creandoRequest
  | obteniendoPagina
  | descargandoArchivo
  | httpError (code : Nat)
  | leyendoContenido
  | creandoDirectorio
  | creandoArchivo
  | escribiendoArchivo
deriving DecidableEq, Repr

instance exceptDecidableEq {α : Type} [DecidableEq α] : DecidableEq (Except Error α)
  | .ok a, .ok b =>
    if h : a = b then isTrue (by rw [h]) else isFalse (fun h2 => by cases h2; exact h rfl)
  | .error a, .error b =>
    if h : a = b then isTrue (by rw [h]) else isFalse (fun h2 => by cases h2; exact h rfl)
  | .ok _, .error _ => isFalse (fun h => by cases h)
  | .error _, .ok _ => isFalse (fun h => by cases h)

/-- The lines the program prints. -/
inductive Line where
  | errorObteniendoPagina
  | noSeEncontraron (fileExtension : GoString)
  | encontrados (n : Nat)
  | errorCreandoDirectorio
  | descargado (filename : GoString)
  | errorDescargando (url : GoString)
  | procesandoPagina (pageURL : GoString)
deriving DecidableEq, Repr

/-- A call the program makes to the outside. -/
inductive Event where
  | get (url : GoString)
  | mkdirAll (path : GoString)
  | create (path : GoString)
  | copy (path : GoString)
  | print (line : Line)
deriving DecidableEq, Repr

/-- Go `(*FileDownloader).FetchPageContent`: the result and the calls made.
`http.NewRequest` fails exactly when `url.Parse` does. -/
def FetchPageContent (env : Env) (fd : FileDownloader) (pageURL : GoString) :
    Except Error GoString × List Event :=
  match url.Parse pageURL with
  | none => (.error .creandoRequest, [])
  | some _ =>
    match env.Do pageURL fd.UserAgent with
    | .transportError => (.error .obteniendoPagina, [.get pageURL])
    | .status code body =>
      if code ≠ 200 then (.error (.httpError code), [.get pageURL])
      else
        match body with
        | none => (.error .leyendoContenido, [.get pageURL])
        | some b => (.ok b, [.get pageURL])

/-- Go `(*FileDownloader).DownloadFile`: the result and the calls made. -/
def DownloadFile (env : Env) (fd : FileDownloader) (fileURL outputPath : GoString) :
    Except Error Unit × List Event :=
  let dir := filepath.Dir outputPath
  if !env.MkdirAll dir then (.error .creandoDirectorio, [.mkdirAll dir])
  else
    match url.Parse fileURL with
    | none => (.error .creandoRequest, [.mkdirAll dir])
    | some _ =>
      match env.Do fileURL fd.UserAgent with
      | .transportError => (.error .descargandoArchivo, [.mkdirAll dir, .get fileURL])
      | .status code body =>
        if code ≠ 200 then (.error (.httpError code), [.mkdirAll dir, .get fileURL])
        else if !env.Create outputPath then
          (.error .creandoArchivo, [.mkdirAll dir, .get fileURL, .create outputPath])
        else
          match body with
          | none =>
            (.error .escribiendoArchivo,
              [.mkdirAll dir, .get fileURL, .create outputPath, .copy outputPath])
          | some b =>
            if !env.Write outputPath b then
              (.error .escribiendoArchivo,
                [.mkdirAll dir, .get fileURL, .create outputPath, .copy outputPath])
            else
              (.ok (),
                [.mkdirAll dir, .get fileURL, .create outputPath, .copy outputPath,
                 .print (.descargado (ExtractFilename fileURL))])

/-! ### The goroutines of `DownloadFilesFromPage`

One goroutine per link. A goroutine runs `DownloadFile` and then, if there was
no error, `mu.Lock(); successfulDownloads++; mu.Unlock()`; the increment is a
load followed by a store. The scheduler picks, at every step, one goroutine
that can move; a goroutine waiting in `mu.Lock()` can move only when the mutex
is free. `wg.Wait()` returns when every goroutine has finished. -/

/-- Where a goroutine is in its code. -/
inductive PC where
  /-- Created, `DownloadFile` not yet called. -/
  | start
  /-- `DownloadFile` returned nil; about to call `mu.Lock()`. -/
  | wantLock
  /-- Holds the mutex; about to load `successfulDownloads`. -/
  | locked
  /-- Has loaded the value `r`; about to store `r + 1`. -/
  | loaded (r : Nat)
  /-- Has stored; about to call `mu.Unlock()`. -/
  | stored
  /-- Finished (`wg.Done()` has run); `counted` tells whether it incremented. -/
  | done (counted : Bool)
deriving DecidableEq, Repr

/-- The state passed through the program: the number of scheduling decisions
taken so far and the calls made so far. -/
structure World where
  clock : Nat
  trace : List Event
deriving DecidableEq, Repr

/-- The state of the fan-out: the goroutines, the mutex `mu` (with the index
of its holder), the shared counter and the world. -/
structure FanOut where
  pc : Nat → PC
  mu : Option Nat
  successfulDownloads : Nat
  world : World

/-- Can goroutine `i` take a step? -/
def FanOut.enabled (s : FanOut) (i : Nat) : Bool :=
  match s.pc i with
  | .done _ => false
  | .wantLock => s.mu = none
  | _ => true

/-- The next step of goroutine `i` (the body of the `go func(url string)`). -/
def stepTask (env : Env) (fd : FileDownloader) (downloadDir : GoString)
    (fileLinks : List GoString) (s : FanOut) (i : Nat) : FanOut :=
  match s.pc i with
  | .start =>
    let url := fileLinks.getD i []
    let filename := ExtractFilename url
    let outputPath := filepath.Join [downloadDir, filename]
    match DownloadFile env fd url outputPath with
    | (.ok _, evs) =>
      { s with pc := Function.update s.pc i .wantLock,
               world := { s.world with trace := s.world.trace ++ evs } }
    | (.error _, evs) =>
      { s with pc := Function.update s.pc i (.done false),
               world := { s.world with
                          trace := s.world.trace ++ evs ++ [.print (.errorDescargando url)] } }
  | .wantLock =>
    if s.mu = none then { s with pc := Function.update s.pc i .locked, mu := some i } else s
  | .locked => { s with pc := Function.update s.pc i (.loaded s.successfulDownloads) }
  | .loaded r => { s with pc := Function.update s.pc i .stored, successfulDownloads := r + 1 }
  | .stored => { s with pc := Function.update s.pc i (.done true), mu := none }
  | .done _ => s

/-- Run the goroutines for at most `fuel` steps: at each step the scheduler's
choice `sched clock` selects one of the goroutines that can move. -/
def runTasks (env : Env) (sched : Nat → Nat) (fd : FileDownloader) (downloadDir : GoString)
    (fileLinks : List GoString) : Nat → FanOut → FanOut
  | 0, s => s
  | fuel + 1, s =>
    match (List.range fileLinks.length).filter s.enabled with
    | [] => s
    | i :: rest =>
      let chosen := (i :: rest).getD (sched s.world.clock % (i :: rest).length) i
      let s1 := stepTask env fd downloadDir fileLinks s chosen
      runTasks env sched fd downloadDir fileLinks fuel
        { s1 with world := { s1.world with clock := s1.world.clock + 1 } }

/-- The fan-out and the join of `DownloadFilesFromPage`: all goroutines
created, run until `wg.Wait()` returns. No goroutine takes more than five
steps. -/
def fanOut (env : Env) (sched : Nat → Nat) (fd : FileDownloader) (downloadDir : GoString)
    (fileLinks : List GoString) (w : World) : FanOut :=
  runTasks env sched fd downloadDir fileLinks (5 * fileLinks.length)
    { pc := fun _ => .start, mu := none, successfulDownloads := 0, world := w }

/-- Go `(*FileDownloader).DownloadFilesFromPage`: the returned count and the
world afterwards; the count is `none` when the call panics (in
`ParseFileLinks`). -/
def DownloadFilesFromPage (env : Env) (sched : Nat → Nat) (fd : FileDownloader) (w : World)
    (pageURL fileExtension downloadDir : GoString) : Option Nat × World :=
  match FetchPageContent env fd pageURL with
  | (.error _, evs) =>
    (some 0, { w with trace := w.trace ++ evs ++ [.print .errorObteniendoPagina] })
  | (.ok htmlContent, evs) =>
    match ParseFileLinks fd htmlContent fileExtension with
    | none => (none, { w with trace := w.trace ++ evs })
    | some fileLinks =>
      if fileLinks.length = 0 then
        (some 0, { w with trace := w.trace ++ evs ++ [.print (.noSeEncontraron fileExtension)] })
      else
        let w1 : World :=
          { w with trace := w.trace ++ evs ++
              [.print (.encontrados fileLinks.length), .mkdirAll downloadDir] }
        if !env.MkdirAll downloadDir then
          (some 0, { w1 with trace := w1.trace ++ [.print .errorCreandoDirectorio] })
        else
          let s := fanOut env sched fd downloadDir fileLinks w1
          (some s.successfulDownloads, s.world)

/-- The loop of `DownloadFromMultiplePages` over the pages still to process,
with the value of `totalDownloads`. A call that panics ends the program: the
pages after it are not processed. -/
def pagesLoop (env : Env) (sched : Nat → Nat) (fd : FileDownloader)
    (fileExtension downloadDir : GoString) : Nat → World → List GoString → Option Nat × World
  | totalDownloads, w, [] => (some totalDownloads, w)
  | totalDownloads, w, pageURL :: rest =>
    let w1 : World := { w with trace := w.trace ++ [.print (.procesandoPagina pageURL)] }
    match DownloadFilesFromPage env sched fd w1 pageURL fileExtension downloadDir with
    | (none, w2) => (none, w2)
    | (some downloads, w2) =>
      pagesLoop env sched fd fileExtension downloadDir (totalDownloads + downloads) w2 rest

/-- Go `(*FileDownloader).DownloadFromMultiplePages`: the total and the world
afterwards; the total is `none` when a call panics. -/
def DownloadFromMultiplePages (env : Env) (sched : Nat → Nat) (fd : FileDownloader)
    (w : World) (pageURLs : List GoString) (fileExtension downloadDir : GoString) :
    Option Nat × World :=
  pagesLoop env sched fd fileExtension downloadDir 0 w pageURLs

/-- Go `NewFileDownloader`. The timeout is in seconds. -/
def NewFileDownloader (baseURL : GoString) : FileDownloader :=
  { BaseURL := baseURL, UserAgent := lit "Mozilla/5.0 (Go FileDownloader)", Timeout := 30 }

/-! ## Definitions that follow the specification's words -/

/-! ### Paths -/

/-- The fixed fallback name of the Filename Extractor. -/
def fallbackName : GoString := lit "downloaded_file"

/-- The segments of a path: the pieces between its slashes. -/
def pathSegments (p : GoString) : List GoString := strings.Split 47 p

/-- The last segment of a path: what stands after its last slash. -/
def lastSegment (p : GoString) : GoString := (pathSegments p).getLast?.getD []

/-- The components of a path: its non-empty segments. -/
def pathComponents (p : GoString) : List GoString := (pathSegments p).filter (· ≠ [])

/-- The last component of a path: its last non-empty segment (trailing slashes
are ignored), if it has one. -/
def lastComponent (p : GoString) : Option GoString := (pathComponents p).getLast?

/-- The number of non-empty segments of a path after its first segment. -/
def tailCount (s : GoString) : Nat := ((strings.Split 47 s).tail.filter (· ≠ [])).length

/-- The result of `filepath.Clean` for a written buffer: an empty buffer is ".". -/
def cleanFinish (out : GoString) : GoString := if out = [] then [46] else out

/-! ### URLs -/

/-- A string is a syntactically absolute URL when it starts with a scheme: what
Go's `getScheme` accepts as a non-empty scheme followed by ":". -/
def hasScheme (s : GoString) : Bool :=
  match url.getScheme s with
  | some (scheme, _) => scheme ≠ []
  | none => false

/-- A byte that may start a scheme: a letter. -/
def isSchemeLetter (c : Nat) : Prop := (97 ≤ c ∧ c ≤ 122) ∨ (65 ≤ c ∧ c ≤ 90)

/-- A byte that may follow in a scheme besides letters: a digit, `+`, `-`, `.`. -/
def isSchemeOther (c : Nat) : Prop := (48 ≤ c ∧ c ≤ 57) ∨ c = 43 ∨ c = 45 ∨ c = 46

/-- A well-formed scheme: a letter, then letters, digits, `+`, `-` or `.`. -/
def validScheme : GoString → Prop
  | [] => False
  | c :: cs => isSchemeLetter c ∧ ∀ x ∈ cs, isSchemeLetter x ∨ isSchemeOther x

instance (c : Nat) : Decidable (isSchemeLetter c) := by
  unfold isSchemeLetter
  infer_instance

instance (c : Nat) : Decidable (isSchemeOther c) := by
  unfold isSchemeOther
  infer_instance

instance (s : GoString) : Decidable (validScheme s) := by
  cases s with
  | nil => exact isFalse (fun h => h)
  | cons c cs =>
    unfold validScheme
    infer_instance

/-- An unreserved byte (RFC 3986 §2.3): a letter, a digit, `-`, `_`, `.` or `~`. -/
def isUnreserved (c : Nat) : Prop :=
  (97 ≤ c ∧ c ≤ 122) ∨ (65 ≤ c ∧ c ≤ 90) ∨ (48 ≤ c ∧ c ≤ 57) ∨
    c = 45 ∨ c = 95 ∨ c = 46 ∨ c = 126

/-- A byte of a user name or a password that is written as it is: an unreserved
byte or one of `$ & + , ; =`. -/
def isUserinfoByte (c : Nat) : Prop :=
  isUnreserved c ∨ c = 36 ∨ c = 38 ∨ c = 43 ∨ c = 44 ∨ c = 59 ∨ c = 61

/-- A decimal digit. -/
def isDigit (c : Nat) : Prop := 48 ≤ c ∧ c ≤ 57

/-- A hexadecimal digit, in either case. -/
def isHexDigit (c : Nat) : Prop :=
  (48 ≤ c ∧ c ≤ 57) ∨ (97 ≤ c ∧ c ≤ 102) ∨ (65 ≤ c ∧ c ≤ 70)

/-- A byte of a path that is written as it is: an unreserved byte, one of
`! $ & ' ( ) * + , ; = : @ [ ]`, the separator `/`, or the `%` of an escape. -/
def isPathByte (c : Nat) : Prop :=
  isUnreserved c ∨
    c ∈ [33, 36, 38, 39, 40, 41, 42, 43, 44, 59, 61, 58, 64, 91, 93, 47, 37]

/-- A byte of a fragment that is written as it is: a path byte or `?`. -/
def isFragmentByte (c : Nat) : Prop := isPathByte c ∨ c = 63

/-- A byte of a query: any byte that is not a control byte and not `#`. -/
def isQueryByte (c : Nat) : Prop := 32 ≤ c ∧ c ≠ 127 ∧ c ≠ 35

instance (c : Nat) : Decidable (isUnreserved c) := by
  unfold isUnreserved
  infer_instance

instance (c : Nat) : Decidable (isUserinfoByte c) := by
  unfold isUserinfoByte
  infer_instance

instance (c : Nat) : Decidable (isDigit c) := by
  unfold isDigit
  infer_instance

instance (c : Nat) : Decidable (isHexDigit c) := by
  unfold isHexDigit
  infer_instance

instance (c : Nat) : Decidable (isPathByte c) := by
  unfold isPathByte
  infer_instance

instance (c : Nat) : Decidable (isFragmentByte c) := by
  unfold isFragmentByte
  infer_instance

instance (c : Nat) : Decidable (isQueryByte c) := by
  unfold isQueryByte
  infer_instance

/-- Every `%` of the text starts an escape: it is followed by two hexadecimal
digits. -/
def wellEscaped : GoString → Bool
  | [] => true
  | 37 :: h1 :: h2 :: rest => decide (isHexDigit h1) && decide (isHexDigit h2) && wellEscaped rest
  | 37 :: _ => false
  | _ :: rest => wellEscaped rest

/-- The path `/seg1/seg2/...` with the given segments. -/
def pathOfSegments (segs : List GoString) : GoString :=
  (segs.map (fun e => 47 :: e)).flatten

/-- The parts of an absolute URL
`scheme://[user[:password]@]host[:port][path][?query][#fragment]`. -/
structure AbsoluteURL where
  scheme : GoString
  /-- The user name and, if there is one, the password. -/
  userinfo : Option (GoString × Option GoString) := none
  host : GoString
  port : Option GoString := none
  path : GoString := []
  query : Option GoString := none
  fragment : Option GoString := none
deriving DecidableEq, Repr

/-- The text `user[:password]@` of the user information, if there is one. -/
def AbsoluteURL.userinfoText (a : AbsoluteURL) : GoString :=
  match a.userinfo with
  | none => []
  | some (user, none) => user ++ [64]
  | some (user, some password) => user ++ 58 :: (password ++ [64])

/-- The text `host[:port]`. -/
def AbsoluteURL.hostport (a : AbsoluteURL) : GoString :=
  a.host ++ (match a.port with
    | none => []
    | some port => 58 :: port)

/-- The text `[user[:password]@]host[:port]` of the authority. -/
def AbsoluteURL.authority (a : AbsoluteURL) : GoString :=
  a.userinfoText ++ a.hostport

/-- The text `?query` of the query, if there is one. -/
def AbsoluteURL.queryText (a : AbsoluteURL) : GoString :=
  match a.query with
  | none => []
  | some q => 63 :: q

/-- The text `#fragment` of the fragment, if there is one. -/
def AbsoluteURL.fragmentText (a : AbsoluteURL) : GoString :=
  match a.fragment with
  | none => []
  | some f => 35 :: f

/-- The text of the URL. -/
def AbsoluteURL.text (a : AbsoluteURL) : GoString :=
  a.scheme ++ 58 :: 47 :: 47 :: (a.authority ++ (a.path ++ (a.queryText ++ a.fragmentText)))

/-- The user information of the URL, as `net/url` holds it. -/
def AbsoluteURL.user (a : AbsoluteURL) : Option url.Userinfo :=
  match a.userinfo with
  | none => none
  | some (user, none) => some { username := user, password := [], passwordSet := false }
  | some (user, some password) =>
    some { username := user, password := password, passwordSet := true }

/-- The value of type `url.URL` that holds the parts of the URL: the path and the
fragment unescaped, with their raw text kept when escaping does not give it
back. -/
def AbsoluteURL.parsed (a : AbsoluteURL) : url.URL :=
  { Scheme := a.scheme
    User := a.user
    Host := a.hostport
    Path := url.unescapeDecode .encodePath a.path
    RawPath :=
      if a.path = url.escape (url.unescapeDecode .encodePath a.path) .encodePath then []
      else a.path
    ForceQuery := decide (a.query = some [])
    RawQuery := a.query.getD []
    Fragment := url.unescapeDecode .encodeFragment (a.fragment.getD [])
    RawFragment :=
      if a.fragment.getD [] =
          url.escape (url.unescapeDecode .encodeFragment (a.fragment.getD [])) .encodeFragment
      then []
      else a.fragment.getD [] }

/-- The absolute URLs written the way `net/url` writes them, with no dot segment
in the path. -/
structure AbsoluteURL.Canonical (a : AbsoluteURL) : Prop where
  /-- The scheme is well formed and in lower case. -/
  scheme : validScheme a.scheme ∧ ∀ c ∈ a.scheme, ¬ (65 ≤ c ∧ c ≤ 90)
  /-- The user name and the password hold bytes that are written as they are. -/
  userinfo : ∀ ui ∈ a.userinfo,
    (∀ c ∈ ui.1, isUserinfoByte c) ∧ ∀ p ∈ ui.2, ∀ c ∈ p, isUserinfoByte c
  /-- The host is a name of unreserved bytes. -/
  host : ∀ c ∈ a.host, isUnreserved c
  /-- The port is a decimal number. -/
  port : ∀ p ∈ a.port, ∀ c ∈ p, isDigit c
  /-- There is an authority or a path. -/
  nonempty : a.authority ≠ [] ∨ a.path ≠ []
  /-- The path is empty or starts with `/`. -/
  rooted : a.path = [] ∨ a.path.head? = some 47
  /-- The path holds bytes that are written as they are, and escapes. -/
  path : (∀ c ∈ a.path, isPathByte c) ∧ wellEscaped a.path = true
  /-- No segment of the path is `.` or `..`. -/
  segments : ∀ e ∈ pathSegments a.path, e ≠ [46] ∧ e ≠ [46, 46]
  /-- The query holds no control byte and no `#`. -/
  query : ∀ q ∈ a.query, ∀ c ∈ q, isQueryByte c
  /-- The fragment is not empty and holds bytes that are written as they are, and
  escapes. -/
  fragment : ∀ f ∈ a.fragment,
    f ≠ [] ∧ (∀ c ∈ f, isFragmentByte c) ∧ wellEscaped f = true

/-! ### UTF-8 -/

/-- A Unicode scalar value: a code point that is not a surrogate. A string is
valid UTF-8 exactly when it is the text `utf8.encode cps` of scalar values. -/
def IsScalarValue (c : Nat) : Prop := c < 0xD800 ∨ (0xE000 ≤ c ∧ c < 0x110000)

instance (c : Nat) : Decidable (IsScalarValue c) := by
  unfold IsScalarValue
  infer_instance

/-- A continuation byte of a UTF-8 sequence. -/
def IsCont (b : Nat) : Prop := 0x80 ≤ b ∧ b ≤ 0xBF

/-- The least second byte of a UTF-8 sequence whose first byte is `s0`. -/
def secondLo (s0 : Nat) : Nat := if s0 = 0xE0 then 0xA0 else if s0 = 0xF0 then 0x90 else 0x80

/-- The greatest second byte of a UTF-8 sequence whose first byte is `s0`. -/
def secondHi (s0 : Nat) : Nat := if s0 = 0xED then 0x9F else if s0 = 0xF4 then 0x8F else 0xBF

/-! ### Anchor references in a page -/

/-- The attribute name `href`. -/
def hrefName : GoString := lit "href"

/-- HTML white space: tab, line feed, form feed, carriage return, space. -/
def isHTMLSpace (c : Nat) : Prop := c = 9 ∨ c = 10 ∨ c = 12 ∨ c = 13 ∨ c = 32

instance (c : Nat) : Decidable (isHTMLSpace c) := by
  unfold isHTMLSpace
  infer_instance

/-- An anchor reference in a page, an `href` attribute with a quoted value: the
white space that separates the attribute from what stands before it in the tag,
`href`, white space, `=`, white space, and the value between two quotes of the
same kind. -/
structure HrefAttr where
  lead : GoString
  ws1 : GoString
  ws2 : GoString
  quote : Nat
  value : GoString
deriving DecidableEq, Repr

/-- The text of the attribute, from its name to its closing quote. -/
def HrefAttr.attr (a : HrefAttr) : GoString :=
  hrefName ++ (a.ws1 ++ 61 :: (a.ws2 ++ a.quote :: (a.value ++ [a.quote])))

/-- The text of an anchor reference. -/
def HrefAttr.text (a : HrefAttr) : GoString :=
  a.lead ++ a.attr

/-- An anchor reference is well formed: there is white space before the name,
white space is white space, the quote is `"` or `'`, and the value does not hold
the quote that encloses it. -/
def HrefAttr.WellFormed (a : HrefAttr) : Prop :=
  a.lead ≠ [] ∧ (∀ c ∈ a.lead, isHTMLSpace c) ∧
  (∀ c ∈ a.ws1, isHTMLSpace c) ∧ (∀ c ∈ a.ws2, isHTMLSpace c) ∧
  (a.quote = 34 ∨ a.quote = 39) ∧ a.quote ∉ a.value

instance (a : HrefAttr) : Decidable a.WellFormed := by
  unfold HrefAttr.WellFormed
  infer_instance

/-- What follows the first anchor reference of a page: each reference with the
text after it. -/
def pageRest : List (HrefAttr × GoString) → GoString
  | [] => []
  | p :: rest => p.1.text ++ (p.2 ++ pageRest rest)

/-- A page: the text before the first anchor reference, then the references in
document order, each followed by the text up to the next one. -/
def pageText (before : GoString) (items : List (HrefAttr × GoString)) : GoString :=
  before ++ pageRest items

/-- The quoted values of the references that contain the extension as a literal
substring, in document order. -/
def qualifyingValues (fileExtension : GoString) (items : List (HrefAttr × GoString)) :
    List GoString :=
  (items.map (fun p => p.1.value)).filter (fun v => strings.Contains v fileExtension)

/-- The word `href` occurs in the page only as the name of the listed
references: not in the text before them, not in a value, not in the text after
a reference. -/
def hrefOnlyInNames (before : GoString) (items : List (HrefAttr × GoString)) : Prop :=
  strings.Contains before hrefName = false ∧
  ∀ p ∈ items, strings.Contains p.1.value hrefName = false ∧
    strings.Contains p.2 hrefName = false

instance (before : GoString) (items : List (HrefAttr × GoString)) :
    Decidable (hrefOnlyInNames before items) := by
  unfold hrefOnlyInNames
  infer_instance

/-- No occurrence of the word `href` starts inside the text `t` when `t` is
followed by the text `X`. -/
def noHrefStart (t X : GoString) : Prop :=
  ∀ p1 p2 : GoString, t = p1 ++ p2 → p2 ≠ [] → hrefName.isPrefixOf (p2 ++ X) = false

/-- The raw links of a page: the text of the group in each match of the pattern,
in document order. -/
def rawLinks (re : regexp.Regexp) (htmlContent : GoString) : List GoString :=
  (regexp.FindAllStringSubmatch re htmlContent).filterMap
    (fun m => if m.length > 1 then some (m.getD 1 []) else none)

/-! ### The fan-out -/

/-- Does `DownloadFile` return no error for this link, with the destination path
that `DownloadFilesFromPage` builds for it? -/
def downloadSucceeds (env : Env) (fd : FileDownloader) (downloadDir url : GoString) : Bool :=
  match (DownloadFile env fd url (filepath.Join [downloadDir, ExtractFilename url])).1 with
  | .ok _ => true
  | .error _ => false

/-- Has the goroutine stored its increment? -/
def PC.counted : PC → Nat
  | .stored => 1
  | .done true => 1
  | _ => 0

/-- Is the goroutine between `mu.Lock()` and `mu.Unlock()`? -/
def PC.critical : PC → Bool
  | .locked => true
  | .loaded _ => true
  | .stored => true
  | _ => false

/-- An upper bound on the steps the goroutine still has to take. -/
def PC.remaining : PC → Nat
  | .start => 5
  | .wantLock => 4
  | .locked => 3
  | .loaded _ => 2
  | .stored => 1
  | .done _ => 0

/-- The sum of `f 0, ..., f (n - 1)`. -/
def sumUpTo (f : Nat → Nat) : Nat → Nat
  | 0 => 0
  | n + 1 => sumUpTo f n + f n

/-- The invariant of the fan-out over the links `fileLinks`, where `ok i` tells
whether the download of link `i` succeeds. -/
structure FanOut.Inv (ok : Nat → Bool) (n : Nat) (s : FanOut) : Prop where
  /-- Goroutines that do not exist have not moved. -/
  outside : ∀ i, n ≤ i → s.pc i = .start
  /-- A goroutine past `DownloadFile` went on to the counter exactly when its
  download succeeded. -/
  outcome : ∀ i, s.pc i ≠ .start → (ok i = true ↔ s.pc i ≠ .done false)
  /-- Mutual exclusion: the goroutine in the critical section is the holder of
  the mutex. -/
  mutex : ∀ i, (s.pc i).critical = true ↔ s.mu = some i
  /-- A loaded value is the current value of the counter. -/
  fresh : ∀ i r, s.pc i = .loaded r → r = s.successfulDownloads
  /-- The counter is the number of goroutines that have stored an increment. -/
  count : s.successfulDownloads = sumUpTo (fun i => (s.pc i).counted) n

/-- The calls of `DownloadFilesFromPage` that process a list of pages one after
the other, each in the world the previous one left: the page and the count the
call returned, `none` for a call that panics. No call follows a call that
panics. -/
def pageCalls (env : Env) (sched : Nat → Nat) (fd : FileDownloader)
    (fileExtension downloadDir : GoString) :
    World → List GoString → List (GoString × Option Nat)
  | _, [] => []
  | w, pageURL :: rest =>
    let w1 : World := { w with trace := w.trace ++ [.print (.procesandoPagina pageURL)] }
    let r := DownloadFilesFromPage env sched fd w1 pageURL fileExtension downloadDir
    (pageURL, r.1) ::
      (if r.1.isSome then pageCalls env sched fd fileExtension downloadDir r.2 rest else [])

/-- The world after those calls. -/
def worldAfterPages (env : Env) (sched : Nat → Nat) (fd : FileDownloader)
    (fileExtension downloadDir : GoString) : World → List GoString → World
  | w, [] => w
  | w, pageURL :: rest =>
    let w1 : World := { w with trace := w.trace ++ [.print (.procesandoPagina pageURL)] }
    let r := DownloadFilesFromPage env sched fd w1 pageURL fileExtension downloadDir
    if r.1.isSome then worldAfterPages env sched fd fileExtension downloadDir r.2 rest else r.2

/-- The pages whose processing the program announced, in the order of the trace. -/
def pagesProcessed (trace : List Event) : List GoString :=
  trace.filterMap (fun e =>
    match e with
    | .print (.procesandoPagina pageURL) => some pageURL
    | _ => none)

/-! ## Concrete inputs used in the examples -/

/-- The downloader that `main` builds. -/
def mainDownloader : FileDownloader := NewFileDownloader (lit "https://example.com/archives")

/-- The references of the page
`<a href="a.pdf">x</a> <a href = 'notes_pdf.txt'>y</a> <a href="b/c.pdf?x=1">z</a>`;
the value of the second one would match `.pdf` read as a regular expression. -/
def threeAnchors : List (HrefAttr × GoString) :=
  [ ({ lead := [32], ws1 := [], ws2 := [], quote := 34, value := lit "a.pdf" },
      lit ">x</a> <a"),
    ({ lead := [32], ws1 := [32], ws2 := [32], quote := 39, value := lit "notes_pdf.txt" },
      lit ">y</a> <a"),
    ({ lead := [32], ws1 := [], ws2 := [], quote := 34, value := lit "b/c.pdf?x=1" },
      lit ">z</a>") ]

/-- The one reference of the page `<a href="it's.pdf">`. -/
def apostropheAnchor : List (HrefAttr × GoString) :=
  [ ({ lead := [32], ws1 := [], ws2 := [], quote := 34, value := lit "it's.pdf" }, lit ">") ]

/-- The one reference of the page `<a href="a"b">`: the value `a`, then the text
`b">`. -/
def quoteAnchor : List (HrefAttr × GoString) :=
  [ ({ lead := [32], ws1 := [], ws2 := [], quote := 34, value := lit "a" }, lit "b\">") ]

/-- The one reference of the page `<a href="a\xff.pdf">`: the value holds the
byte `0xFF`, which is not part of a valid UTF-8 sequence. -/
def byteAnchor : List (HrefAttr × GoString) :=
  [ ({ lead := [32], ws1 := [], ws2 := [], quote := 34, value := 97 :: 255 :: lit ".pdf" },
      lit ">") ]

/-- The one reference of the page `<a href="\xff">`. -/
def strayByteAnchor : List (HrefAttr × GoString) :=
  [ ({ lead := [32], ws1 := [], ws2 := [], quote := 34, value := [255] }, lit ">") ]

/-- The parts of the URL `https://u:p@x.com:8080/a%20b.pdf?x=1#frag`. -/
def fullURL : AbsoluteURL :=
  { scheme := lit "https", userinfo := some (lit "u", some (lit "p")), host := lit "x.com",
    port := some (lit "8080"), path := lit "/a%20b.pdf", query := some (lit "x=1"),
    fragment := some (lit "frag") }

/-- The parts of the URL `https://x.com/dir/report.pdf`. -/
def reportURL : AbsoluteURL :=
  { scheme := lit "https", host := lit "x.com", path := lit "/dir/report.pdf" }

/-- The page `https://example.com/archives` of the first example: three links. -/
def threeLinkPage : GoString :=
  lit "<a href=\"a.pdf\">a</a> <a href=\"b.pdf\">b</a> <a href=\"c.pdf\">c</a>"

/-- An environment in which the page above is served, `c.pdf` answers with status
404 and every other request and file operation succeeds. -/
def threeLinkEnv : Env where
  Do := fun url _ =>
    if url = lit "https://example.com/archives" then .status 200 (some threeLinkPage)
    else if url = lit "https://example.com/c.pdf" then .status 404 (some [])
    else .status 200 (some (lit "data"))
  MkdirAll := fun _ => true
  Create := fun _ => true
  Write := fun _ _ => true

/-- A page with one hundred links `aa.bakent_fronted`, ..., `jj.bakent_fronted`. -/
def hundredLinkPage : GoString :=
  ((List.range 100).map (fun i =>
    lit "<a href=\"" ++ [97 + i / 10, 97 + i % 10] ++ lit ".bakent_fronted\">")).flatten

/-- The links of that page, resolved against `https://example.com/archives`. -/
def hundredLinks : List GoString :=
  (List.range 100).map (fun i =>
    lit "https://example.com/" ++ [97 + i / 10, 97 + i % 10] ++ lit ".bakent_fronted")

/-- An environment in which that page is served and every request and file
operation succeeds. -/
def hundredLinkEnv : Env where
  Do := fun url _ =>
    if url = lit "https://example.com/archives" then .status 200 (some hundredLinkPage)
    else .status 200 (some (lit "data"))
  MkdirAll := fun _ => true
  Create := fun _ => true
  Write := fun _ _ => true

/-- An environment in which no request gets through. -/
def offlineEnv : Env where
  Do := fun _ _ => .transportError
  MkdirAll := fun _ => true
  Create := fun _ => true
  Write := fun _ _ => true

/-- An environment with three pages: `/archives` links two files, `/downloads`
links none, `/files` links four; every download succeeds. -/
def threePageEnv : Env where
  Do := fun url _ =>
    if url = lit "https://example.com/archives" then
      .status 200 (some (lit "<a href=\"a.x\"> <a href=\"b.x\">"))
    else if url = lit "https://example.com/downloads" then
      .status 200 (some (lit "<a href=\"readme.txt\">"))
    else if url = lit "https://example.com/files" then
      .status 200 (some (lit "<a href=\"c.x\"> <a href=\"d.x\"> <a href=\"e.x\"> <a href=\"f.x\">"))
    else .status 200 (some (lit "data"))
  MkdirAll := fun _ => true
  Create := fun _ => true
  Write := fun _ _ => true

/-- The three pages of `DemoMultiplePages`. -/
def demoPages : List GoString :=
  [lit "https://example.com/archives", lit "https://example.com/downloads",
   lit "https://example.com/files"]

/-- A schedule used in the examples. -/
def exampleSchedule : Nat → Nat := fun t => 7 * t + 3

/-- The world at the start of the program. -/
def initialWorld : World := { clock := 0, trace := [] }

/-! # Theorems -/

/-! ## Facts about `strings` -/

section StringsFacts
open strings

theorem lit_dot : lit "." = [46] := by decide

theorem Split_ne_nil (c : Nat) (s : GoString) : Split c s ≠ [] := by
  induction s with
  | nil => simp [Split]
  | cons x xs ih =>
    unfold Split
    split
    · simp
    · split <;> simp

theorem Split_append_sep (c : Nat) (a b : GoString) :
    Split c (a ++ c :: b) = Split c a ++ Split c b := by
  induction a with
  | nil => simp [Split]
  | cons x xs ih =>
    by_cases hx : x = c
    · simp [Split, hx, ih]
    · have hne := Split_ne_nil c xs
      cases h : Split c xs with
      | nil => exact absurd h hne
      | cons e es => simp [Split, hx, ih, h]

theorem Split_of_not_mem (c : Nat) (e : GoString) (h : c ∉ e) : Split c e = [e] := by
  induction e with
  | nil => simp [Split]
  | cons x xs ih =>
    have hx : x ≠ c := fun hh => h (by simp [hh])
    have hxs : c ∉ xs := fun hh => h (by simp [hh])
    simp [Split, hx, ih hxs]

theorem Split_replicate (c : Nat) (k : Nat) :
    Split c (List.replicate k c) = List.replicate (k + 1) [] := by
  induction k with
  | zero => simp [Split]
  | succ n ih => simp [List.replicate_succ, Split, ih]

theorem LastIndex_of_not_mem (c : Nat) (e : GoString) (h : c ∉ e) :
    LastIndex e [c] = none := by
  induction e with
  | nil => simp [LastIndex]
  | cons x xs ih =>
    have hx : c ≠ x := fun hh => h (by simp [hh])
    have hxs : c ∉ xs := fun hh => h (by simp [hh])
    simp [LastIndex, ih hxs, List.isPrefixOf, hx]

theorem LastIndex_append_sep (c : Nat) (a e : GoString) (h : c ∉ e) :
    LastIndex (a ++ c :: e) [c] = some a.length := by
  induction a with
  | nil => simp [LastIndex, LastIndex_of_not_mem c e h, List.isPrefixOf]
  | cons x xs ih => simp [LastIndex, ih]

theorem rdropWhile_append_replicate (l : GoString) (k : Nat) :
    (l ++ List.replicate k 47).rdropWhile (· = 47) = l.rdropWhile (· = 47) := by
  induction k with
  | zero => simp
  | succ n ih =>
    rw [List.replicate_succ', ← List.append_assoc, List.rdropWhile_concat_pos _ _ _ (by simp), ih]

theorem rdropWhile_of_getLast (l : GoString) (x : Nat) (hx : x ≠ 47) :
    (l ++ [x]).rdropWhile (· = 47) = l ++ [x] := by
  rw [List.rdropWhile_concat_neg _ _ _ (by simpa using hx)]

/-- Every string is a run of slashes, or ends in a slash-free non-empty element
followed by a run of slashes; before the element stands nothing or a slash. -/
theorem slash_shape (p : GoString) :
    (∃ k, p = List.replicate k 47) ∨
    (∃ pre e k, p = pre ++ e ++ List.replicate k 47 ∧ e ≠ [] ∧ 47 ∉ e ∧
      (pre = [] ∨ ∃ q, pre = q ++ [47])) := by
  induction p using List.reverseRecOn with
  | nil => exact Or.inl ⟨0, rfl⟩
  | append_singleton q x ih =>
    by_cases hx : x = 47
    · subst hx
      rcases ih with ⟨k, rfl⟩ | ⟨pre, e, k, rfl, he, hm, hp⟩
      · exact Or.inl ⟨k + 1, by rw [List.replicate_succ']⟩
      · exact Or.inr ⟨pre, e, k + 1, by rw [List.replicate_succ']; simp, he, hm, hp⟩
    · rcases ih with ⟨k, rfl⟩ | ⟨pre, e, k, rfl, he, hm, hp⟩
      · refine Or.inr ⟨List.replicate k 47, [x], 0, by simp, by simp, by simpa using Ne.symm hx, ?_⟩
        cases k with
        | zero => exact Or.inl rfl
        | succ n => exact Or.inr ⟨List.replicate n 47, by rw [List.replicate_succ']⟩
      · cases k with
        | zero =>
          exact Or.inr ⟨pre, e ++ [x], 0, by simp, by simp,
            by simpa using ⟨hm, Ne.symm hx⟩, hp⟩
        | succ n =>
          exact Or.inr ⟨pre ++ e ++ List.replicate (n + 1) 47, [x], 0, by simp, by simp,
            by simpa using Ne.symm hx,
            Or.inr ⟨pre ++ e ++ List.replicate n 47, by rw [List.replicate_succ']; simp⟩⟩

end StringsFacts

/-! ## Facts about `path.Base` -/

section BaseFacts
open strings

theorem Base_nil : path.Base [] = [46] := by simp [path.Base]

theorem Base_replicate (k : Nat) : path.Base (List.replicate (k + 1) 47) = [47] := by
  have h : (List.replicate (k + 1) 47 : GoString).rdropWhile (· = 47) = [] := by
    have := rdropWhile_append_replicate [] (k + 1)
    simp at this
    simp [this]
  simp [path.Base, h, LastIndex]

theorem Base_elem (pre e : GoString) (k : Nat) (he : e ≠ []) (hm : 47 ∉ e)
    (hp : pre = [] ∨ ∃ q, pre = q ++ [47]) :
    path.Base (pre ++ e ++ List.replicate k 47) = e := by
  obtain ⟨e', x, rfl⟩ : ∃ e' x, e = e' ++ [x] := by
    rcases List.eq_nil_or_concat e with h | ⟨l, a, h⟩
    · exact absurd h he
    · exact ⟨l, a, by simpa using h⟩
  have hx : x ≠ 47 := fun h => hm (by simp [h])
  have h1 : (pre ++ (e' ++ [x]) ++ List.replicate k 47).rdropWhile (· = 47)
      = pre ++ (e' ++ [x]) := by
    rw [rdropWhile_append_replicate, ← List.append_assoc, rdropWhile_of_getLast _ _ hx]
  have hne : pre ++ (e' ++ [x]) ++ List.replicate k 47 ≠ [] := by simp
  unfold path.Base
  rw [if_neg hne]
  simp only [h1]
  rcases hp with rfl | ⟨q, rfl⟩
  · simp [LastIndex_of_not_mem 47 _ hm]
  · have : q ++ [47] ++ (e' ++ [x]) = q ++ 47 :: (e' ++ [x]) := by simp
    rw [this, LastIndex_append_sep 47 q _ hm]
    simp

theorem pathComponents_replicate (k : Nat) : pathComponents (List.replicate k 47) = [] := by
  simp [pathComponents, pathSegments, Split_replicate]

theorem pathComponents_elem (pre e : GoString) (k : Nat) (he : e ≠ []) (hm : 47 ∉ e)
    (hp : pre = [] ∨ ∃ q, pre = q ++ [47]) :
    pathComponents (pre ++ e ++ List.replicate k 47) = pathComponents pre ++ [e] := by
  have htail : pathComponents (e ++ List.replicate k 47) = [e] := by
    cases k with
    | zero => simp [pathComponents, pathSegments, Split_of_not_mem 47 e hm, he]
    | succ n =>
      rw [List.replicate_succ]
      simp [pathComponents, pathSegments, Split_append_sep, Split_of_not_mem 47 e hm,
        Split_replicate, he]
  rcases hp with rfl | ⟨q, rfl⟩
  · simpa [pathComponents, pathSegments, Split] using htail
  · have : q ++ [47] ++ e ++ List.replicate k 47 = q ++ 47 :: (e ++ List.replicate k 47) := by
      simp
    rw [this]
    have hq : q ++ [47] = q ++ 47 :: [] := rfl
    unfold pathComponents pathSegments at htail ⊢
    rw [Split_append_sep, hq, Split_append_sep, List.filter_append, List.filter_append, htail]
    simp [Split]

/-- What `path.Base` computes, in terms of the components of the path. -/
theorem Base_eq (p : GoString) :
    path.Base p =
      match lastComponent p with
      | some e => e
      | none => if p = [] then [46] else [47] := by
  rcases slash_shape p with ⟨k, rfl⟩ | ⟨pre, e, k, rfl, he, hm, hp⟩
  · unfold lastComponent
    rw [pathComponents_replicate]
    cases k with
    | zero => simp [Base_nil]
    | succ n => rw [Base_replicate]; simp [List.replicate_succ]
  · unfold lastComponent
    rw [Base_elem pre e k he hm hp, pathComponents_elem pre e k he hm hp]
    simp

theorem lastComponent_not_mem (p e : GoString) (h : lastComponent p = some e) :
    e ≠ [] ∧ 47 ∉ e := by
  rcases slash_shape p with ⟨k, rfl⟩ | ⟨pre, e', k, rfl, he, hm, hp⟩
  · unfold lastComponent at h
    rw [pathComponents_replicate] at h
    simp at h
  · unfold lastComponent at h
    rw [pathComponents_elem pre e' k he hm hp] at h
    simp at h
    subst h
    exact ⟨he, hm⟩

end BaseFacts

/-! ## `ExtractFilename` -/

section Filename
open strings

theorem fallbackName_facts :
    fallbackName ≠ [] ∧ fallbackName ≠ [46] ∧ fallbackName ≠ [47] ∧ 47 ∉ fallbackName := by
  decide

/-- What `ExtractFilename` does with a path that parsed. -/
theorem filename_of_path (p : GoString) :
    (if path.Base p = [46] ∨ path.Base p = [47] then fallbackName else path.Base p) =
      match lastComponent p with
      | none => fallbackName
      | some e => if e = lit "." then fallbackName else e := by
  rw [Base_eq p, lit_dot]
  cases h : lastComponent p with
  | none => by_cases hp : p = [] <;> simp [hp]
  | some e =>
    have h47 : e ≠ [47] := fun he => (lastComponent_not_mem p e h).2 (by simp [he])
    simp [h47]

/-- `ExtractFilename` in terms of the last component of the parsed path. -/
theorem ExtractFilename_eq (fileURL : GoString) :
    ExtractFilename fileURL =
      match url.Parse fileURL with
      | none => fallbackName
      | some u =>
        match lastComponent u.Path with
        | none => fallbackName
        | some e => if e = lit "." then fallbackName else e := by
  unfold ExtractFilename
  cases url.Parse fileURL with
  | none => rfl
  | some u => exact filename_of_path u.Path

/-- Claim C4, as amended: if the URL parses and its path has a last component (a
last non-empty segment, trailing slashes ignored) other than ".", the result is
that component; if the URL does not parse, or its path is empty or made of
slashes only, or its last component is ".", the result is "downloaded_file".
The three examples of the specification are instances. -/
theorem ExtractFilename_last_component :
    (∀ fileURL : GoString,
      ExtractFilename fileURL =
        match url.Parse fileURL with
        | none => fallbackName
        | some u =>
          match lastComponent u.Path with
          | none => fallbackName
          | some e => if e = lit "." then fallbackName else e) ∧
    ExtractFilename (lit "https://x.com/dir/report.pdf") = lit "report.pdf" ∧
    ExtractFilename (lit "https://x.com/") = lit "downloaded_file" ∧
    ExtractFilename (lit "https://x.com") = lit "downloaded_file" := by
  exact ⟨ExtractFilename_eq, by decide, by decide, by decide⟩

/-- Claim C4 fails as stated: "https://x.com/." parses, its path "/." is neither
empty nor "/", its last segment is ".", and the result is "downloaded_file". -/
theorem ExtractFilename_dot_counterexample :
    (url.Parse (lit "https://x.com/.")).map (fun u => u.Path) = some (lit "/.") ∧
    lit "/." ≠ [] ∧ lit "/." ≠ lit "/" ∧
    lastSegment (lit "/.") = lit "." ∧
    lastComponent (lit "/.") = some (lit ".") ∧
    ExtractFilename (lit "https://x.com/.") = lit "downloaded_file" ∧
    lit "downloaded_file" ≠ lit "." := by
  decide

end Filename

/-! ## `filepath.Join` with one more element -/

section JoinFacts
open strings

theorem components_length_cons (x : Nat) (s : GoString) :
    (pathComponents (x :: s)).length =
      if x = 47 then (pathComponents s).length else 1 + tailCount s := by
  unfold pathComponents pathSegments tailCount
  by_cases hx : x = 47
  · simp [Split, hx]
  · cases h : Split 47 s with
    | nil => exact absurd h (Split_ne_nil 47 s)
    | cons e es => simp [Split, hx, h, Nat.add_comm]

theorem tailCount_cons (x : Nat) (s : GoString) :
    tailCount (x :: s) = if x = 47 then (pathComponents s).length else tailCount s := by
  unfold pathComponents pathSegments tailCount
  by_cases hx : x = 47
  · simp [Split, hx]
  · cases h : Split 47 s with
    | nil => exact absurd h (Split_ne_nil 47 s)
    | cons e es => simp [Split, hx, h]

theorem components_length_mono (a t : GoString) :
    (pathComponents a).length ≤ (pathComponents (a ++ t)).length ∧
    tailCount a ≤ tailCount (a ++ t) := by
  induction a with
  | nil => simp [pathComponents, pathSegments, tailCount, Split]
  | cons x xs ih =>
    rw [List.cons_append, components_length_cons, components_length_cons, tailCount_cons,
      tailCount_cons]
    by_cases hx : x = 47
    · simp only [hx, if_true]; exact ⟨ih.1, ih.1⟩
    · simp only [hx, if_false]; exact ⟨by omega, ih.2⟩

theorem components_length_of_prefix (a b : GoString) (h : a <+: b) :
    (pathComponents a).length ≤ (pathComponents b).length := by
  obtain ⟨t, rfl⟩ := h
  exact (components_length_mono a t).1

theorem components_of_not_mem (e : GoString) (he : e ≠ []) (hm : 47 ∉ e) :
    pathComponents e = [e] := by
  simp [pathComponents, pathSegments, Split_of_not_mem 47 e hm, he]

theorem components_append_sep (out e : GoString) (he : e ≠ []) (hm : 47 ∉ e) :
    pathComponents (out ++ 47 :: e) = pathComponents out ++ [e] := by
  unfold pathComponents pathSegments
  rw [Split_append_sep, List.filter_append, Split_of_not_mem 47 e hm]
  simp [he]

theorem backtrackRev_suffix (d : Nat) (l : List Nat) : filepath.backtrackRev d l <:+ l := by
  induction l with
  | nil => simp [filepath.backtrackRev]
  | cons c rest ih =>
    unfold filepath.backtrackRev
    split
    · exact ih.trans (List.suffix_cons c rest)
    · exact List.suffix_cons c rest

/-- One element without a slash adds at most one component to the cleaned path. -/
theorem cleanStep_components (rooted : Bool) (st : GoString × Nat) (name : GoString)
    (hm : 47 ∉ name) :
    (pathComponents (cleanFinish (filepath.cleanStep rooted st name).1)).length ≤
      (pathComponents (cleanFinish st.1)).length + 1 := by
  have hfin : ∀ o : GoString, (pathComponents o).length ≤ (pathComponents (cleanFinish o)).length := by
    intro o
    unfold cleanFinish
    split
    · rename_i h; subst h; simp [pathComponents, pathSegments, Split]
    · exact le_refl _
  have hfin1 : ∀ o : GoString, (pathComponents (cleanFinish o)).length ≤
      (pathComponents o).length + 1 := by
    intro o
    unfold cleanFinish
    split
    · simp [pathComponents, pathSegments, Split]
    · omega
  have hone : ∀ o : GoString, 1 ≤ (pathComponents (cleanFinish o)).length + 1 := by
    intro o; omega
  unfold filepath.cleanStep
  by_cases h1 : name = [] ∨ name = [46]
  · rw [if_pos h1]; omega
  · rw [if_neg h1]
    have hne : name ≠ [] := fun h => h1 (Or.inl h)
    by_cases h2 : name = [46, 46]
    · rw [if_pos h2]
      by_cases h3 : st.1.length > st.2
      · rw [if_pos h3]
        have hpre : (filepath.backtrackRev st.2 st.1.reverse).reverse <+: st.1 := by
          have := backtrackRev_suffix st.2 st.1.reverse
          simpa using List.reverse_prefix.mpr this
        have := components_length_of_prefix _ _ hpre
        have := hfin1 (filepath.backtrackRev st.2 st.1.reverse).reverse
        have := hfin st.1
        simp only
        omega
      · rw [if_neg h3]
        by_cases h4 : rooted = true
        · simp [h4]
        · simp only [h4, Bool.not_false, if_true, Bool.false_eq_true, not_false_eq_true]
          by_cases h5 : st.1.length > 0
          · have hC := components_append_sep st.1 [46, 46] (by simp) (by simp)
            have hnn : st.1 ++ [47] ++ [46, 46] ≠ [] := by simp
            have e1 : st.1 ++ [47] ++ [46, 46] = st.1 ++ 47 :: [46, 46] := by simp
            simp only [h5, if_true]
            unfold cleanFinish
            rw [if_neg hnn, e1, hC]
            have := hfin st.1
            unfold cleanFinish at this
            simp only [List.length_append, List.length_singleton]
            omega
          · have h0 : st.1 = [] := by
              cases h : st.1 with
              | nil => rfl
              | cons a b => simp [h] at h5
            simp [h0, cleanFinish, pathComponents, pathSegments, Split]
    · rw [if_neg h2]
      simp only
      by_cases h6 : (rooted = true ∧ st.1.length ≠ 1) ∨ ((!rooted) = true ∧ st.1.length ≠ 0)
      · rw [if_pos h6]
        have hC := components_append_sep st.1 name hne hm
        have hnn : st.1 ++ [47] ++ name ≠ [] := by simp
        have e1 : st.1 ++ [47] ++ name = st.1 ++ 47 :: name := by simp
        unfold cleanFinish
        rw [if_neg hnn, e1, hC]
        have := hfin st.1
        unfold cleanFinish at this
        simp only [List.length_append, List.length_singleton]
        omega
      · rw [if_neg h6]
        have hlen : st.1.length = 1 ∨ st.1.length = 0 := by
          by_contra hcon
          apply h6
          cases hr : rooted
          · exact Or.inr ⟨rfl, fun h => hcon (Or.inr h)⟩
          · exact Or.inl ⟨rfl, fun h => hcon (Or.inl h)⟩
        rcases hlen with hl | hl
        · obtain ⟨c, hc⟩ : ∃ c, st.1 = [c] := List.length_eq_one.mp hl
          have hnn : st.1 ++ name ≠ [] := by simp [hne]
          unfold cleanFinish
          rw [if_neg hnn, hc]
          have hn1 := components_of_not_mem name hne hm
          have htc : tailCount name = 0 := by
            simp [tailCount, Split_of_not_mem 47 name hm]
          rw [List.singleton_append, components_length_cons, hn1, htc]
          split <;> simp
        · have h0 : st.1 = [] := List.length_eq_zero.mp hl
          have hn1 := components_of_not_mem name hne hm
          unfold cleanFinish
          rw [h0, List.nil_append, if_neg hne, hn1]
          simp

theorem Clean_eq_finish (p : GoString) (hp : p ≠ []) :
    filepath.Clean p =
      cleanFinish ((Split 47 p).foldl (filepath.cleanStep (p.head? = some 47))
        (if (decide (p.head? = some 47)) = true then ([47], 1) else ([], 0))).1 := by
  unfold filepath.Clean cleanFinish
  rw [if_neg hp]

/-- Joining one more element that has no slash adds at most one component. -/
theorem Join_components (dir name : GoString) (hm : 47 ∉ name) :
    (pathComponents (filepath.Join [dir, name])).length ≤
      (pathComponents (filepath.Join [dir])).length + 1 := by
  by_cases hd : dir = []
  · subst hd
    by_cases hn : name = []
    · subst hn
      simp [filepath.Join, pathComponents, pathSegments, Split]
    · have hJ : filepath.Join [[], name] = filepath.Clean name := by
        simp [filepath.Join, hn, List.intercalate]
      have hJ0 : filepath.Join [([] : GoString)] = [] := by simp [filepath.Join]
      rw [hJ, hJ0, Clean_eq_finish name hn, Split_of_not_mem 47 name hm]
      have hh : ¬ (name.head? = some 47) := by
        intro h
        cases name with
        | nil => simp at h
        | cons a b => simp at h; exact hm (by simp [h])
      simp only [hh, decide_False, Bool.false_eq_true, if_false, List.foldl_cons, List.foldl_nil]
      have hn1 := components_of_not_mem name hn hm
      unfold filepath.cleanStep cleanFinish
      by_cases h1 : name = [46]
      · simp [h1, pathComponents, pathSegments, Split]
      · by_cases h2 : name = [46, 46]
        · simp [h2, pathComponents, pathSegments, Split]
        · simp [hn, h1, h2, hn1]
  · have hJ : filepath.Join [dir, name] = filepath.Clean (dir ++ 47 :: name) := by
      simp [filepath.Join, hd, List.intercalate]
    have hJ0 : filepath.Join [dir] = filepath.Clean dir := by
      simp [filepath.Join, hd, List.intercalate]
    have hne : dir ++ 47 :: name ≠ [] := by simp
    have hhead : (dir ++ 47 :: name).head? = dir.head? := by
      cases dir with
      | nil => exact absurd rfl hd
      | cons a b => rfl
    rw [hJ, hJ0, Clean_eq_finish _ hne, Clean_eq_finish _ hd, hhead, Split_append_sep,
      Split_of_not_mem 47 name hm, List.foldl_append]
    exact cleanStep_components _ _ name hm

end JoinFacts

section FilenameSafety

/-- Claim C10: for every input string, the result of `ExtractFilename` is not
empty, is not "." and contains no "/"; so the destination path
`filepath.Join(downloadDir, ExtractFilename(url))` has at most one path component
more than `downloadDir` (cleaned): it never names a deeper subdirectory. -/
theorem ExtractFilename_single_component (downloadDir fileURL : GoString) :
    ExtractFilename fileURL ≠ [] ∧
    ExtractFilename fileURL ≠ lit "." ∧
    47 ∉ ExtractFilename fileURL ∧
    (pathComponents (filepath.Join [downloadDir, ExtractFilename fileURL])).length ≤
      (pathComponents (filepath.Join [downloadDir])).length + 1 := by
  have hcore : ExtractFilename fileURL ≠ [] ∧ ExtractFilename fileURL ≠ lit "." ∧
      47 ∉ ExtractFilename fileURL := by
    rw [ExtractFilename_eq fileURL, lit_dot]
    obtain ⟨f1, f2, _, f4⟩ := fallbackName_facts
    cases url.Parse fileURL with
    | none => exact ⟨f1, f2, f4⟩
    | some u =>
      dsimp only
      cases h : lastComponent u.Path with
      | none => exact ⟨f1, f2, f4⟩
      | some e =>
        have := lastComponent_not_mem u.Path e h
        dsimp only
        by_cases he : e = [46]
        · rw [if_pos he]; exact ⟨f1, f2, f4⟩
        · rw [if_neg he]
          exact ⟨this.1, he, this.2⟩
  exact ⟨hcore.1, hcore.2.1, hcore.2.2, Join_components _ _ hcore.2.2⟩

end FilenameSafety

/-! ## Facts about `net/url` -/

section URLFacts
open strings url

theorem getSchemeLoop_ok (raw : GoString) (s rest : GoString) :
    ∀ i : Nat, (∀ c ∈ s, isSchemeLetter c ∨ isSchemeOther c) →
      (i = 0 → ∃ c cs, s = c :: cs ∧ isSchemeLetter c) →
      getSchemeLoop raw i (s ++ 58 :: rest) =
        some (raw.take (i + s.length), raw.drop (i + s.length + 1)) := by
  induction s with
  | nil =>
    intro i _ h0
    have hi : i ≠ 0 := fun h => by obtain ⟨c, cs, h1, _⟩ := h0 h; simp at h1
    simp [getSchemeLoop, hi]
  | cons c cs ih =>
    intro i hall h0
    have hcs : ∀ x ∈ cs, isSchemeLetter x ∨ isSchemeOther x :=
      fun x hx => hall x (by simp [hx])
    have hrec := ih (i + 1) hcs (fun h => by omega)
    have hlen : i + (c :: cs).length = i + 1 + cs.length := by simp; omega
    by_cases hl : isSchemeLetter c
    · have hl' : (97 ≤ c ∧ c ≤ 122) ∨ (65 ≤ c ∧ c ≤ 90) := hl
      simp only [List.cons_append, getSchemeLoop, hl', if_true]
      rw [hlen]; exact hrec
    · have ho : isSchemeOther c := (hall c (by simp)).resolve_left hl
      have hi : i ≠ 0 := by
        intro h
        obtain ⟨c', cs', h1, h2⟩ := h0 h
        simp at h1
        exact hl (h1.1 ▸ h2)
      have hl' : ¬ ((97 ≤ c ∧ c ≤ 122) ∨ (65 ≤ c ∧ c ≤ 90)) := hl
      have ho' : (48 ≤ c ∧ c ≤ 57) ∨ c = 43 ∨ c = 45 ∨ c = 46 := ho
      simp only [List.cons_append, getSchemeLoop, hl', ho', if_true, if_false, hi]
      rw [hlen]; exact hrec

theorem getScheme_of_valid (s rest : GoString) (h : validScheme s) :
    getScheme (s ++ 58 :: rest) = some (s, rest) := by
  unfold getScheme
  cases s with
  | nil => exact absurd h (by simp [validScheme])
  | cons c cs =>
    have hv : isSchemeLetter c ∧ ∀ x ∈ cs, isSchemeLetter x ∨ isSchemeOther x := h
    rw [getSchemeLoop_ok _ (c :: cs) rest 0
      (fun x hx => by
        rcases List.mem_cons.mp hx with rfl | hx
        · exact Or.inl hv.1
        · exact hv.2 x hx)
      (fun _ => ⟨c, cs, rfl, hv.1⟩)]
    simp

theorem getSchemeLoop_valid (raw : GoString) (scheme rest : GoString) :
    ∀ (t pre : GoString), raw = pre ++ t →
      (∀ c ∈ pre, isSchemeLetter c ∨ isSchemeOther c) →
      (pre ≠ [] → validScheme pre) →
      getSchemeLoop raw pre.length t = some (scheme, rest) → scheme ≠ [] →
      validScheme scheme ∧ raw = scheme ++ 58 :: rest := by
  intro t
  induction t with
  | nil =>
    intro pre _ _ _ h hne
    simp [getSchemeLoop] at h
    exact absurd h.1 hne
  | cons c cs ih =>
    intro pre hraw hall hvalid h hne
    have hraw' : raw = (pre ++ [c]) ++ cs := by simp [hraw]
    have hlen : (pre ++ [c]).length = pre.length + 1 := by simp
    unfold getSchemeLoop at h
    by_cases hl : (97 ≤ c ∧ c ≤ 122) ∨ (65 ≤ c ∧ c ≤ 90)
    · rw [if_pos hl, ← hlen] at h
      refine ih (pre ++ [c]) hraw' ?_ ?_ h hne
      · intro x hx
        rcases List.mem_append.mp hx with hx | hx
        · exact hall x hx
        · simp at hx; subst hx; exact Or.inl hl
      · intro _
        cases pre with
        | nil => exact ⟨hl, by simp⟩
        | cons p ps =>
          have hv := hvalid (by simp)
          refine ⟨hv.1, ?_⟩
          intro x hx
          rcases List.mem_append.mp hx with hx | hx
          · exact hv.2 x hx
          · simp at hx; subst hx; exact Or.inl hl
    · rw [if_neg hl] at h
      by_cases ho : (48 ≤ c ∧ c ≤ 57) ∨ c = 43 ∨ c = 45 ∨ c = 46
      · rw [if_pos ho] at h
        by_cases hi : pre.length = 0
        · rw [if_pos hi] at h
          simp at h
          exact absurd h.1 hne
        · rw [if_neg hi, ← hlen] at h
          have hpre : pre ≠ [] := fun hp => hi (by simp [hp])
          refine ih (pre ++ [c]) hraw' ?_ ?_ h hne
          · intro x hx
            rcases List.mem_append.mp hx with hx | hx
            · exact hall x hx
            · simp at hx; subst hx; exact Or.inr ho
          · intro _
            cases pre with
            | nil => exact absurd rfl hpre
            | cons p ps =>
              have hv := hvalid (by simp)
              refine ⟨hv.1, ?_⟩
              intro x hx
              rcases List.mem_append.mp hx with hx | hx
              · exact hv.2 x hx
              · simp at hx; subst hx; exact Or.inr ho
      · rw [if_neg ho] at h
        by_cases h58 : c = 58
        · rw [if_pos h58] at h
          by_cases hi : pre.length = 0
          · rw [if_pos hi] at h; simp at h
          · rw [if_neg hi] at h
            have hpre : pre ≠ [] := fun hp => hi (by simp [hp])
            simp only [Option.some.injEq, Prod.mk.injEq] at h
            obtain ⟨h1, h2⟩ := h
            subst hraw
            simp at h1 h2
            subst h1 h2 h58
            exact ⟨hvalid hpre, rfl⟩
        · rw [if_neg h58] at h
          simp at h
          exact absurd h.1 hne

theorem getScheme_valid (raw scheme rest : GoString) (h : getScheme raw = some (scheme, rest))
    (hne : scheme ≠ []) : validScheme scheme ∧ raw = scheme ++ 58 :: rest :=
  getSchemeLoop_valid raw scheme rest raw [] rfl (by simp) (by simp) h hne

theorem validScheme_ToLower (s : GoString) (h : validScheme s) : validScheme (ToLower s) := by
  cases s with
  | nil => exact h
  | cons c cs =>
    have hv : isSchemeLetter c ∧ ∀ x ∈ cs, isSchemeLetter x ∨ isSchemeOther x := h
    have hlow : ∀ x, isSchemeLetter x → isSchemeLetter (if 65 ≤ x ∧ x ≤ 90 then x + 32 else x) := by
      intro x hx
      unfold isSchemeLetter at hx ⊢
      split <;> omega
    have hoth : ∀ x, isSchemeOther x → isSchemeOther (if 65 ≤ x ∧ x ≤ 90 then x + 32 else x) := by
      intro x hx
      unfold isSchemeOther at hx ⊢
      split <;> omega
    refine ⟨hlow c hv.1, ?_⟩
    intro x hx
    simp only [List.map_cons, List.mem_map] at hx
    obtain ⟨y, hy, rfl⟩ := hx
    rcases hv.2 y hy with h1 | h1
    · exact Or.inl (hlow y h1)
    · exact Or.inr (hoth y h1)

theorem hasScheme_of_valid (s rest : GoString) (h : validScheme s) :
    hasScheme (s ++ 58 :: rest) = true := by
  unfold hasScheme
  rw [getScheme_of_valid s rest h]
  cases s with
  | nil => exact absurd h (by simp [validScheme])
  | cons c cs => simp

end URLFacts

section ParseFacts
open strings url

theorem setPath_some (u : URL) (p : GoString) (u1 : URL) (h : setPath u p = some u1) :
    ∃ path, unescape p .encodePath = some path ∧
      u1 = { u with Path := path, RawPath := if p = escape path .encodePath then [] else p } := by
  unfold setPath at h
  cases hp : unescape p .encodePath with
  | none => simp [hp] at h
  | some path => simp [hp] at h; exact ⟨path, rfl, h.symm⟩

theorem setPath_Scheme (u : URL) (p : GoString) (u1 : URL) (h : setPath u p = some u1) :
    u1.Scheme = u.Scheme := by
  obtain ⟨path, _, rfl⟩ := setPath_some u p u1 h
  rfl

theorem setPathIgnoringError_Scheme (u : URL) (p : GoString) :
    (setPathIgnoringError u p).Scheme = u.Scheme := by
  unfold setPathIgnoringError
  cases h : setPath u p with
  | none => rfl
  | some u1 => exact setPath_Scheme u p u1 h

theorem setFragment_Scheme (u : URL) (f : GoString) (u1 : URL) (h : setFragment u f = some u1) :
    u1.Scheme = u.Scheme := by
  unfold setFragment at h
  cases hp : unescape f .encodeFragment with
  | none => simp [hp] at h
  | some frag => simp [hp] at h; subst h; rfl

theorem parseRest_Scheme (u : URL) (rest : GoString) (v : Bool) (u1 : URL)
    (h : parseRest u rest v = some u1) : u1.Scheme = u.Scheme := by
  unfold parseRest at h
  split_ifs at h
  · simp at h; subst h; rfl
  · dsimp only at h
    split at h
    · exact absurd h (by simp)
    · have := setPath_Scheme _ _ _ h
      exact this
  · have := setPath_Scheme _ _ _ h
    exact this
  · exact setPath_Scheme _ _ _ h

theorem parse_Scheme (raw : GoString) (v : Bool) (u : URL) (h : parse raw v = some u) :
    u.Scheme = [] ∨ validScheme u.Scheme := by
  unfold parse at h
  split_ifs at h
  · simp at h; subst h; exact Or.inl rfl
  · cases hg : getScheme raw with
    | none => simp [hg] at h
    | some p =>
      obtain ⟨scheme, rest⟩ := p
      simp only [hg] at h
      have hs := parseRest_Scheme _ _ _ _ h
      simp only at hs
      rw [hs]
      by_cases hne : scheme = []
      · left; simp [hne, ToLower]
      · right; exact validScheme_ToLower _ (getScheme_valid raw scheme rest hg hne).1

theorem Parse_Scheme (raw : GoString) (u : URL) (h : Parse raw = some u) :
    u.Scheme = [] ∨ validScheme u.Scheme := by
  unfold Parse at h
  dsimp only at h
  cases hp : parse (Cut raw [35]).1 false with
  | none => simp [hp] at h
  | some u0 =>
    simp only [hp] at h
    have h0 := parse_Scheme _ _ _ hp
    split_ifs at h
    · simp at h; subst h; exact h0
    · rw [setFragment_Scheme _ _ _ h]; exact h0

theorem ResolveReference_Scheme (b r : URL) :
    (ResolveReference b r).Scheme = if r.Scheme = [] then b.Scheme else r.Scheme := by
  unfold ResolveReference
  by_cases hs : r.Scheme = []
  · simp only [hs, if_true]
    split_ifs <;> simp [setPathIgnoringError_Scheme]
  · simp only [hs, if_false]
    split_ifs <;> simp [setPathIgnoringError_Scheme]

theorem String_Scheme (u : URL) (h : u.Scheme ≠ []) :
    ∃ rest, u.String = u.Scheme ++ 58 :: rest := by
  unfold URL.String
  simp only [h, ne_eq, not_false_eq_true, if_true, List.append_assoc, List.singleton_append,
    List.nil_append]
  exact ⟨_, rfl⟩

end ParseFacts

/-! ## `ResolveURL` -/

section ResolveFacts
open strings url

theorem ResolveURL_of_parsed (baseURL relativeURL : GoString) (b r : URL)
    (hb : Parse baseURL = some b) (hr : Parse relativeURL = some r) :
    ResolveURL baseURL relativeURL = (ResolveReference b r).String := by
  simp [ResolveURL, hb, hr]

theorem ResolveReference_of_Scheme (b r : URL) (hs : r.Scheme ≠ []) :
    ResolveReference b r = setPathIgnoringError r (resolvePath (EscapedPath r) []) := by
  simp [ResolveReference, hs]

/-- With an absolute base, a link that parses resolves to a string that starts
with a scheme; a link that does not parse is returned as it is. -/
theorem ResolveURL_hasScheme (baseURL v : GoString) (b : URL)
    (hb : Parse baseURL = some b) (hs : b.Scheme ≠ []) :
    hasScheme (ResolveURL baseURL v) = true ∨
      (Parse v = none ∧ ResolveURL baseURL v = v) := by
  cases hv : Parse v with
  | none => right; simp [ResolveURL, hb, hv]
  | some r =>
    left
    rw [ResolveURL_of_parsed baseURL v b r hb hv]
    have hsch := ResolveReference_Scheme b r
    have hvalid : validScheme (ResolveReference b r).Scheme := by
      rw [hsch]
      by_cases h : r.Scheme = []
      · rw [if_pos h]
        exact (Parse_Scheme baseURL b hb).resolve_left hs
      · rw [if_neg h]
        exact (Parse_Scheme v r hv).resolve_left h
    have hne : (ResolveReference b r).Scheme ≠ [] := by
      intro h; rw [h] at hvalid; exact hvalid
    obtain ⟨rest, hrest⟩ := String_Scheme _ hne
    rw [hrest]
    exact hasScheme_of_valid _ rest hvalid

/-- Claim C6: `ResolveURL` is a total function, and for every pair of strings,
if the base URL or the candidate URL fails to parse as a URL, the result is
exactly the candidate string. -/
theorem ResolveURL_parse_failure (baseURL relativeURL : GoString)
    (h : Parse baseURL = none ∨ Parse relativeURL = none) :
    ResolveURL baseURL relativeURL = relativeURL := by
  unfold ResolveURL
  rcases h with h | h
  · rw [h]
  · rw [h]
    cases Parse baseURL <;> rfl

/-- Claim C6 at concrete inputs: a base that does not parse (":" has no scheme
before its colon), and a candidate that does not parse ("%zz" is not an escape). -/
theorem ResolveURL_parse_failure_witness :
    (Parse (lit ":") = none ∨ Parse (lit "a.pdf") = none) ∧
    ResolveURL (lit ":") (lit "a.pdf") = lit "a.pdf" ∧
    (Parse (lit "https://example.com/archives") = none ∨ Parse (lit "%zz.pdf") = none) ∧
    ResolveURL (lit "https://example.com/archives") (lit "%zz.pdf") = lit "%zz.pdf" :=
  ⟨Or.inl (by decide),
   ResolveURL_parse_failure (lit ":") (lit "a.pdf") (Or.inl (by decide)),
   Or.inr (by decide),
   ResolveURL_parse_failure (lit "https://example.com/archives") (lit "%zz.pdf")
     (Or.inr (by decide))⟩

end ResolveFacts

/-! ## UTF-8: what `DecodeRuneInString` reads -/

section Utf8Facts
open utf8

theorem first_ascii (b : Nat) (h : b < 0x80) : first b = 0xF0 := by
  unfold first; rw [if_pos h]

theorem first_two (b : Nat) (h1 : 0xC2 ≤ b) (h2 : b ≤ 0xDF) : first b = 0x02 := by
  unfold first
  split_ifs <;> first | rfl | omega

theorem first_three (b : Nat) (h1 : 0xE0 ≤ b) (h2 : b ≤ 0xEF) :
    first b = if b = 0xE0 then 0x13 else if b = 0xED then 0x23 else 0x03 := by
  unfold first
  split_ifs <;> first | rfl | omega

theorem first_invalid (b : Nat) (h : (0x80 ≤ b ∧ b < 0xC2) ∨ 0xF5 ≤ b) : first b = 0xF1 := by
  unfold first
  split_ifs <;> first | rfl | omega

theorem Decode_ascii (s0 : Nat) (rest : GoString) (h : s0 < 0x80) :
    DecodeRuneInString (s0 :: rest) = (s0, 1) := by
  simp [DecodeRuneInString, first_ascii s0 h]

theorem Decode_invalid_first (s0 : Nat) (rest : GoString)
    (h : (0x80 ≤ s0 ∧ s0 < 0xC2) ∨ 0xF5 ≤ s0) :
    DecodeRuneInString (s0 :: rest) = (RuneError, 1) := by
  simp [DecodeRuneInString, first_invalid s0 h]

theorem Decode_two (s0 s1 : Nat) (rest : GoString) (h1 : 0xC2 ≤ s0) (h2 : s0 ≤ 0xDF) :
    DecodeRuneInString (s0 :: s1 :: rest) =
      if s1 < 0x80 ∨ 0xBF < s1 then (RuneError, 1) else (s0 % 32 * 64 + s1 % 64, 2) := by
  simp [DecodeRuneInString, first_two s0 h1 h2, acceptRanges]

theorem Decode_two_short (s0 : Nat) (h1 : 0xC2 ≤ s0) (h2 : s0 ≤ 0xDF) :
    DecodeRuneInString [s0] = (RuneError, 1) := by
  simp [DecodeRuneInString, first_two s0 h1 h2, acceptRanges]

theorem Decode_three (s0 s1 s2 : Nat) (rest : GoString) (h1 : 0xE0 ≤ s0) (h2 : s0 ≤ 0xEF) :
    DecodeRuneInString (s0 :: s1 :: s2 :: rest) =
      if s1 < secondLo s0 ∨ secondHi s0 < s1 then (RuneError, 1)
      else if s2 < 0x80 ∨ 0xBF < s2 then (RuneError, 1)
      else (s0 % 16 * 4096 + s1 % 64 * 64 + s2 % 64, 3) := by
  rcases (by omega : s0 = 0xE0 ∨ s0 = 0xED ∨ (s0 ≠ 0xE0 ∧ s0 ≠ 0xED)) with h | h | ⟨h3, h4⟩
  · subst h; simp [DecodeRuneInString, first, acceptRanges, secondLo, secondHi]
  · subst h; simp [DecodeRuneInString, first, acceptRanges, secondLo, secondHi]
  · have h5 : s0 ≠ 0xF0 := by omega
    have h6 : s0 ≠ 0xF4 := by omega
    simp [DecodeRuneInString, first_three s0 h1 h2, acceptRanges, secondLo, secondHi, h3, h4, h5, h6]

theorem Decode_three_short (s0 : Nat) (rest : GoString) (h1 : 0xE0 ≤ s0) (h2 : s0 ≤ 0xEF)
    (hlen : rest.length < 2) : DecodeRuneInString (s0 :: rest) = (RuneError, 1) := by
  have hx : first s0 % 8 = 3 := by
    rw [first_three s0 h1 h2]; split_ifs <;> rfl
  match rest, hlen with
  | [], _ => simp [DecodeRuneInString, hx]; intro h; rw [first_three s0 h1 h2] at h; split_ifs at h <;> omega
  | [s1], _ => simp [DecodeRuneInString, hx]; intro h; rw [first_three s0 h1 h2] at h; split_ifs at h <;> omega

theorem Decode_four (s0 s1 s2 s3 : Nat) (rest : GoString) (h1 : 0xF0 ≤ s0) (h2 : s0 ≤ 0xF4) :
    DecodeRuneInString (s0 :: s1 :: s2 :: s3 :: rest) =
      if s1 < secondLo s0 ∨ secondHi s0 < s1 then (RuneError, 1)
      else if s2 < 0x80 ∨ 0xBF < s2 then (RuneError, 1)
      else if s3 < 0x80 ∨ 0xBF < s3 then (RuneError, 1)
      else (s0 % 8 * 262144 + s1 % 64 * 4096 + s2 % 64 * 64 + s3 % 64, 4) := by
  rcases (by omega : s0 = 0xF0 ∨ s0 = 0xF1 ∨ s0 = 0xF2 ∨ s0 = 0xF3 ∨ s0 = 0xF4)
    with h | h | h | h | h <;> subst h <;>
    simp [DecodeRuneInString, first, acceptRanges, secondLo, secondHi]

theorem Decode_four_short (s0 : Nat) (rest : GoString) (h1 : 0xF0 ≤ s0) (h2 : s0 ≤ 0xF4)
    (hlen : rest.length < 3) : DecodeRuneInString (s0 :: rest) = (RuneError, 1) := by
  rcases (by omega : s0 = 0xF0 ∨ s0 = 0xF1 ∨ s0 = 0xF2 ∨ s0 = 0xF3 ∨ s0 = 0xF4)
    with h | h | h | h | h <;> subst h <;>
  · match rest, hlen with
    | [], _ => simp [DecodeRuneInString, first]
    | [s1], _ => simp [DecodeRuneInString, first]
    | [s1, s2], _ => simp [DecodeRuneInString, first]

/-- The cases of `DecodeRuneInString` on a non-empty string. -/
theorem Decode_cases (s0 : Nat) (rest : GoString) :
    (0x80 ≤ s0 ∧ DecodeRuneInString (s0 :: rest) = (RuneError, 1)) ∨
    (s0 < 0x80 ∧ DecodeRuneInString (s0 :: rest) = (s0, 1)) ∨
    (∃ s1 t, rest = s1 :: t ∧ 0xC2 ≤ s0 ∧ s0 ≤ 0xDF ∧ IsCont s1 ∧
      DecodeRuneInString (s0 :: rest) = (s0 % 32 * 64 + s1 % 64, 2)) ∨
    (∃ s1 s2 t, rest = s1 :: s2 :: t ∧ 0xE0 ≤ s0 ∧ s0 ≤ 0xEF ∧
      secondLo s0 ≤ s1 ∧ s1 ≤ secondHi s0 ∧ IsCont s2 ∧
      DecodeRuneInString (s0 :: rest) = (s0 % 16 * 4096 + s1 % 64 * 64 + s2 % 64, 3)) ∨
    (∃ s1 s2 s3 t, rest = s1 :: s2 :: s3 :: t ∧ 0xF0 ≤ s0 ∧ s0 ≤ 0xF4 ∧
      secondLo s0 ≤ s1 ∧ s1 ≤ secondHi s0 ∧ IsCont s2 ∧ IsCont s3 ∧
      DecodeRuneInString (s0 :: rest) =
        (s0 % 8 * 262144 + s1 % 64 * 4096 + s2 % 64 * 64 + s3 % 64, 4)) := by
  rcases (by omega : s0 < 0x80 ∨ ((0x80 ≤ s0 ∧ s0 < 0xC2) ∨ 0xF5 ≤ s0) ∨
      (0xC2 ≤ s0 ∧ s0 ≤ 0xDF) ∨ (0xE0 ≤ s0 ∧ s0 ≤ 0xEF) ∨ (0xF0 ≤ s0 ∧ s0 ≤ 0xF4))
    with h | h | ⟨h1, h2⟩ | ⟨h1, h2⟩ | ⟨h1, h2⟩
  · exact Or.inr (Or.inl ⟨h, Decode_ascii s0 rest h⟩)
  · exact Or.inl ⟨by omega, Decode_invalid_first s0 rest h⟩
  · match rest with
    | [] => exact Or.inl ⟨by omega, Decode_two_short s0 h1 h2⟩
    | s1 :: t =>
      rw [Decode_two s0 s1 t h1 h2]
      by_cases hc : s1 < 0x80 ∨ 0xBF < s1
      · rw [if_pos hc]; exact Or.inl ⟨by omega, rfl⟩
      · rw [if_neg hc]
        exact Or.inr (Or.inr (Or.inl ⟨s1, t, rfl, h1, h2, by unfold IsCont; omega, rfl⟩))
  · match rest with
    | [] => exact Or.inl ⟨by omega, Decode_three_short s0 [] h1 h2 (by simp)⟩
    | [s1] => exact Or.inl ⟨by omega, Decode_three_short s0 [s1] h1 h2 (by simp)⟩
    | s1 :: s2 :: t =>
      rw [Decode_three s0 s1 s2 t h1 h2]
      by_cases hc : s1 < secondLo s0 ∨ secondHi s0 < s1
      · rw [if_pos hc]; exact Or.inl ⟨by omega, rfl⟩
      · rw [if_neg hc]
        by_cases hc2 : s2 < 0x80 ∨ 0xBF < s2
        · rw [if_pos hc2]; exact Or.inl ⟨by omega, rfl⟩
        · rw [if_neg hc2]
          exact Or.inr (Or.inr (Or.inr (Or.inl ⟨s1, s2, t, rfl, h1, h2, by omega, by omega,
            by unfold IsCont; omega, rfl⟩)))
  · match rest with
    | [] => exact Or.inl ⟨by omega, Decode_four_short s0 [] h1 h2 (by simp)⟩
    | [s1] => exact Or.inl ⟨by omega, Decode_four_short s0 [s1] h1 h2 (by simp)⟩
    | [s1, s2] => exact Or.inl ⟨by omega, Decode_four_short s0 [s1, s2] h1 h2 (by simp)⟩
    | s1 :: s2 :: s3 :: t =>
      rw [Decode_four s0 s1 s2 s3 t h1 h2]
      by_cases hc : s1 < secondLo s0 ∨ secondHi s0 < s1
      · rw [if_pos hc]; exact Or.inl ⟨by omega, rfl⟩
      · rw [if_neg hc]
        by_cases hc2 : s2 < 0x80 ∨ 0xBF < s2
        · rw [if_pos hc2]; exact Or.inl ⟨by omega, rfl⟩
        · rw [if_neg hc2]
          by_cases hc3 : s3 < 0x80 ∨ 0xBF < s3
          · rw [if_pos hc3]; exact Or.inl ⟨by omega, rfl⟩
          · rw [if_neg hc3]
            exact Or.inr (Or.inr (Or.inr (Or.inr ⟨s1, s2, s3, t, rfl, h1, h2, by omega, by omega,
              by unfold IsCont; omega, by unfold IsCont; omega, rfl⟩)))

/-- Decoding what `AppendRune` wrote gives the code point back. -/
theorem DecodeRune_AppendRune (c : Nat) (rest : GoString) (hc : IsScalarValue c) :
    DecodeRuneInString (AppendRune c ++ rest) = (c, (AppendRune c).length) := by
  unfold IsScalarValue at hc
  unfold AppendRune
  by_cases h1 : c < 0x80
  · rw [if_pos h1]
    exact Decode_ascii c rest h1
  · rw [if_neg h1]
    by_cases h2 : c < 0x800
    · rw [if_pos h2]
      show DecodeRuneInString ((0xC0 + c / 64) :: (0x80 + c % 64) :: rest) = _
      rw [Decode_two _ _ _ (by omega) (by omega), if_neg (by omega)]
      simp only [List.length_cons, List.length_nil, Prod.mk.injEq, and_true]
      omega
    · rw [if_neg h2]
      by_cases h3 : c < 0x10000
      · rw [if_pos h3]
        show DecodeRuneInString
          ((0xE0 + c / 4096) :: (0x80 + c / 64 % 64) :: (0x80 + c % 64) :: rest) = _
        rw [Decode_three _ _ _ _ (by omega) (by omega),
          if_neg (by unfold secondLo secondHi; split_ifs <;> omega), if_neg (by omega)]
        simp only [List.length_cons, List.length_nil, Prod.mk.injEq, and_true]
        omega
      · rw [if_neg h3]
        show DecodeRuneInString
          ((0xF0 + c / 262144) :: (0x80 + c / 4096 % 64) :: (0x80 + c / 64 % 64) ::
            (0x80 + c % 64) :: rest) = _
        rw [Decode_four _ _ _ _ _ (by omega) (by omega),
          if_neg (by unfold secondLo secondHi; split_ifs <;> omega), if_neg (by omega),
          if_neg (by omega)]
        simp only [List.length_cons, List.length_nil, Prod.mk.injEq, and_true]
        omega

/-- A rune that `DecodeRuneInString` read from a valid sequence is a scalar value,
and the bytes read are its encoding. -/
theorem AppendRune_DecodeRune (s0 : Nat) (rest : GoString) (r n : Nat)
    (h : DecodeRuneInString (s0 :: rest) = (r, n)) (hv : ¬ (r = RuneError ∧ n = 1)) :
    IsScalarValue r ∧ n = (AppendRune r).length ∧
      s0 :: rest = AppendRune r ++ (s0 :: rest).drop n := by
  rcases Decode_cases s0 rest with ⟨_, hd⟩ | ⟨h1, hd⟩ | ⟨s1, t, rfl, h1, h2, hc1, hd⟩ |
      ⟨s1, s2, t, rfl, h1, h2, hlo, hhi, hc2, hd⟩ |
      ⟨s1, s2, s3, t, rfl, h1, h2, hlo, hhi, hc2, hc3, hd⟩
  · rw [hd] at h
    simp only [Prod.mk.injEq] at h
    exact absurd ⟨h.1.symm, h.2.symm⟩ hv
  · rw [hd] at h
    simp only [Prod.mk.injEq] at h
    obtain ⟨rfl, rfl⟩ := h
    refine ⟨Or.inl (by omega), ?_, ?_⟩ <;> simp [AppendRune, h1]
  · rw [hd] at h
    simp only [Prod.mk.injEq] at h
    obtain ⟨rfl, rfl⟩ := h
    unfold IsCont at hc1
    have hr1 : ¬ (s0 % 32 * 64 + s1 % 64 < 0x80) := by omega
    have hr2 : s0 % 32 * 64 + s1 % 64 < 0x800 := by omega
    refine ⟨Or.inl (by omega), ?_, ?_⟩
    · simp [AppendRune, hr1, hr2]
    · simp only [AppendRune, if_neg hr1, if_pos hr2, List.drop_succ_cons, List.drop_zero,
        List.cons_append, List.nil_append, List.cons.injEq, and_true]
      omega
  · rw [hd] at h
    simp only [Prod.mk.injEq] at h
    obtain ⟨rfl, rfl⟩ := h
    unfold IsCont at hc2
    have hlo' : 0x80 ≤ s1 ∧ (s0 = 0xE0 → 0xA0 ≤ s1) := by
      unfold secondLo at hlo; split_ifs at hlo <;> omega
    have hhi' : s1 ≤ 0xBF ∧ (s0 = 0xED → s1 ≤ 0x9F) := by
      unfold secondHi at hhi; split_ifs at hhi <;> omega
    have hr1 : ¬ (s0 % 16 * 4096 + s1 % 64 * 64 + s2 % 64 < 0x80) := by omega
    have hr2 : ¬ (s0 % 16 * 4096 + s1 % 64 * 64 + s2 % 64 < 0x800) := by omega
    have hr3 : s0 % 16 * 4096 + s1 % 64 * 64 + s2 % 64 < 0x10000 := by omega
    refine ⟨?_, ?_, ?_⟩
    · unfold IsScalarValue; omega
    · simp [AppendRune, hr1, hr2, hr3]
    · simp only [AppendRune, if_neg hr1, if_neg hr2, if_pos hr3, List.drop_succ_cons,
        List.drop_zero, List.cons_append, List.nil_append, List.cons.injEq, and_true]
      omega
  · rw [hd] at h
    simp only [Prod.mk.injEq] at h
    obtain ⟨rfl, rfl⟩ := h
    unfold IsCont at hc2 hc3
    have hlo' : 0x80 ≤ s1 ∧ (s0 = 0xF0 → 0x90 ≤ s1) := by
      unfold secondLo at hlo; split_ifs at hlo <;> omega
    have hhi' : s1 ≤ 0xBF ∧ (s0 = 0xF4 → s1 ≤ 0x8F) := by
      unfold secondHi at hhi; split_ifs at hhi <;> omega
    have hr1 : ¬ (s0 % 8 * 262144 + s1 % 64 * 4096 + s2 % 64 * 64 + s3 % 64 < 0x80) := by omega
    have hr2 : ¬ (s0 % 8 * 262144 + s1 % 64 * 4096 + s2 % 64 * 64 + s3 % 64 < 0x800) := by omega
    have hr3 : ¬ (s0 % 8 * 262144 + s1 % 64 * 4096 + s2 % 64 * 64 + s3 % 64 < 0x10000) := by
      omega
    refine ⟨?_, ?_, ?_⟩
    · unfold IsScalarValue; omega
    · simp [AppendRune, hr1, hr2, hr3]
    · simp only [AppendRune, if_neg hr1, if_neg hr2, if_neg hr3, List.drop_succ_cons,
        List.drop_zero, List.cons_append, List.nil_append, List.cons.injEq, and_true]
      omega

/-- The shape of what `DecodeRuneInString` reads: at least one byte, no more than
there are; an ASCII byte is read as itself, any other first byte gives a rune
that is not ASCII; the bytes read after the first are continuation bytes. -/
theorem Decode_shape (s0 : Nat) (rest : GoString) :
    1 ≤ (DecodeRuneInString (s0 :: rest)).2 ∧
    (DecodeRuneInString (s0 :: rest)).2 ≤ rest.length + 1 ∧
    (s0 < 0x80 → DecodeRuneInString (s0 :: rest) = (s0, 1)) ∧
    (0x80 ≤ s0 → 0x80 ≤ (DecodeRuneInString (s0 :: rest)).1) ∧
    ∀ x ∈ rest.take ((DecodeRuneInString (s0 :: rest)).2 - 1), IsCont x := by
  rcases Decode_cases s0 rest with ⟨h0, hd⟩ | ⟨h1, hd⟩ | ⟨s1, t, rfl, h1, h2, hc1, hd⟩ |
      ⟨s1, s2, t, rfl, h1, h2, hlo, hhi, hc2, hd⟩ |
      ⟨s1, s2, s3, t, rfl, h1, h2, hlo, hhi, hc2, hc3, hd⟩
  · rw [hd]
    refine ⟨by simp, by simp, fun h => by omega, fun _ => by simp [RuneError], by simp⟩
  · rw [hd]
    refine ⟨by simp, by simp, fun _ => rfl, fun h => by omega, by simp⟩
  · rw [hd]
    refine ⟨by simp, by simp, fun h => by omega, fun _ => by simp only; omega, ?_⟩
    intro x hx
    simp at hx
    rw [hx]; exact hc1
  · rw [hd]
    have hc1 : IsCont s1 := by
      unfold IsCont secondLo secondHi at *
      split_ifs at hlo hhi <;> omega
    have hlo' : 0x80 ≤ s1 ∧ (s0 = 0xE0 → 0xA0 ≤ s1) := by
      unfold secondLo at hlo; split_ifs at hlo <;> omega
    unfold IsCont at hc1
    refine ⟨by simp, by simp, fun h => by omega, fun _ => by simp only; omega, ?_⟩
    · intro x hx
      simp at hx
      rcases hx with rfl | rfl
      · exact hc1
      · exact hc2
  · rw [hd]
    have hc1 : IsCont s1 := by
      unfold IsCont secondLo secondHi at *
      split_ifs at hlo hhi <;> omega
    have hlo' : 0x80 ≤ s1 ∧ (s0 = 0xF0 → 0x90 ≤ s1) := by
      unfold secondLo at hlo; split_ifs at hlo <;> omega
    unfold IsCont at hc1
    refine ⟨by simp, by simp, fun h => by omega, fun _ => by simp only; omega, ?_⟩
    · intro x hx
      simp at hx
      rcases hx with rfl | rfl | rfl
      · exact hc1
      · exact hc2
      · exact hc3

end Utf8Facts


/-! ## `ParseFileLinks` -/

section LinkFacts
open strings regexp utf8

theorem hrefName_eq : hrefName = [104, 114, 101, 102] := by decide

theorem encode_cons (c : Nat) (cs : List Nat) :
    utf8.encode (c :: cs) = AppendRune c ++ utf8.encode cs := by
  simp [utf8.encode]

theorem AppendRune_ne_nil (c : Nat) : AppendRune c ≠ [] := by
  unfold AppendRune
  split_ifs <;> simp

theorem literalRunes_skip (pre s : GoString) :
    literalRunes pre.length (pre ++ s) = literalRunes 0 s := by
  induction pre with
  | nil => rfl
  | cons c cs ih =>
    show literalRunes (cs.length + 1) (c :: (cs ++ s)) = _
    simp only [literalRunes]
    exact ih

/-- The parser reads a valid UTF-8 extension as the code points it encodes. -/
theorem literalRunes_encode (cps : List Nat) (h : ∀ c ∈ cps, IsScalarValue c) :
    literalRunes 0 (utf8.encode cps) = some cps := by
  induction cps with
  | nil => rfl
  | cons c cs ih =>
    have hc := h c (by simp)
    have hcs := ih (fun x hx => h x (by simp [hx]))
    rw [encode_cons]
    have hd := DecodeRune_AppendRune c (utf8.encode cs) hc
    cases ha : AppendRune c with
    | nil => exact absurd ha (AppendRune_ne_nil c)
    | cons b bs =>
      rw [ha] at hd
      simp only [List.cons_append] at hd ⊢
      simp only [literalRunes, hd, List.length_cons, Nat.add_sub_cancel]
      have hv : ¬ (c = RuneError ∧ bs.length + 1 = 1) := by
        rintro ⟨h1, h2⟩
        have hbs : bs = [] := List.length_eq_zero.mp (by omega)
        subst hbs
        unfold AppendRune at ha
        unfold RuneError at h1
        subst h1
        simp at ha
      rw [if_neg hv, literalRunes_skip, hcs]
      rfl

/-- What the parser reads is valid UTF-8: the text of the scalar values read. -/
theorem literalRunes_some :
    ∀ (n : Nat) (s : GoString), s.length ≤ n → ∀ rs, literalRunes 0 s = some rs →
      (∀ c ∈ rs, IsScalarValue c) ∧ s = utf8.encode rs := by
  intro n
  induction n with
  | zero =>
    intro s hn rs h
    have : s = [] := List.length_eq_zero.mp (by omega)
    subst this
    simp only [literalRunes, Option.some.injEq] at h
    subst h
    exact ⟨by simp, rfl⟩
  | succ n ih =>
    intro s hn rs h
    cases s with
    | nil =>
      simp only [literalRunes, Option.some.injEq] at h
      subst h
      exact ⟨by simp, rfl⟩
    | cons c cs =>
      cases hdd : DecodeRuneInString (c :: cs) with
      | mk r k =>
        simp only [literalRunes, hdd] at h
        by_cases hv : r = RuneError ∧ k = 1
        · rw [if_pos hv] at h
          exact absurd h (by simp)
        · rw [if_neg hv] at h
          obtain ⟨hsc, hk, hs⟩ := AppendRune_DecodeRune c cs r k hdd hv
          have hshape := Decode_shape c cs
          rw [hdd] at hshape
          simp only at hshape
          have hsplit : cs = cs.take (k - 1) ++ cs.drop (k - 1) := (List.take_append_drop _ _).symm
          have hlen : (cs.take (k - 1)).length = k - 1 := by
            rw [List.length_take]; omega
          have hskip := literalRunes_skip (cs.take (k - 1)) (cs.drop (k - 1))
          rw [hlen, ← hsplit] at hskip
          rw [hskip] at h
          cases hrec : literalRunes 0 (cs.drop (k - 1)) with
          | none => rw [hrec] at h; exact absurd h (by simp)
          | some rs1 =>
            rw [hrec] at h
            simp only [Option.map_some', Option.some.injEq] at h
            subst h
            obtain ⟨h1, h2⟩ := ih (cs.drop (k - 1))
              (by rw [List.length_drop]; simp at hn; omega) rs1 hrec
            refine ⟨?_, ?_⟩
            · intro x hx
              rcases List.mem_cons.mp hx with rfl | hx
              · exact hsc
              · exact h1 x hx
            · rw [encode_cons, ← h2]
              have hd : (c :: cs).drop k = cs.drop (k - 1) := by
                have : k = (k - 1) + 1 := by omega
                rw [this, List.drop_succ_cons]
                simp
              rw [← hd]
              exact hs

/-- `MustCompile` returns for a valid UTF-8 extension. -/
theorem MustCompile_encode (cps : List Nat) (h : ∀ c ∈ cps, IsScalarValue c) :
    MustCompile (utf8.encode cps) = some { ext := cps } := by
  simp [MustCompile, literalRunes_encode cps h]

theorem AppendRune_bytes (c : Nat) :
    (c < 0x80 ∧ AppendRune c = [c]) ∨ (0x80 ≤ c ∧ ∀ b ∈ AppendRune c, 0x80 ≤ b) := by
  unfold AppendRune
  by_cases h1 : c < 0x80
  · left; exact ⟨h1, by rw [if_pos h1]⟩
  · right
    refine ⟨by omega, ?_⟩
    rw [if_neg h1]
    split_ifs <;> (intro b hb; simp at hb; omega)

theorem AppendRune_head (c : Nat) :
    ∃ b bs, AppendRune c = b :: bs ∧ ¬ IsCont b := by
  unfold AppendRune IsCont
  split_ifs
  · exact ⟨_, _, rfl, by omega⟩
  · exact ⟨_, _, rfl, by omega⟩
  · exact ⟨_, _, rfl, by omega⟩
  · exact ⟨_, _, rfl, by omega⟩

theorem encode_head (cps : List Nat) :
    utf8.encode cps = [] ∨ ∃ b bs, utf8.encode cps = b :: bs ∧ ¬ IsCont b := by
  cases cps with
  | nil => left; rfl
  | cons c cs =>
    right
    obtain ⟨b, bs, hb, hnc⟩ := AppendRune_head c
    exact ⟨b, bs ++ utf8.encode cs, by rw [encode_cons, hb]; rfl, hnc⟩

theorem encode_no_quote (cps : List Nat) (h : ∀ c ∈ cps, c ≠ 34 ∧ c ≠ 39) :
    ∀ b ∈ utf8.encode cps, isQuote b = false := by
  induction cps with
  | nil => intro b hb; simp [utf8.encode] at hb
  | cons c cs ih =>
    intro b hb
    rw [encode_cons, List.mem_append] at hb
    rcases hb with hb | hb
    · rcases AppendRune_bytes c with ⟨_, h2⟩ | ⟨_, h2⟩
      · rw [h2] at hb
        simp at hb
        subst hb
        have := h b (by simp)
        simp [isQuote, this.1, this.2]
      · have := h2 b hb
        unfold isQuote
        simp
        omega
    · exact ih (fun x hx => h x (by simp [hx])) b hb

theorem isPrefixOf_append_left (a b t : GoString) :
    (a ++ b).isPrefixOf (a ++ t) = b.isPrefixOf t := by
  induction a with
  | nil => rfl
  | cons x xs ih => simp [List.isPrefixOf, ih]

/-- The literal of a valid UTF-8 extension that does not hold U+FFFD matches
exactly where the text holds the bytes of the extension. -/
theorem matchLiteral_encode (cps : List Nat)
    (h : ∀ c ∈ cps, IsScalarValue c ∧ c ≠ RuneError) :
    ∀ s : GoString, matchLiteral cps s =
      if (utf8.encode cps).isPrefixOf s then some (s.drop (utf8.encode cps).length) else none := by
  induction cps with
  | nil => intro s; simp [matchLiteral, utf8.encode]
  | cons c cs ih =>
    intro s
    obtain ⟨hc, hne⟩ := h c (by simp)
    have ih' := ih (fun x hx => h x (by simp [hx]))
    rw [encode_cons]
    cases s with
    | nil =>
      have : (AppendRune c ++ utf8.encode cs).isPrefixOf ([] : GoString) = false := by
        cases ha : AppendRune c with
        | nil => exact absurd ha (AppendRune_ne_nil c)
        | cons b bs => rfl
      simp [matchLiteral, this]
    | cons s0 rest =>
      simp only [matchLiteral, List.cons_ne_nil, if_false]
      cases hdd : DecodeRuneInString (s0 :: rest) with
      | mk r n =>
        simp only
        by_cases hd : r = c
        · rw [if_pos hd]
          subst hd
          have hv : ¬ (r = RuneError ∧ n = 1) := fun hh => hne hh.1
          obtain ⟨_, hn, hs⟩ := AppendRune_DecodeRune s0 rest r n hdd hv
          rw [ih', hn]
          have hpre : (AppendRune r ++ utf8.encode cs).isPrefixOf (s0 :: rest) =
              (utf8.encode cs).isPrefixOf ((s0 :: rest).drop (AppendRune r).length) := by
            rw [← hn]
            conv_lhs => rw [hs]
            exact isPrefixOf_append_left _ _ _
          rw [hpre]
          by_cases hp :
              (utf8.encode cs).isPrefixOf ((s0 :: rest).drop (AppendRune r).length) = true
          · rw [if_pos hp, if_pos hp, List.drop_drop, List.length_append]
          · rw [if_neg hp, if_neg hp]
        · rw [if_neg hd]
          have hnp : (AppendRune c ++ utf8.encode cs).isPrefixOf (s0 :: rest) = false := by
            by_contra hp
            simp only [Bool.not_eq_false] at hp
            obtain ⟨t, ht⟩ := List.isPrefixOf_iff_prefix.mp hp
            rw [← ht, List.append_assoc, DecodeRune_AppendRune c _ hc] at hdd
            simp only [Prod.mk.injEq] at hdd
            exact hd hdd.1.symm
          rw [hnp]
          simp

theorem matchClose_skip (pre s : GoString) :
    matchClose pre.length (pre ++ s) = (matchClose 0 s).map (fun p => (pre ++ p.1, p.2)) := by
  induction pre with
  | nil => cases h : matchClose 0 s <;> simp [h]
  | cons c cs ih =>
    show matchClose (cs.length + 1) (c :: (cs ++ s)) = _
    simp only [matchClose]
    rw [ih]
    cases h : matchClose 0 s <;> simp [h]

/-- One rune of a text without quotes, read in front of a quote: the rune is not
a quote, and the bytes read after the first are continuation bytes of the text. -/
theorem rune_step (c : Nat) (cs : GoString) (q : Nat) (rest : GoString)
    (hc : isQuote c = false) (hq : isQuote q = true) :
    isQuote (DecodeRuneInString (c :: (cs ++ q :: rest))).1 = false ∧
    (DecodeRuneInString (c :: (cs ++ q :: rest))).2 - 1 ≤ cs.length ∧
    ∀ x ∈ cs.take ((DecodeRuneInString (c :: (cs ++ q :: rest))).2 - 1), IsCont x := by
  obtain ⟨h1, h2, h3, h4, h5⟩ := Decode_shape c (cs ++ q :: rest)
  have hqn : ¬ IsCont q := by
    unfold isQuote at hq
    unfold IsCont
    simp at hq
    omega
  have hlen : (DecodeRuneInString (c :: (cs ++ q :: rest))).2 - 1 ≤ cs.length := by
    by_contra hgt
    have hmem : q ∈ (cs ++ q :: rest).take ((DecodeRuneInString (c :: (cs ++ q :: rest))).2 - 1) := by
      rw [List.take_append_eq_append_take]
      apply List.mem_append_right
      have : (DecodeRuneInString (c :: (cs ++ q :: rest))).2 - 1 - cs.length =
          ((DecodeRuneInString (c :: (cs ++ q :: rest))).2 - 1 - cs.length - 1) + 1 := by omega
      rw [this, List.take_succ_cons]
      simp
    exact hqn (h5 q hmem)
  refine ⟨?_, hlen, ?_⟩
  · by_cases hlt : c < 0x80
    · rw [h3 hlt]; exact hc
    · have := h4 (by omega)
      unfold isQuote
      simp
      omega
  · intro x hx
    apply h5 x
    rw [List.take_append_eq_append_take]
    exact List.mem_append_left _ hx

/-- The end of the pattern after a run of bytes that are not quotes. -/
theorem matchClose_run (q : Nat) (rest : GoString) (hq : isQuote q = true) :
    ∀ (n : Nat) (v : GoString), v.length ≤ n → (∀ c ∈ v, isQuote c = false) →
      matchClose 0 (v ++ q :: rest) = some (v, rest) := by
  intro n
  induction n with
  | zero =>
    intro v hn _
    have : v = [] := List.length_eq_zero.mp (by omega)
    subst this
    have hd := (Decode_shape q rest).2.2.1
    have hq' : q < 0x80 := by
      unfold isQuote at hq; simp at hq; omega
    simp [matchClose, hd hq', hq]
  | succ n ih =>
    intro v hn hv
    cases v with
    | nil =>
      have hd := (Decode_shape q rest).2.2.1
      have hq' : q < 0x80 := by
        unfold isQuote at hq; simp at hq; omega
      simp [matchClose, hd hq', hq]
    | cons c cs =>
      have hc : isQuote c = false := hv c (by simp)
      obtain ⟨h1, h2, h3⟩ := rune_step c cs q rest hc hq
      simp only [List.cons_append, matchClose, List.append_eq, h1, Bool.false_eq_true, if_false]
      have hsplit : cs ++ q :: rest =
          cs.take ((DecodeRuneInString (c :: (cs ++ q :: rest))).2 - 1) ++
            (cs.drop ((DecodeRuneInString (c :: (cs ++ q :: rest))).2 - 1) ++ q :: rest) := by
        rw [← List.append_assoc, List.take_append_drop]
      have hlen : (cs.take ((DecodeRuneInString (c :: (cs ++ q :: rest))).2 - 1)).length =
          (DecodeRuneInString (c :: (cs ++ q :: rest))).2 - 1 := by
        rw [List.length_take]; omega
      have hrec := ih (cs.drop ((DecodeRuneInString (c :: (cs ++ q :: rest))).2 - 1))
        (by rw [List.length_drop]; simp at hn; omega)
        (fun x hx => hv x (by simp [List.mem_of_mem_drop hx]))
      have hskip := matchClose_skip
        (cs.take ((DecodeRuneInString (c :: (cs ++ q :: rest))).2 - 1))
        (cs.drop ((DecodeRuneInString (c :: (cs ++ q :: rest))).2 - 1) ++ q :: rest)
      rw [hlen, ← hsplit, hrec] at hskip
      rw [hskip]
      simp [List.take_append_drop]

theorem isPrefixOf_append_quote (ext : GoString) (q : Nat) (rest : GoString)
    (hext : ∀ c ∈ ext, isQuote c = false) (hq : isQuote q = true) :
    ∀ v : GoString, ext.isPrefixOf (v ++ q :: rest) = ext.isPrefixOf v := by
  induction ext with
  | nil => intro v; simp
  | cons e es ih =>
    intro v
    have he : isQuote e = false := hext e (by simp)
    have hes : ∀ c ∈ es, isQuote c = false := fun c hc => hext c (by simp [hc])
    cases v with
    | nil =>
      have hne : e ≠ q := fun h => by rw [h, hq] at he; exact absurd he (by simp)
      simp [List.isPrefixOf, hne]
    | cons x xs =>
      simp only [List.cons_append, List.isPrefixOf, List.append_eq, ih hes xs]

/-- The tail of the pattern on a quoted value: it matches exactly when the value
starts with the extension, and then takes the whole value. -/
theorem matchExtTail_value (cps : List Nat) (v : GoString) (q : Nat) (rest : GoString)
    (hcps : ∀ c ∈ cps, IsScalarValue c ∧ c ≠ RuneError)
    (hext : ∀ c ∈ utf8.encode cps, isQuote c = false)
    (hv : ∀ c ∈ v, isQuote c = false) (hq : isQuote q = true) :
    matchExtTail cps (v ++ q :: rest) =
      if (utf8.encode cps).isPrefixOf v then some (v, rest) else none := by
  unfold matchExtTail
  rw [matchLiteral_encode cps hcps, isPrefixOf_append_quote _ q rest hext hq v]
  by_cases hp : (utf8.encode cps).isPrefixOf v = true
  · rw [if_pos hp, if_pos hp]
    obtain ⟨t, rfl⟩ := List.isPrefixOf_iff_prefix.mp hp
    have ht : ∀ c ∈ t, isQuote c = false := fun c hc => hv c (by simp [hc])
    have hdrop : (utf8.encode cps ++ t ++ q :: rest).drop (utf8.encode cps).length
        = t ++ q :: rest := by
      rw [List.append_assoc, List.drop_left]
    simp only [hdrop, matchClose_run q rest hq t.length t (Nat.le_refl _) ht]
    have hlen : (utf8.encode cps ++ t ++ q :: rest).length - (t ++ q :: rest).length
        = (utf8.encode cps).length := by
      simp only [List.length_append, List.length_cons]; omega
    rw [hlen, List.append_assoc, List.take_left]
  · rw [if_neg hp, if_neg hp]

theorem Contains_cons (c : Nat) (cs ext : GoString) :
    Contains (c :: cs) ext = (ext.isPrefixOf (c :: cs) || Contains cs ext) := by
  unfold Contains
  simp only [Index]
  by_cases hp : ext.isPrefixOf (c :: cs) = true
  · simp [hp]
  · simp [hp]

theorem Contains_nil (ext : GoString) : Contains [] ext = ext.isPrefixOf [] := by
  unfold Contains
  cases ext <;> simp [Index, List.isPrefixOf]

theorem Contains_empty (s : GoString) : Contains s [] = true := by
  cases s <;> simp [Contains, Index]

/-- An occurrence of the extension does not start at a continuation byte. -/
theorem Contains_skip_cont (pre t e : GoString) (hpre : ∀ x ∈ pre, IsCont x)
    (he : e = [] ∨ ∃ b bs, e = b :: bs ∧ ¬ IsCont b) :
    Contains (pre ++ t) e = Contains t e := by
  rcases he with rfl | ⟨b, bs, rfl, hb⟩
  · rw [Contains_empty, Contains_empty]
  · induction pre with
    | nil => rfl
    | cons x xs ih =>
      have hx : IsCont x := hpre x (by simp)
      have hne : b ≠ x := fun h => hb (h ▸ hx)
      rw [List.cons_append, Contains_cons, ih (fun y hy => hpre y (by simp [hy]))]
      simp [List.isPrefixOf, hne]

theorem matchValue_skip (ext : List Nat) (pre s : GoString) :
    matchValue ext pre.length (pre ++ s) =
      (matchValue ext 0 s).map (fun p => (pre ++ p.1, p.2)) := by
  induction pre with
  | nil => cases h : matchValue ext 0 s <;> simp [h]
  | cons c cs ih =>
    show matchValue ext (cs.length + 1) (c :: (cs ++ s)) = _
    simp only [matchValue]
    rw [ih]
    cases h : matchValue ext 0 s <;> simp [h]

/-- The group of the pattern on a quoted value: it matches exactly when the
value contains the extension, and then captures the whole value. -/
theorem matchValue_value (cps : List Nat) (q : Nat) (rest : GoString)
    (hcps : ∀ c ∈ cps, IsScalarValue c ∧ c ≠ RuneError)
    (hext : ∀ c ∈ utf8.encode cps, isQuote c = false) (hq : isQuote q = true) :
    ∀ (n : Nat) (v : GoString), v.length ≤ n → (∀ c ∈ v, isQuote c = false) →
      matchValue cps 0 (v ++ q :: rest) =
        if Contains v (utf8.encode cps) then some (v, rest) else none := by
  have hnil : matchValue cps 0 ([] ++ q :: rest) =
      if Contains [] (utf8.encode cps) then some ([], rest) else none := by
    have hd := (Decode_shape q rest).2.2.1
    have hq' : q < 0x80 := by
      unfold isQuote at hq; simp at hq; omega
    have := matchExtTail_value cps [] q rest hcps hext (by simp) hq
    simp only [List.nil_append] at this ⊢
    simp only [matchValue, hd hq', hq, Bool.not_true, Bool.false_eq_true, if_false]
    rw [this, Contains_nil]
  intro n
  induction n with
  | zero =>
    intro v hn _
    have : v = [] := List.length_eq_zero.mp (by omega)
    subst this
    exact hnil
  | succ n ih =>
    intro v hn hv
    cases v with
    | nil => exact hnil
    | cons c cs =>
      have hc : isQuote c = false := hv c (by simp)
      obtain ⟨h1, h2, h3⟩ := rune_step c cs q rest hc hq
      have htail := matchExtTail_value cps (c :: cs) q rest hcps hext hv hq
      simp only [List.cons_append] at htail
      simp only [List.cons_append, matchValue, List.append_eq, h1, Bool.not_false, if_true]
      have hsplit : cs ++ q :: rest =
          cs.take ((DecodeRuneInString (c :: (cs ++ q :: rest))).2 - 1) ++
            (cs.drop ((DecodeRuneInString (c :: (cs ++ q :: rest))).2 - 1) ++ q :: rest) := by
        rw [← List.append_assoc, List.take_append_drop]
      have hlen : (cs.take ((DecodeRuneInString (c :: (cs ++ q :: rest))).2 - 1)).length =
          (DecodeRuneInString (c :: (cs ++ q :: rest))).2 - 1 := by
        rw [List.length_take]; omega
      have hrec := ih (cs.drop ((DecodeRuneInString (c :: (cs ++ q :: rest))).2 - 1))
        (by rw [List.length_drop]; simp at hn; omega)
        (fun x hx => hv x (by simp [List.mem_of_mem_drop hx]))
      have hskip := matchValue_skip cps
        (cs.take ((DecodeRuneInString (c :: (cs ++ q :: rest))).2 - 1))
        (cs.drop ((DecodeRuneInString (c :: (cs ++ q :: rest))).2 - 1) ++ q :: rest)
      rw [hlen, ← hsplit, hrec] at hskip
      have hcont : Contains cs (utf8.encode cps) =
          Contains (cs.drop ((DecodeRuneInString (c :: (cs ++ q :: rest))).2 - 1))
            (utf8.encode cps) := by
        conv_lhs => rw [← List.take_append_drop
          ((DecodeRuneInString (c :: (cs ++ q :: rest))).2 - 1) cs]
        exact Contains_skip_cont _ _ _ h3 (encode_head cps)
      rw [hskip, htail, Contains_cons, hcont]
      by_cases hk : Contains (cs.drop ((DecodeRuneInString (c :: (cs ++ q :: rest))).2 - 1))
          (utf8.encode cps) = true
      · simp [hk, List.take_append_drop]
      · by_cases h2 : (utf8.encode cps).isPrefixOf (c :: cs) = true
        · simp [hk, h2]
        · simp [hk, h2]

theorem dropWhile_space (ws : GoString) (c : Nat) (rest : GoString)
    (hws : ∀ x ∈ ws, isSpace x = true) (hc : isSpace c = false) :
    (ws ++ c :: rest).dropWhile isSpace = c :: rest := by
  induction ws with
  | nil => simp [List.dropWhile, hc]
  | cons x xs ih =>
    have hx : isSpace x = true := hws x (by simp)
    simp only [List.cons_append, List.dropWhile, hx, List.append_eq]
    exact ih (fun y hy => hws y (by simp [hy]))

theorem isSpace_of_HTMLSpace (c : Nat) (h : isHTMLSpace c) : isSpace c = true := by
  unfold isHTMLSpace at h
  unfold isSpace
  simpa using h

theorem attr_cons (a : HrefAttr) : a.attr = 104 :: a.attr.tail := by
  simp [HrefAttr.attr, hrefName_eq]

/-- The pattern at the start of an anchor reference whose value holds no quote:
it matches exactly when the value contains the extension, captures the value and
ends with the reference. -/
theorem matchAt_attr (cps : List Nat) (a : HrefAttr) (rest : GoString)
    (hcps : ∀ c ∈ cps, IsScalarValue c ∧ c ≠ RuneError)
    (hext : ∀ c ∈ utf8.encode cps, isQuote c = false)
    (ha : a.WellFormed) (hval : ∀ c ∈ a.value, c ≠ 34 ∧ c ≠ 39) :
    matchAt { ext := cps } (a.attr ++ rest) =
      if Contains a.value (utf8.encode cps) then some (a.value, rest) else none := by
  obtain ⟨_, _, h1, h2, h3, _⟩ := ha
  have hq : isQuote a.quote = true := by
    unfold isQuote
    rcases h3 with h | h <;> simp [h]
  have hv : ∀ c ∈ a.value, isQuote c = false := by
    intro c hc
    have := hval c hc
    simp [isQuote, this.1, this.2]
  have hqs : isSpace a.quote = false := by
    unfold isSpace
    rcases h3 with h | h <;> simp [h]
  have htext : a.attr ++ rest =
      [104, 114, 101, 102] ++
        (a.ws1 ++ 61 :: (a.ws2 ++ a.quote :: (a.value ++ a.quote :: rest))) := by
    simp [HrefAttr.attr, hrefName_eq]
  rw [htext]
  unfold matchAt
  have hl : lit "href" = [104, 114, 101, 102] := hrefName_eq
  rw [hl]
  have hp : ([104, 114, 101, 102] : GoString).isPrefixOf
      ([104, 114, 101, 102] ++
        (a.ws1 ++ 61 :: (a.ws2 ++ a.quote :: (a.value ++ a.quote :: rest)))) = true := by simp
  rw [if_pos hp]
  have hd : ([104, 114, 101, 102] ++
      (a.ws1 ++ 61 :: (a.ws2 ++ a.quote :: (a.value ++ a.quote :: rest)))).drop 4
      = a.ws1 ++ 61 :: (a.ws2 ++ a.quote :: (a.value ++ a.quote :: rest)) := rfl
  rw [hd, dropWhile_space a.ws1 61 _ (fun x hx => isSpace_of_HTMLSpace x (h1 x hx)) (by decide)]
  simp only
  rw [dropWhile_space a.ws2 a.quote _ (fun x hx => isSpace_of_HTMLSpace x (h2 x hx)) hqs]
  simp only [hq, if_true]
  exact matchValue_value cps a.quote rest hcps hext hq a.value.length a.value (Nat.le_refl _) hv

theorem findAll_succ (re : Regexp) (k c : Nat) (cs : GoString) :
    findAll re (k + 1) (c :: cs) = findAll re k cs := by
  simp [findAll]

theorem findAll_zero_none (re : Regexp) (c : Nat) (cs : GoString)
    (h : matchAt re (c :: cs) = none) : findAll re 0 (c :: cs) = findAll re 0 cs := by
  simp [findAll, h]

theorem findAll_zero_some (re : Regexp) (c : Nat) (cs cap rest : GoString)
    (h : matchAt re (c :: cs) = some (cap, rest)) :
    findAll re 0 (c :: cs) =
      [(c :: cs).take ((c :: cs).length - rest.length), cap]
        :: findAll re ((c :: cs).length - rest.length - 1) cs := by
  simp [findAll, h]

theorem findAll_skip (re : Regexp) (pre s : GoString) :
    findAll re pre.length (pre ++ s) = findAll re 0 s := by
  induction pre with
  | nil => rfl
  | cons c cs ih =>
    simp only [List.length_cons, List.cons_append]
    rw [findAll_succ]
    exact ih

theorem findAll_attr_match (cps : List Nat) (a : HrefAttr) (rest : GoString)
    (hcps : ∀ c ∈ cps, IsScalarValue c ∧ c ≠ RuneError)
    (hext : ∀ c ∈ utf8.encode cps, isQuote c = false)
    (ha : a.WellFormed) (hval : ∀ c ∈ a.value, c ≠ 34 ∧ c ≠ 39)
    (hq : Contains a.value (utf8.encode cps) = true) :
    findAll { ext := cps } 0 (a.attr ++ rest) =
      [a.attr, a.value] :: findAll { ext := cps } 0 rest := by
  have hm := matchAt_attr cps a rest hcps hext ha hval
  rw [if_pos hq] at hm
  have hc := attr_cons a
  have hlen : (104 :: (a.attr.tail ++ rest)).length - rest.length = a.attr.tail.length + 1 := by
    simp; omega
  rw [hc, List.cons_append] at hm ⊢
  rw [findAll_zero_some _ 104 _ a.value rest hm, hlen]
  have htake : (104 :: (a.attr.tail ++ rest)).take (a.attr.tail.length + 1)
      = 104 :: a.attr.tail := by
    simp
  rw [htake]
  simp only [Nat.add_sub_cancel]
  rw [findAll_skip]

/-- The pattern matches only where the word `href` starts. -/
theorem matchAt_none_of_not_href (re : Regexp) (s : GoString)
    (h : hrefName.isPrefixOf s = false) : matchAt re s = none := by
  unfold matchAt
  have hl : lit "href" = hrefName := rfl
  rw [hl, h]
  rfl

/-- The search finds nothing in a stretch where the word `href` does not start. -/
theorem findAll_skip_region (re : Regexp) (pre s : GoString) (h : noHrefStart pre s) :
    findAll re 0 (pre ++ s) = findAll re 0 s := by
  unfold noHrefStart at h
  induction pre with
  | nil => rfl
  | cons c cs ih =>
    have h0 := h [] (c :: cs) rfl (by simp)
    have hrec : findAll re 0 (cs ++ s) = findAll re 0 s :=
      ih (fun p1 p2 hp hne => h (c :: p1) p2 (by simp [hp]) hne)
    simp only [List.cons_append] at h0 ⊢
    rw [findAll_zero_none re c _ (matchAt_none_of_not_href re _ h0)]
    exact hrec

theorem noHrefStart_of_not_h (t X : GoString) (h : ∀ c ∈ t, c ≠ 104) : noHrefStart t X := by
  intro p1 p2 ht hne
  cases p2 with
  | nil => exact absurd rfl hne
  | cons c cs =>
    have hc : c ≠ 104 := h c (by rw [ht]; simp)
    have hc' : (104 : Nat) ≠ c := fun hh => hc hh.symm
    simp [hrefName_eq, List.isPrefixOf, hc']

theorem noHrefStart_append (t1 t2 X : GoString) (h1 : noHrefStart t1 (t2 ++ X))
    (h2 : noHrefStart t2 X) : noHrefStart (t1 ++ t2) X := by
  intro p1 p2 ht hne
  rcases List.append_eq_append_iff.mp ht with ⟨a, rfl, ha⟩ | ⟨c, hc1, rfl⟩
  · exact h2 a p2 ha hne
  · by_cases hcn : c = []
    · subst hcn
      exact h2 [] t2 rfl (by simpa using hne)
    · have := h1 p1 c hc1 hcn
      rw [List.append_assoc]
      exact this

theorem Contains_of_split (p1 p2 e : GoString) (h : e.isPrefixOf p2 = true) :
    Contains (p1 ++ p2) e = true := by
  induction p1 with
  | nil =>
    cases p2 with
    | nil => rw [List.nil_append, Contains_nil]; exact h
    | cons c cs => rw [List.nil_append, Contains_cons, h]; rfl
  | cons x xs ih => rw [List.cons_append, Contains_cons, ih]; simp

/-- In a text that does not hold the word `href`, followed by nothing or by a
text that starts with none of `r`, `e`, `f`, no occurrence of `href` starts. -/
theorem noHrefStart_of_Contains (g X : GoString) (hg : Contains g hrefName = false)
    (hX : X = [] ∨ ∃ x xs, X = x :: xs ∧ x ≠ 114 ∧ x ≠ 101 ∧ x ≠ 102) : noHrefStart g X := by
  intro p1 p2 ht hne
  by_contra hp
  simp only [Bool.not_eq_false] at hp
  rw [hrefName_eq] at hp hg
  match p2, hne with
  | [a], _ =>
    rcases hX with rfl | ⟨x, xs, rfl, h1, h2, h3⟩
    · simp [List.isPrefixOf] at hp
    · simp [List.isPrefixOf] at hp
      exact h1 hp.2.1.symm
  | [a, b], _ =>
    rcases hX with rfl | ⟨x, xs, rfl, h1, h2, h3⟩
    · simp [List.isPrefixOf] at hp
    · simp [List.isPrefixOf] at hp
      exact h2 hp.2.2.1.symm
  | [a, b, c], _ =>
    rcases hX with rfl | ⟨x, xs, rfl, h1, h2, h3⟩
    · simp [List.isPrefixOf] at hp
    · simp [List.isPrefixOf] at hp
      exact h3 hp.2.2.2.symm
  | a :: b :: c :: d :: t, _ =>
    have hpre : ([104, 114, 101, 102] : GoString).isPrefixOf (a :: b :: c :: d :: t) = true := by
      simp [List.isPrefixOf] at hp ⊢
      exact hp
    have := Contains_of_split p1 (a :: b :: c :: d :: t) _ hpre
    rw [← ht, hg] at this
    exact absurd this (by simp)

/-- In a value that does not hold the word `href`, followed by a quote, no
occurrence of `href` starts. -/
theorem noHrefStart_value (v : GoString) (q : Nat) (Y : GoString)
    (hv : Contains v hrefName = false) (hq : isQuote q = true) : noHrefStart v (q :: Y) := by
  intro p1 p2 ht hne
  have hh : ∀ c ∈ hrefName, isQuote c = false := by decide
  rw [isPrefixOf_append_quote hrefName q Y hh hq p2]
  by_contra hp
  simp only [Bool.not_eq_false] at hp
  have := Contains_of_split p1 p2 _ hp
  rw [← ht, hv] at this
  exact absurd this (by simp)

theorem pageRest_head (items : List (HrefAttr × GoString))
    (hwf : ∀ p ∈ items, p.1.WellFormed) :
    pageRest items = [] ∨ ∃ x xs, pageRest items = x :: xs ∧ x ≠ 114 ∧ x ≠ 101 ∧ x ≠ 102 := by
  cases items with
  | nil => left; rfl
  | cons p rest =>
    right
    obtain ⟨hne, hl, _⟩ := hwf p (by simp)
    cases hlead : p.1.lead with
    | nil => exact absurd hlead hne
    | cons x xs =>
      have hx : isHTMLSpace x := hl x (by rw [hlead]; simp)
      unfold isHTMLSpace at hx
      refine ⟨x, xs ++ (p.1.attr ++ (p.2 ++ pageRest rest)), ?_, by omega, by omega, by omega⟩
      simp [pageRest, HrefAttr.text, hlead]

theorem noHrefStart_lead (a : HrefAttr) (X : GoString) (ha : a.WellFormed) :
    noHrefStart a.lead X := by
  apply noHrefStart_of_not_h
  intro c hc
  have := ha.2.1 c hc
  unfold isHTMLSpace at this
  omega

/-- Inside an attribute and the text after it, the word `href` starts nowhere
but at the beginning of the attribute. -/
theorem noHrefStart_attr (a : HrefAttr) (gap X : GoString) (ha : a.WellFormed)
    (hv : Contains a.value hrefName = false) (hg : Contains gap hrefName = false)
    (hX : X = [] ∨ ∃ x xs, X = x :: xs ∧ x ≠ 114 ∧ x ≠ 101 ∧ x ≠ 102) :
    noHrefStart (a.attr.tail ++ gap) X := by
  obtain ⟨_, _, h1, h2, h3, _⟩ := ha
  have hq : isQuote a.quote = true := by
    unfold isQuote
    rcases h3 with h | h <;> simp [h]
  have hqh : a.quote ≠ 104 := by rcases h3 with h | h <;> omega
  have hws : ∀ ws : GoString, (∀ c ∈ ws, isHTMLSpace c) → ∀ c ∈ ws, c ≠ 104 := by
    intro ws hws c hc
    have := hws c hc
    unfold isHTMLSpace at this
    omega
  have htail : a.attr.tail ++ gap =
      ([114, 101, 102] ++ a.ws1 ++ [61] ++ a.ws2 ++ [a.quote]) ++
        (a.value ++ ([a.quote] ++ gap)) := by
    simp [HrefAttr.attr, hrefName_eq]
  rw [htail]
  apply noHrefStart_append
  · apply noHrefStart_of_not_h
    intro c hc
    simp only [List.mem_append, List.mem_cons, List.mem_singleton, List.not_mem_nil,
      or_false] at hc
    rcases hc with (((hc | hc) | hc) | hc) | hc
    · rcases hc with rfl | rfl | rfl <;> omega
    · exact hws _ h1 c hc
    · omega
    · exact hws _ h2 c hc
    · omega
  · apply noHrefStart_append
    · exact noHrefStart_value a.value a.quote (gap ++ X) hv hq
    · apply noHrefStart_append
      · exact noHrefStart_of_not_h _ _ (fun c hc => by simp at hc; omega)
      · exact noHrefStart_of_Contains gap X hg hX

/-- What the search finds in a page: the qualifying references, in order. -/
theorem findAll_page (cps : List Nat)
    (hcps : ∀ c ∈ cps, IsScalarValue c ∧ c ≠ RuneError)
    (hext : ∀ c ∈ utf8.encode cps, isQuote c = false) :
    ∀ (items : List (HrefAttr × GoString)) (g : GoString),
      Contains g hrefName = false →
      (∀ p ∈ items, p.1.WellFormed ∧ (∀ c ∈ p.1.value, c ≠ 34 ∧ c ≠ 39) ∧
        Contains p.1.value hrefName = false ∧ Contains p.2 hrefName = false) →
      findAll { ext := cps } 0 (g ++ pageRest items) =
        (items.filter (fun p => Contains p.1.value (utf8.encode cps))).map
          (fun p => [p.1.attr, p.1.value]) := by
  intro items
  induction items with
  | nil =>
    intro g hg _
    have := findAll_skip_region { ext := cps } g []
      (noHrefStart_of_Contains g [] hg (Or.inl rfl))
    simp only [pageRest, List.filter_nil, List.map_nil] at this ⊢
    rw [this]
    rfl
  | cons p rest ih =>
    intro g hg hitems
    obtain ⟨hwf, hval, hvh, hgh⟩ := hitems p (by simp)
    have hrest : ∀ x ∈ rest, x.1.WellFormed ∧ (∀ c ∈ x.1.value, c ≠ 34 ∧ c ≠ 39) ∧
        Contains x.1.value hrefName = false ∧ Contains x.2 hrefName = false :=
      fun x hx => hitems x (by simp [hx])
    have hallwf : ∀ x ∈ p :: rest, x.1.WellFormed := fun x hx => (hitems x hx).1
    have hrestwf : ∀ x ∈ rest, x.1.WellFormed := fun x hx => (hrest x hx).1
    rw [findAll_skip_region _ g (pageRest (p :: rest))
      (noHrefStart_of_Contains g _ hg (pageRest_head (p :: rest) hallwf))]
    show findAll _ 0 (p.1.lead ++ p.1.attr ++ (p.2 ++ pageRest rest)) = _
    rw [List.append_assoc, findAll_skip_region _ p.1.lead _ (noHrefStart_lead p.1 _ hwf)]
    by_cases hq : Contains p.1.value (utf8.encode cps) = true
    · rw [findAll_attr_match cps p.1 _ hcps hext hwf hval hq, ih p.2 hgh hrest]
      simp [List.filter_cons, hq]
    · have hq' : Contains p.1.value (utf8.encode cps) = false := by simpa using hq
      have hm := matchAt_attr cps p.1 (p.2 ++ pageRest rest) hcps hext hwf hval
      rw [hq'] at hm
      simp only [Bool.false_eq_true, if_false] at hm
      have hc := attr_cons p.1
      rw [hc, List.cons_append] at hm ⊢
      rw [findAll_zero_none _ 104 _ hm, ← List.append_assoc,
        findAll_skip_region _ _ _
          (noHrefStart_attr p.1 p.2 (pageRest rest) hwf hvh hgh (pageRest_head rest hrestwf))]
      have := ih [] (by decide) hrest
      simp only [List.nil_append] at this
      rw [this]
      simp [List.filter_cons, hq']

/-- `MustCompile` returns exactly for the extensions that are valid UTF-8. -/
theorem MustCompile_isSome_iff (ext : GoString) :
    (∃ re, MustCompile ext = some re) ↔
      ∃ cps : List Nat, (∀ c ∈ cps, IsScalarValue c) ∧ ext = utf8.encode cps := by
  constructor
  · rintro ⟨re, hre⟩
    unfold MustCompile at hre
    cases hl : literalRunes 0 ext with
    | none => rw [hl] at hre; exact absurd hre (by simp)
    | some rs =>
      obtain ⟨h1, h2⟩ := literalRunes_some ext.length ext (Nat.le_refl _) rs hl
      exact ⟨rs, h1, h2⟩
  · rintro ⟨cps, hcps, rfl⟩
    exact ⟨_, MustCompile_encode cps hcps⟩

end LinkFacts

section AbsoluteLinks
open strings url

/-- Claim C5 fails as stated. With the base "https://example.com/archives" the
link "%zz.pdf" does not parse and is returned as it is, without a scheme; with
an empty base URL the link "a.pdf" resolves to "/a.pdf", without a scheme. -/
theorem ParseFileLinks_absolute_counterexample :
    ParseFileLinks (NewFileDownloader (lit "https://example.com/archives"))
      (lit "<a href=\"%zz.pdf\">") (lit ".pdf") = some [lit "%zz.pdf"] ∧
    hasScheme (lit "%zz.pdf") = false ∧
    ParseFileLinks (NewFileDownloader []) (lit "<a href=\"a.pdf\">") (lit ".pdf")
      = some [lit "/a.pdf"] ∧
    hasScheme (lit "/a.pdf") = false := by
  decide

theorem ParseFileLinks_eq_rawLinks (fd : FileDownloader) (html ext : GoString)
    (re : regexp.Regexp) (hre : regexp.MustCompile ext = some re) :
    ParseFileLinks fd html ext = some ((rawLinks re html).map (ResolveURL fd.BaseURL)) := by
  unfold ParseFileLinks rawLinks
  rw [hre]
  simp only [Option.some.injEq, List.map_filterMap]
  congr 1
  funext m
  by_cases h : m.length > 1
  · simp [h]
  · simp [h]

/-- Claim C5, as amended: when the downloader's BaseURL parses as an absolute URL
(it has a scheme), the list that `ParseFileLinks` returns holds, for each raw link
found in the page and in the same order, what `ResolveURL` makes of it, and that
either starts with a scheme (it is syntactically absolute) or is the raw link
itself, returned as it was found because it does not parse as a URL.
`ParseFileLinks` returns a list exactly when the extension is valid UTF-8 (the
text of a sequence of scalar values). -/
theorem ParseFileLinks_absolute (fd : FileDownloader) (htmlContent fileExtension : GoString)
    (b : URL) (hb : Parse fd.BaseURL = some b) (hs : b.Scheme ≠ []) :
    ((∃ links, ParseFileLinks fd htmlContent fileExtension = some links) ↔
      ∃ cps : List Nat, (∀ c ∈ cps, IsScalarValue c) ∧ fileExtension = utf8.encode cps) ∧
    ∀ links, ParseFileLinks fd htmlContent fileExtension = some links →
      ∃ re, regexp.MustCompile fileExtension = some re ∧
        links = (rawLinks re htmlContent).map (ResolveURL fd.BaseURL) ∧
        ∀ v ∈ rawLinks re htmlContent,
          hasScheme (ResolveURL fd.BaseURL v) = true ∨
            (Parse v = none ∧ ResolveURL fd.BaseURL v = v) := by
  have hlinks : ∀ links, ParseFileLinks fd htmlContent fileExtension = some links →
      ∃ re, regexp.MustCompile fileExtension = some re ∧
        links = (rawLinks re htmlContent).map (ResolveURL fd.BaseURL) ∧
        ∀ v ∈ rawLinks re htmlContent,
          hasScheme (ResolveURL fd.BaseURL v) = true ∨
            (Parse v = none ∧ ResolveURL fd.BaseURL v = v) := by
    intro links hlinks
    cases hre : regexp.MustCompile fileExtension with
    | none => simp [ParseFileLinks, hre] at hlinks
    | some re =>
      rw [ParseFileLinks_eq_rawLinks fd htmlContent fileExtension re hre] at hlinks
      simp only [Option.some.injEq] at hlinks
      exact ⟨re, rfl, hlinks.symm, fun v _ => ResolveURL_hasScheme fd.BaseURL v b hb hs⟩
  refine ⟨?_, hlinks⟩
  rw [← MustCompile_isSome_iff]
  constructor
  · rintro ⟨links, h⟩
    obtain ⟨re, hre, _⟩ := hlinks links h
    exact ⟨re, hre⟩
  · rintro ⟨re, hre⟩
    exact ⟨_, ParseFileLinks_eq_rawLinks fd htmlContent fileExtension re hre⟩

/-- Claim C5, as amended, at a concrete page: one link that resolves and one
that does not parse. -/
theorem ParseFileLinks_absolute_witness :
    Parse (NewFileDownloader (lit "https://example.com/archives")).BaseURL =
      some { Scheme := lit "https", Host := lit "example.com", Path := lit "/archives" } ∧
    lit "https" ≠ [] ∧
    ParseFileLinks (NewFileDownloader (lit "https://example.com/archives"))
        (lit "<a href=\"a.pdf\"> <a href=\"%zz.pdf\">") (lit ".pdf")
      = some [lit "https://example.com/a.pdf", lit "%zz.pdf"] ∧
    rawLinks { ext := [46, 112, 100, 102] } (lit "<a href=\"a.pdf\"> <a href=\"%zz.pdf\">")
      = [lit "a.pdf", lit "%zz.pdf"] ∧
    (((∃ links, ParseFileLinks (NewFileDownloader (lit "https://example.com/archives"))
        (lit "<a href=\"a.pdf\"> <a href=\"%zz.pdf\">") (lit ".pdf") = some links) ↔
      ∃ cps : List Nat, (∀ c ∈ cps, IsScalarValue c) ∧ lit ".pdf" = utf8.encode cps) ∧
    ∀ links, ParseFileLinks (NewFileDownloader (lit "https://example.com/archives"))
        (lit "<a href=\"a.pdf\"> <a href=\"%zz.pdf\">") (lit ".pdf") = some links →
      ∃ re, regexp.MustCompile (lit ".pdf") = some re ∧
        links = (rawLinks re (lit "<a href=\"a.pdf\"> <a href=\"%zz.pdf\">")).map
          (ResolveURL (NewFileDownloader (lit "https://example.com/archives")).BaseURL) ∧
        ∀ v ∈ rawLinks re (lit "<a href=\"a.pdf\"> <a href=\"%zz.pdf\">"),
          hasScheme
              (ResolveURL (NewFileDownloader (lit "https://example.com/archives")).BaseURL v)
            = true ∨
            (Parse v = none ∧
              ResolveURL (NewFileDownloader (lit "https://example.com/archives")).BaseURL v
                = v)) :=
  ⟨by decide, by decide, by decide, by decide,
   ParseFileLinks_absolute (NewFileDownloader (lit "https://example.com/archives"))
     (lit "<a href=\"a.pdf\"> <a href=\"%zz.pdf\">") (lit ".pdf")
     { Scheme := lit "https", Host := lit "example.com", Path := lit "/archives" }
     (by decide) (by decide)⟩

end AbsoluteLinks

section LinkClaims
open strings regexp

theorem ParseFileLinks_eq_of_findAll (fd : FileDownloader) (html ext : GoString) (re : Regexp)
    (l : List (HrefAttr × GoString)) (hre : MustCompile ext = some re)
    (h : findAll re 0 html = l.map (fun p => [p.1.attr, p.1.value])) :
    ParseFileLinks fd html ext =
      some ((l.map (fun p => p.1.value)).map (ResolveURL fd.BaseURL)) := by
  unfold ParseFileLinks FindAllStringSubmatch
  rw [hre]
  simp only [h, Option.some.injEq]
  clear h
  induction l with
  | nil => rfl
  | cons p rest ih =>
    rw [List.map_cons, List.filterMap_cons, List.map_cons, List.map_cons, ← ih]
    simp

end LinkClaims

/-! ## The fan-out of `DownloadFilesFromPage` -/

section FanOutFacts

theorem sumUpTo_congr (f g : Nat → Nat) (n : Nat) (h : ∀ i, i < n → f i = g i) :
    sumUpTo f n = sumUpTo g n := by
  induction n with
  | zero => rfl
  | succ k ih =>
    simp only [sumUpTo]
    rw [ih (fun i hi => h i (by omega)), h k (by omega)]

theorem sumUpTo_update (f : Nat → Nat) (n i v : Nat) (hi : i < n) :
    sumUpTo (Function.update f i v) n + f i = sumUpTo f n + v := by
  induction n with
  | zero => omega
  | succ k ih =>
    simp only [sumUpTo]
    by_cases hik : i = k
    · subst hik
      have : sumUpTo (Function.update f i v) i = sumUpTo f i :=
        sumUpTo_congr _ _ _ (fun j hj => Function.update_noteq (by omega) _ _)
      rw [this, Function.update_same]
      omega
    · have := ih (by omega)
      rw [Function.update_noteq (Ne.symm hik)]
      omega

theorem sumUpTo_eq_zero (f : Nat → Nat) (n : Nat) (h : sumUpTo f n = 0) :
    ∀ i, i < n → f i = 0 := by
  induction n with
  | zero => intro i hi; omega
  | succ k ih =>
    intro i hi
    simp only [sumUpTo] at h
    by_cases hik : i = k
    · subst hik; omega
    · exact ih (by omega) i (by omega)

theorem sumUpTo_pos_index (f : Nat → Nat) (n : Nat) (h : 0 < sumUpTo f n) :
    ∃ i, i < n ∧ 0 < f i := by
  induction n with
  | zero => simp [sumUpTo] at h
  | succ k ih =>
    simp only [sumUpTo] at h
    by_cases hk : 0 < f k
    · exact ⟨k, by omega, hk⟩
    · obtain ⟨i, hi, hf⟩ := ih (by omega)
      exact ⟨i, by omega, hf⟩

theorem sumUpTo_filter (p : GoString → Bool) (l : List GoString) :
    sumUpTo (fun i => if p (l.getD i []) then 1 else 0) l.length = (l.filter p).length := by
  induction l using List.reverseRecOn with
  | nil => rfl
  | append_singleton l x ih =>
    rw [List.length_append, List.length_singleton]
    simp only [sumUpTo]
    have h1 : sumUpTo (fun i => if p ((l ++ [x]).getD i []) then 1 else 0) l.length
        = sumUpTo (fun i => if p (l.getD i []) then 1 else 0) l.length := by
      apply sumUpTo_congr
      intro i hi
      simp [List.getD, List.getElem?_append_left hi]
    have h2 : (l ++ [x]).getD l.length [] = x := by
      simp [List.getD]
    rw [h1, ih, h2, List.filter_append, List.length_append]
    by_cases hp : p x = true <;> simp [hp]

theorem sumUpTo_const (c n : Nat) : sumUpTo (fun _ => c) n = n * c := by
  induction n with
  | zero => simp [sumUpTo]
  | succ k ih => simp only [sumUpTo, ih]; ring

theorem sumUpTo_update_comp (g : PC → Nat) (pc : Nat → PC) (n i : Nat) (v : PC) (hi : i < n) :
    sumUpTo (fun j => g (Function.update pc i v j)) n + g (pc i) =
      sumUpTo (fun j => g (pc j)) n + g v := by
  have h := sumUpTo_update (fun j => g (pc j)) n i (g v) hi
  have e : sumUpTo (fun j => g (Function.update pc i v j)) n
      = sumUpTo (Function.update (fun j => g (pc j)) i (g v)) n := by
    apply sumUpTo_congr
    intro j _
    by_cases hj : j = i
    · subst hj; simp
    · simp [Function.update_noteq hj]
  rw [e]
  exact h

theorem remaining_step (pc : Nat → PC) (n i : Nat) (old v : PC) (hi : i < n)
    (hpc : pc i = old) (hlt : v.remaining + 1 ≤ old.remaining) :
    sumUpTo (fun j => (Function.update pc i v j).remaining) n + 1 ≤
      sumUpTo (fun j => (pc j).remaining) n := by
  have := sumUpTo_update_comp PC.remaining pc n i v hi
  rw [hpc] at this
  omega

/-- Changing one goroutine keeps the invariant, when the new program counter,
mutex and counter fit together. -/
theorem Inv_update (ok : Nat → Bool) (n : Nat) (s : FanOut) (hinv : s.Inv ok n)
    (i : Nat) (hi : i < n) (v : PC) (m : Option Nat) (c : Nat) (w : World)
    (hout : v ≠ .start → (ok i = true ↔ v ≠ .done false))
    (hmi : v.critical = true ↔ m = some i)
    (hmj : ∀ j, j ≠ i → ((s.pc j).critical = true ↔ m = some j))
    (hfi : ∀ r, v = .loaded r → r = c)
    (hfj : ∀ j, j ≠ i → ∀ r, s.pc j = .loaded r → r = c)
    (hc : c + (s.pc i).counted = s.successfulDownloads + v.counted) :
    FanOut.Inv ok n
      { pc := Function.update s.pc i v, mu := m, successfulDownloads := c, world := w } := by
  constructor
  · intro j hj
    have : j ≠ i := by omega
    simp only [Function.update_noteq this]
    exact hinv.outside j hj
  · intro j hj
    by_cases hji : j = i
    · subst hji
      simp only [Function.update_same] at hj ⊢
      exact hout hj
    · simp only [Function.update_noteq hji] at hj ⊢
      exact hinv.outcome j hj
  · intro j
    by_cases hji : j = i
    · subst hji
      simp only [Function.update_same]
      exact hmi
    · simp only [Function.update_noteq hji]
      exact hmj j hji
  · intro j r hj
    by_cases hji : j = i
    · subst hji
      simp only [Function.update_same] at hj
      exact hfi r hj
    · simp only [Function.update_noteq hji] at hj
      exact hfj j hji r hj
  · have h1 := sumUpTo_update_comp PC.counted s.pc n i v hi
    have h2 := hinv.count
    simp only
    omega

theorem Inv_world (ok : Nat → Bool) (n : Nat) (s : FanOut) (w : World) (h : s.Inv ok n) :
    FanOut.Inv ok n { s with world := w } :=
  ⟨h.outside, h.outcome, h.mutex, h.fresh, h.count⟩

/-- A step of an enabled goroutine keeps the invariant and uses up one of the
remaining steps. -/
theorem stepTask_Inv (env : Env) (fd : FileDownloader) (downloadDir : GoString)
    (fileLinks : List GoString) (s : FanOut)
    (hinv : s.Inv (fun i => downloadSucceeds env fd downloadDir (fileLinks.getD i []))
      fileLinks.length)
    (i : Nat) (hi : i < fileLinks.length) (hen : s.enabled i = true) :
    (stepTask env fd downloadDir fileLinks s i).Inv
        (fun i => downloadSucceeds env fd downloadDir (fileLinks.getD i [])) fileLinks.length ∧
    sumUpTo (fun j => ((stepTask env fd downloadDir fileLinks s i).pc j).remaining)
        fileLinks.length + 1 ≤
      sumUpTo (fun j => (s.pc j).remaining) fileLinks.length := by
  have hmu_i := hinv.mutex i
  cases hpc : s.pc i with
  | start =>
    rw [hpc] at hmu_i
    have hnot : s.mu ≠ some i := fun h => by simpa [PC.critical] using hmu_i.mpr h
    cases hD : DownloadFile env fd (fileLinks.getD i [])
        (filepath.Join [downloadDir, ExtractFilename (fileLinks.getD i [])]) with
    | mk res evs =>
      cases res with
      | ok u =>
        have hok : downloadSucceeds env fd downloadDir (fileLinks.getD i []) = true := by
          unfold downloadSucceeds; rw [hD]
        simp only [stepTask, hpc, hD]
        refine ⟨Inv_update _ _ s hinv i hi .wantLock s.mu s.successfulDownloads _
          (fun _ => ⟨fun _ => by simp, fun _ => hok⟩) (by simpa [PC.critical] using hnot)
          (fun j _ => hinv.mutex j) (fun r h => by simp at h)
          (fun j _ r h => hinv.fresh j r h) (by simp [hpc, PC.counted]), ?_⟩
        exact remaining_step s.pc fileLinks.length i _ _ hi hpc (by simp [PC.remaining])
      | error e =>
        have hok : downloadSucceeds env fd downloadDir (fileLinks.getD i []) = false := by
          unfold downloadSucceeds; rw [hD]
        simp only [stepTask, hpc, hD]
        refine ⟨Inv_update _ _ s hinv i hi (.done false) s.mu s.successfulDownloads _
          (fun _ => ⟨fun h => by rw [hok] at h; exact absurd h (by simp), fun h => absurd rfl h⟩) (by simpa [PC.critical] using hnot)
          (fun j _ => hinv.mutex j) (fun r h => by simp at h)
          (fun j _ r h => hinv.fresh j r h) (by simp [hpc, PC.counted]), ?_⟩
        exact remaining_step s.pc fileLinks.length i _ _ hi hpc (by simp [PC.remaining])
  | wantLock =>
    have hfree : s.mu = none := by simpa [FanOut.enabled, hpc] using hen
    have hok := (hinv.outcome i (by simp [hpc])).mpr (by simp [hpc])
    simp only [stepTask, hpc, hfree, if_true]
    refine ⟨Inv_update _ _ s hinv i hi .locked (some i) s.successfulDownloads _
      (fun _ => ⟨fun _ => by simp, fun _ => hok⟩) (by simp [PC.critical])
      (fun j hj => ?_) (fun r h => by simp at h)
      (fun j _ r h => hinv.fresh j r h) (by simp [hpc, PC.counted]), ?_⟩
    · have := hinv.mutex j
      rw [hfree] at this
      constructor
      · intro h; exact absurd (this.mp h) (by simp)
      · intro h; simp at h; exact absurd h.symm hj
    · exact remaining_step s.pc fileLinks.length i _ _ hi hpc (by simp [PC.remaining])
  | locked =>
    rw [hpc] at hmu_i
    have hheld : s.mu = some i := hmu_i.mp (by simp [PC.critical])
    have hok := (hinv.outcome i (by simp [hpc])).mpr (by simp [hpc])
    simp only [stepTask, hpc]
    refine ⟨Inv_update _ _ s hinv i hi (.loaded s.successfulDownloads) s.mu
      s.successfulDownloads _
      (fun _ => ⟨fun _ => by simp, fun _ => hok⟩) (by simp [PC.critical, hheld])
      (fun j _ => hinv.mutex j) (fun r h => by simp at h; exact h.symm)
      (fun j _ r h => hinv.fresh j r h) (by simp [hpc, PC.counted]), ?_⟩
    exact remaining_step s.pc fileLinks.length i _ _ hi hpc (by simp [PC.remaining])
  | loaded r =>
    rw [hpc] at hmu_i
    have hheld : s.mu = some i := hmu_i.mp (by simp [PC.critical])
    have hok := (hinv.outcome i (by simp [hpc])).mpr (by simp [hpc])
    have hr : r = s.successfulDownloads := hinv.fresh i r hpc
    simp only [stepTask, hpc]
    refine ⟨Inv_update _ _ s hinv i hi .stored s.mu (r + 1) _
      (fun _ => ⟨fun _ => by simp, fun _ => hok⟩) (by simp [PC.critical, hheld])
      (fun j _ => hinv.mutex j) (fun r h => by simp at h)
      (fun j hj r1 h => ?_) (by simp [hpc, PC.counted, hr]), ?_⟩
    · have hcrit : (s.pc j).critical = true := by simp [h, PC.critical]
      have := (hinv.mutex j).mp hcrit
      rw [hheld] at this
      simp at this
      exact absurd this.symm hj
    · exact remaining_step s.pc fileLinks.length i _ _ hi hpc (by simp [PC.remaining])
  | stored =>
    rw [hpc] at hmu_i
    have hheld : s.mu = some i := hmu_i.mp (by simp [PC.critical])
    have hok := (hinv.outcome i (by simp [hpc])).mpr (by simp [hpc])
    simp only [stepTask, hpc]
    refine ⟨Inv_update _ _ s hinv i hi (.done true) none s.successfulDownloads _
      (fun _ => ⟨fun _ => by simp, fun _ => hok⟩) (by simp [PC.critical])
      (fun j hj => ?_) (fun r h => by simp at h)
      (fun j _ r h => hinv.fresh j r h) (by simp [hpc, PC.counted]), ?_⟩
    · have := hinv.mutex j
      rw [hheld] at this
      constructor
      · intro h
        have := this.mp h
        simp at this
        exact absurd this.symm hj
      · intro h; simp at h
    · exact remaining_step s.pc fileLinks.length i _ _ hi hpc (by simp [PC.remaining])
  | done b =>
    simp [FanOut.enabled, hpc] at hen

theorem getD_mem_of_default_mem (l : List Nat) (d k : Nat) (hd : d ∈ l) : l.getD k d ∈ l := by
  rw [List.getD_eq_getElem?_getD]
  cases h : l[k]? with
  | none => simpa using hd
  | some x => simpa using List.getElem?_mem h

theorem remaining_eq_zero (p : PC) : p.remaining = 0 ↔ ∃ b, p = .done b := by
  cases p <;> simp [PC.remaining]

/-- No deadlock: while a goroutine is unfinished, some goroutine can move. -/
theorem enabled_of_unfinished (ok : Nat → Bool) (n : Nat) (s : FanOut) (hinv : s.Inv ok n)
    (h : ∃ i, i < n ∧ (s.pc i).remaining ≠ 0) :
    (List.range n).filter s.enabled ≠ [] := by
  obtain ⟨i, hi, hrem⟩ := h
  have hmem : ∀ j, j < n → s.enabled j = true → (List.range n).filter s.enabled ≠ [] := by
    intro j hj hen
    have : j ∈ (List.range n).filter s.enabled := by
      simp [List.mem_filter, hj, hen]
    exact List.ne_nil_of_mem this
  by_cases hen : s.enabled i = true
  · exact hmem i hi hen
  · -- goroutine i waits for the mutex, whose holder can move
    have hwait : s.pc i = .wantLock ∧ s.mu ≠ none := by
      cases hpc : s.pc i <;> simp [FanOut.enabled, hpc, PC.remaining] at hen hrem ⊢
      exact hen
    obtain ⟨j, hj⟩ := Option.ne_none_iff_exists'.mp hwait.2
    have hcrit : (s.pc j).critical = true := (hinv.mutex j).mpr hj
    have hjn : j < n := by
      by_contra hcon
      have := hinv.outside j (by omega)
      rw [this] at hcrit
      simp [PC.critical] at hcrit
    have henj : s.enabled j = true := by
      cases hpc : s.pc j <;> simp [hpc, PC.critical] at hcrit <;> simp [FanOut.enabled, hpc]
    exact hmem j hjn henj

/-- Whatever the scheduler chooses, the goroutines all finish within the fuel,
and the invariant holds at the end. -/
theorem runTasks_finishes (env : Env) (sched : Nat → Nat) (fd : FileDownloader)
    (downloadDir : GoString) (fileLinks : List GoString) :
    ∀ (fuel : Nat) (s : FanOut),
      s.Inv (fun i => downloadSucceeds env fd downloadDir (fileLinks.getD i []))
        fileLinks.length →
      sumUpTo (fun j => (s.pc j).remaining) fileLinks.length ≤ fuel →
      (runTasks env sched fd downloadDir fileLinks fuel s).Inv
          (fun i => downloadSucceeds env fd downloadDir (fileLinks.getD i []))
          fileLinks.length ∧
      sumUpTo (fun j => ((runTasks env sched fd downloadDir fileLinks fuel s).pc j).remaining)
        fileLinks.length = 0 := by
  intro fuel
  induction fuel with
  | zero =>
    intro s hinv hle
    exact ⟨hinv, by simp only [runTasks]; omega⟩
  | succ f ih =>
    intro s hinv hle
    cases hE : (List.range fileLinks.length).filter s.enabled with
    | nil =>
      simp only [runTasks, hE]
      refine ⟨hinv, ?_⟩
      by_contra hne
      obtain ⟨i, hi, hpos⟩ := sumUpTo_pos_index _ _ (Nat.pos_of_ne_zero hne)
      exact enabled_of_unfinished _ _ s hinv ⟨i, hi, by omega⟩ hE
    | cons i rest =>
      simp only [runTasks, hE]
      have hmem : (i :: rest).getD (sched s.world.clock % (i :: rest).length) i ∈
          (List.range fileLinks.length).filter s.enabled := by
        rw [hE]
        exact getD_mem_of_default_mem _ _ _ (by simp)
      rw [List.mem_filter, List.mem_range] at hmem
      obtain ⟨hlt, hen⟩ := hmem
      obtain ⟨hinv1, hdec⟩ := stepTask_Inv env fd downloadDir fileLinks s hinv _ hlt hen
      exact ih _ (Inv_world _ _ _ _ hinv1) (by simp only; omega)

theorem Inv_init (ok : Nat → Bool) (n : Nat) (w : World) :
    FanOut.Inv ok n { pc := fun _ => .start, mu := none, successfulDownloads := 0, world := w } := by
  constructor
  · intro _ _; rfl
  · intro i h; exact absurd rfl h
  · intro i; simp [PC.critical]
  · intro i r h; simp at h
  · have := sumUpTo_const 0 n
    simp only [PC.counted]
    omega

/-- The state when `wg.Wait()` returns, under every schedule: every goroutine has
finished, the mutex is free, and the counter is the number of links whose
download succeeded. -/
theorem fanOut_result (env : Env) (sched : Nat → Nat) (fd : FileDownloader)
    (downloadDir : GoString) (fileLinks : List GoString) (w : World) :
    (∀ i, i < fileLinks.length →
      (fanOut env sched fd downloadDir fileLinks w).pc i =
        .done (downloadSucceeds env fd downloadDir (fileLinks.getD i []))) ∧
    (fanOut env sched fd downloadDir fileLinks w).mu = none ∧
    (fanOut env sched fd downloadDir fileLinks w).successfulDownloads =
      (fileLinks.filter (downloadSucceeds env fd downloadDir)).length := by
  have hinit := Inv_init (fun i => downloadSucceeds env fd downloadDir (fileLinks.getD i []))
    fileLinks.length w
  have hfuel : sumUpTo (fun j => (PC.start).remaining) fileLinks.length ≤ 5 * fileLinks.length := by
    rw [sumUpTo_const]
    simp [PC.remaining]
    omega
  obtain ⟨hinv, hzero⟩ :
      (fanOut env sched fd downloadDir fileLinks w).Inv
        (fun i => downloadSucceeds env fd downloadDir (fileLinks.getD i []))
        fileLinks.length ∧
      sumUpTo (fun j => ((fanOut env sched fd downloadDir fileLinks w).pc j).remaining)
        fileLinks.length = 0 :=
    runTasks_finishes env sched fd downloadDir fileLinks
      (5 * fileLinks.length) _ hinit hfuel
  have hdone : ∀ i, i < fileLinks.length →
      (fanOut env sched fd downloadDir fileLinks w).pc i =
        .done (downloadSucceeds env fd downloadDir (fileLinks.getD i [])) := by
    intro i hi
    have h0 := sumUpTo_eq_zero _ _ hzero i hi
    obtain ⟨b, hb⟩ := (remaining_eq_zero _).mp h0
    have hout := hinv.outcome i (by rw [hb]; simp)
    rw [hb]
    rw [hb] at hout
    cases b with
    | true =>
      have : downloadSucceeds env fd downloadDir (fileLinks.getD i []) = true :=
        hout.mpr (by simp)
      rw [this]
    | false =>
      have : downloadSucceeds env fd downloadDir (fileLinks.getD i []) = false := by
        by_contra hcon
        have ht : downloadSucceeds env fd downloadDir (fileLinks.getD i []) = true := by
          simpa using hcon
        exact (hout.mp ht) rfl
      rw [this]
  refine ⟨hdone, ?_, ?_⟩
  · cases hmu : (fanOut env sched fd downloadDir fileLinks w).mu with
    | none => rfl
    | some j =>
      exfalso
      have hcrit := (hinv.mutex j).mpr hmu
      by_cases hj : j < fileLinks.length
      · rw [hdone j hj] at hcrit
        simp [PC.critical] at hcrit
      · have := hinv.outside j (by omega)
        rw [this] at hcrit
        simp [PC.critical] at hcrit
  · have hc := hinv.count
    rw [hc, ← sumUpTo_filter]
    apply sumUpTo_congr
    intro i hi
    rw [hdone i hi]
    cases downloadSucceeds env fd downloadDir (fileLinks.getD i []) <;> simp [PC.counted]

end FanOutFacts

/-! ## `DownloadFilesFromPage` and `DownloadFromMultiplePages` -/

section Orchestrator

theorem DownloadFilesFromPage_of_links (env : Env) (sched : Nat → Nat) (fd : FileDownloader)
    (w : World) (pageURL fileExtension downloadDir htmlContent : GoString) (evs : List Event)
    (fileLinks : List GoString)
    (hfetch : FetchPageContent env fd pageURL = (.ok htmlContent, evs))
    (hparse : ParseFileLinks fd htmlContent fileExtension = some fileLinks)
    (hlinks : fileLinks ≠ [])
    (hdir : env.MkdirAll downloadDir = true) :
    (DownloadFilesFromPage env sched fd w pageURL fileExtension downloadDir).1 =
      some (fanOut env sched fd downloadDir fileLinks
        { w with trace := w.trace ++ evs ++
            [.print (.encontrados fileLinks.length), .mkdirAll downloadDir] }).successfulDownloads := by
  have hlen : fileLinks.length ≠ 0 := by
    intro h; exact hlinks (List.length_eq_zero.mp h)
  unfold DownloadFilesFromPage
  rw [hfetch]
  simp only [hparse, hlen, if_false, hdir, Bool.not_true, Bool.false_eq_true]

/-- Claim C1: when the page fetch succeeds, `ParseFileLinks` returns a non-empty
list and the download directory is created, the count returned by
`DownloadFilesFromPage` is, under every schedule of the goroutines, the number of
extracted links (with multiplicity) for which `DownloadFile` returned no error.
Each link contributes on its own: a failing link contributes nothing and leaves
the contribution of the links before and after it as it is. -/
theorem DownloadFilesFromPage_count (env : Env) (sched : Nat → Nat) (fd : FileDownloader)
    (w : World) (pageURL fileExtension downloadDir htmlContent : GoString) (evs : List Event)
    (fileLinks : List GoString)
    (hfetch : FetchPageContent env fd pageURL = (.ok htmlContent, evs))
    (hparse : ParseFileLinks fd htmlContent fileExtension = some fileLinks)
    (hlinks : fileLinks ≠ [])
    (hdir : env.MkdirAll downloadDir = true) :
    (DownloadFilesFromPage env sched fd w pageURL fileExtension downloadDir).1 =
      some (fileLinks.filter (downloadSucceeds env fd downloadDir)).length ∧
    ∀ before link after, fileLinks = before ++ link :: after →
      (DownloadFilesFromPage env sched fd w pageURL fileExtension downloadDir).1 =
        some ((before.filter (downloadSucceeds env fd downloadDir)).length +
          (if downloadSucceeds env fd downloadDir link then 1 else 0) +
          (after.filter (downloadSucceeds env fd downloadDir)).length) := by
  have h1 := DownloadFilesFromPage_of_links env sched fd w pageURL fileExtension downloadDir
    htmlContent evs fileLinks hfetch hparse hlinks hdir
  have h2 := (fanOut_result env sched fd downloadDir fileLinks
    { w with trace := w.trace ++ evs ++
        [.print (.encontrados fileLinks.length), .mkdirAll downloadDir] }).2.2
  rw [h2] at h1
  refine ⟨h1, ?_⟩
  intro before link after hsplit
  rw [h1, hsplit, List.filter_append, List.length_append, List.filter_cons]
  by_cases hl : downloadSucceeds env fd downloadDir link = true
  · simp [hl]; omega
  · simp [hl]

/-- Claim C1 at the example of the specification: a page with three qualifying
links, of which two downloads succeed and one gets status 404; the result is 2. -/
theorem DownloadFilesFromPage_count_witness :
    FetchPageContent threeLinkEnv mainDownloader (lit "https://example.com/archives") =
      (.ok threeLinkPage, [.get (lit "https://example.com/archives")]) ∧
    ParseFileLinks mainDownloader threeLinkPage (lit ".pdf") =
      some [lit "https://example.com/a.pdf", lit "https://example.com/b.pdf",
        lit "https://example.com/c.pdf"] ∧
    [lit "https://example.com/a.pdf", lit "https://example.com/b.pdf",
      lit "https://example.com/c.pdf"] ≠ [] ∧
    threeLinkEnv.MkdirAll (lit "archivos_go") = true ∧
    [lit "https://example.com/a.pdf", lit "https://example.com/b.pdf",
      lit "https://example.com/c.pdf"].map
      (downloadSucceeds threeLinkEnv mainDownloader (lit "archivos_go")) = [true, true, false] ∧
    (DownloadFilesFromPage threeLinkEnv exampleSchedule mainDownloader initialWorld
      (lit "https://example.com/archives") (lit ".pdf") (lit "archivos_go")).1 = some 2 := by
  refine ⟨by decide!, by decide!, by decide, rfl, by decide!, ?_⟩
  rw [(DownloadFilesFromPage_count threeLinkEnv exampleSchedule mainDownloader initialWorld
    (lit "https://example.com/archives") (lit ".pdf") (lit "archivos_go") threeLinkPage
    [.get (lit "https://example.com/archives")]
    [lit "https://example.com/a.pdf", lit "https://example.com/b.pdf",
      lit "https://example.com/c.pdf"] (by decide!) (by decide!) (by decide) rfl).1]
  decide!

/-- Claim C9: on a page with 100 qualifying links where every download succeeds,
`DownloadFilesFromPage` returns exactly 100 under every schedule of the download
goroutines: when `wg.Wait()` returns, every goroutine has finished after storing
its increment, the mutex is free, and the counter is 100. -/
theorem DownloadFilesFromPage_hundred (env : Env) (sched : Nat → Nat) (fd : FileDownloader)
    (w : World) (pageURL fileExtension downloadDir htmlContent : GoString) (evs : List Event)
    (fileLinks : List GoString)
    (hfetch : FetchPageContent env fd pageURL = (.ok htmlContent, evs))
    (hparse : ParseFileLinks fd htmlContent fileExtension = some fileLinks)
    (hlen : fileLinks.length = 100)
    (hdir : env.MkdirAll downloadDir = true)
    (hall : ∀ link ∈ fileLinks, downloadSucceeds env fd downloadDir link = true) :
    (DownloadFilesFromPage env sched fd w pageURL fileExtension downloadDir).1 = some 100 ∧
    ∀ w1 : World,
      (∀ i, i < 100 → (fanOut env sched fd downloadDir fileLinks w1).pc i = .done true) ∧
      (fanOut env sched fd downloadDir fileLinks w1).mu = none ∧
      (fanOut env sched fd downloadDir fileLinks w1).successfulDownloads = 100 := by
  have hne : fileLinks ≠ [] := by
    intro h; rw [h] at hlen; simp at hlen
  have hfilter : fileLinks.filter (downloadSucceeds env fd downloadDir) = fileLinks :=
    List.filter_eq_self.mpr hall
  have hfan : ∀ w1 : World,
      (∀ i, i < 100 → (fanOut env sched fd downloadDir fileLinks w1).pc i = .done true) ∧
      (fanOut env sched fd downloadDir fileLinks w1).mu = none ∧
      (fanOut env sched fd downloadDir fileLinks w1).successfulDownloads = 100 := by
    intro w1
    obtain ⟨h1, h2, h3⟩ := fanOut_result env sched fd downloadDir fileLinks w1
    refine ⟨?_, h2, by rw [h3, hfilter, hlen]⟩
    intro i hi
    rw [h1 i (by omega)]
    have hmem : fileLinks.getD i [] ∈ fileLinks := by
      rw [List.getD_eq_getElem?_getD, List.getElem?_eq_getElem (by omega)]
      simp
    rw [hall _ hmem]
  refine ⟨?_, hfan⟩
  rw [DownloadFilesFromPage_of_links env sched fd w pageURL fileExtension downloadDir
    htmlContent evs fileLinks hfetch hparse hne hdir]
  rw [(hfan _).2.2]

/-- Claim C8: when the page fetch returns an error (the request cannot be built,
the transport fails, the status is not 200, or the body cannot be read),
`DownloadFilesFromPage` returns 0, no goroutine takes a step (the scheduler's
clock does not move), and all it adds to the trace is the request for the page, if
one was sent, and the error line: no directory and no file is created. -/
theorem DownloadFilesFromPage_fetch_error (env : Env) (sched : Nat → Nat)
    (fd : FileDownloader) (w : World) (pageURL fileExtension downloadDir : GoString)
    (h : url.Parse pageURL = none ∨
      env.Do pageURL fd.UserAgent = .transportError ∨
      (∃ code body, env.Do pageURL fd.UserAgent = .status code body ∧ code ≠ 200) ∨
      (∃ code, env.Do pageURL fd.UserAgent = .status code none)) :
    (DownloadFilesFromPage env sched fd w pageURL fileExtension downloadDir).1 = some 0 ∧
    (DownloadFilesFromPage env sched fd w pageURL fileExtension downloadDir).2.clock
      = w.clock ∧
    (DownloadFilesFromPage env sched fd w pageURL fileExtension downloadDir).2.trace =
      w.trace ++ (if url.Parse pageURL = none then [] else [.get pageURL]) ++
        [.print .errorObteniendoPagina] := by
  unfold DownloadFilesFromPage FetchPageContent
  cases hp : url.Parse pageURL with
  | none => simp
  | some u =>
    simp only [hp] at h
    rcases h with h | h | ⟨code, body, h, hc⟩ | ⟨code, h⟩
    · exact absurd h (by simp)
    · simp [h]
    · simp [h, hc]
    · by_cases hc : code = 200
      · simp [h, hc]
      · simp [h, hc]

/-- Claim C8 at a concrete input: the transport fails on the page fetch. -/
theorem DownloadFilesFromPage_fetch_error_witness :
    (url.Parse (lit "https://example.com/archives") = none ∨
      offlineEnv.Do (lit "https://example.com/archives") mainDownloader.UserAgent
        = .transportError ∨
      (∃ code body, offlineEnv.Do (lit "https://example.com/archives") mainDownloader.UserAgent
        = .status code body ∧ code ≠ 200) ∨
      (∃ code, offlineEnv.Do (lit "https://example.com/archives") mainDownloader.UserAgent
        = .status code none)) ∧
    (DownloadFilesFromPage offlineEnv exampleSchedule mainDownloader initialWorld
      (lit "https://example.com/archives") (lit ".pdf") (lit "archivos_go")).1 = some 0 ∧
    (DownloadFilesFromPage offlineEnv exampleSchedule mainDownloader initialWorld
      (lit "https://example.com/archives") (lit ".pdf") (lit "archivos_go")).2.clock = 0 ∧
    (DownloadFilesFromPage offlineEnv exampleSchedule mainDownloader initialWorld
      (lit "https://example.com/archives") (lit ".pdf") (lit "archivos_go")).2.trace =
      [.get (lit "https://example.com/archives"), .print .errorObteniendoPagina] := by
  have h := DownloadFilesFromPage_fetch_error offlineEnv exampleSchedule mainDownloader
    initialWorld (lit "https://example.com/archives") (lit ".pdf") (lit "archivos_go")
    (Or.inr (Or.inl rfl))
  refine ⟨Or.inr (Or.inl rfl), h.1, h.2.1, ?_⟩
  rw [h.2.2]
  decide!

/-- Claim C9 at a concrete page with one hundred links, all of which download. -/
theorem DownloadFilesFromPage_hundred_witness :
    FetchPageContent hundredLinkEnv mainDownloader (lit "https://example.com/archives") =
      (.ok hundredLinkPage, [.get (lit "https://example.com/archives")]) ∧
    ParseFileLinks mainDownloader hundredLinkPage (lit ".bakent_fronted") =
      some hundredLinks ∧
    hundredLinks.length = 100 ∧
    hundredLinkEnv.MkdirAll (lit "archivos_go") = true ∧
    (∀ link ∈ hundredLinks,
      downloadSucceeds hundredLinkEnv mainDownloader (lit "archivos_go") link = true) ∧
    (DownloadFilesFromPage hundredLinkEnv exampleSchedule mainDownloader initialWorld
      (lit "https://example.com/archives") (lit ".bakent_fronted") (lit "archivos_go")).1
      = some 100 :=
  ⟨by decide!, by decide!, by decide!, rfl, by decide!,
   (DownloadFilesFromPage_hundred hundredLinkEnv exampleSchedule mainDownloader initialWorld
     (lit "https://example.com/archives") (lit ".bakent_fronted") (lit "archivos_go")
     hundredLinkPage [.get (lit "https://example.com/archives")] hundredLinks
     (by decide!) (by decide!) (by decide!) rfl (by decide!)).1⟩

theorem pagesProcessed_append (t1 t2 : List Event) :
    pagesProcessed (t1 ++ t2) = pagesProcessed t1 ++ pagesProcessed t2 := by
  simp [pagesProcessed, List.filterMap_append]

theorem pagesProcessed_DownloadFile (env : Env) (fd : FileDownloader)
    (fileURL outputPath : GoString) :
    pagesProcessed (DownloadFile env fd fileURL outputPath).2 = [] := by
  unfold DownloadFile
  simp only
  split
  · rfl
  · split
    · rfl
    · split
      · rfl
      · split
        · rfl
        · split
          · rfl
          · split
            · rfl
            · split <;> rfl

theorem pagesProcessed_FetchPageContent (env : Env) (fd : FileDownloader) (pageURL : GoString) :
    pagesProcessed (FetchPageContent env fd pageURL).2 = [] := by
  unfold FetchPageContent
  split
  · rfl
  · split
    · rfl
    · split
      · rfl
      · split <;> rfl

theorem pagesProcessed_stepTask (env : Env) (fd : FileDownloader) (downloadDir : GoString)
    (fileLinks : List GoString) (s : FanOut) (i : Nat) :
    pagesProcessed (stepTask env fd downloadDir fileLinks s i).world.trace =
      pagesProcessed s.world.trace := by
  unfold stepTask
  cases hpc : s.pc i with
  | start =>
    simp only
    have hD := pagesProcessed_DownloadFile env fd (fileLinks.getD i [])
      (filepath.Join [downloadDir, ExtractFilename (fileLinks.getD i [])])
    cases hr : DownloadFile env fd (fileLinks.getD i [])
        (filepath.Join [downloadDir, ExtractFilename (fileLinks.getD i [])]) with
    | mk res evs =>
      rw [hr] at hD
      cases res with
      | ok u => simp only [pagesProcessed_append, hD, List.append_nil]
      | error e =>
        simp only [pagesProcessed_append, hD, List.append_nil]
        simp [pagesProcessed]
  | wantLock => simp only; split <;> rfl
  | locked => rfl
  | loaded r => rfl
  | stored => rfl
  | done b => rfl

theorem pagesProcessed_runTasks (env : Env) (sched : Nat → Nat) (fd : FileDownloader)
    (downloadDir : GoString) (fileLinks : List GoString) :
    ∀ (fuel : Nat) (s : FanOut),
      pagesProcessed (runTasks env sched fd downloadDir fileLinks fuel s).world.trace =
        pagesProcessed s.world.trace := by
  intro fuel
  induction fuel with
  | zero => intro s; rfl
  | succ f ih =>
    intro s
    cases hE : (List.range fileLinks.length).filter s.enabled with
    | nil => simp only [runTasks, hE]
    | cons i rest =>
      simp only [runTasks, hE]
      rw [ih]
      exact pagesProcessed_stepTask env fd downloadDir fileLinks s _

theorem pagesProcessed_DownloadFilesFromPage (env : Env) (sched : Nat → Nat)
    (fd : FileDownloader) (w : World) (pageURL fileExtension downloadDir : GoString) :
    pagesProcessed
        (DownloadFilesFromPage env sched fd w pageURL fileExtension downloadDir).2.trace =
      pagesProcessed w.trace := by
  have hF := pagesProcessed_FetchPageContent env fd pageURL
  unfold DownloadFilesFromPage
  cases hr : FetchPageContent env fd pageURL with
  | mk res evs =>
    rw [hr] at hF
    cases res with
    | error e =>
      simp only [pagesProcessed_append, hF, List.append_nil]
      simp [pagesProcessed]
    | ok html =>
      simp only
      cases ParseFileLinks fd html fileExtension with
      | none => simp only [pagesProcessed_append, hF, List.append_nil]
      | some fileLinks =>
        simp only
        split
        · simp only [pagesProcessed_append, hF, List.append_nil]
          simp [pagesProcessed]
        · split
          · simp only [pagesProcessed_append, hF, List.append_nil]
            simp [pagesProcessed]
          · unfold fanOut
            rw [pagesProcessed_runTasks]
            simp only [pagesProcessed_append, hF, List.append_nil]
            simp [pagesProcessed]

/-- `DownloadFilesFromPage` returns when the extension is valid UTF-8. -/
theorem DownloadFilesFromPage_returns (env : Env) (sched : Nat → Nat)
    (fd : FileDownloader) (w : World) (pageURL downloadDir : GoString) (cps : List Nat)
    (hcps : ∀ c ∈ cps, IsScalarValue c) :
    (DownloadFilesFromPage env sched fd w pageURL (utf8.encode cps) downloadDir).1 ≠ none := by
  unfold DownloadFilesFromPage
  cases hr : FetchPageContent env fd pageURL with
  | mk res evs =>
    cases res with
    | error e => simp
    | ok html =>
      simp only
      rw [ParseFileLinks_eq_rawLinks fd html _ _ (MustCompile_encode cps hcps)]
      simp only
      split
      · simp
      · split <;> simp

/-- The loop over the pages: the total is the sum of the counts of the calls
when every call returns, and nothing when a call panics. -/
theorem pagesLoop_eq (env : Env) (sched : Nat → Nat) (fd : FileDownloader)
    (fileExtension downloadDir : GoString) :
    ∀ (pageURLs : List GoString) (total : Nat) (w : World),
      pagesLoop env sched fd fileExtension downloadDir total w pageURLs =
        (if ∀ c ∈ pageCalls env sched fd fileExtension downloadDir w pageURLs, c.2 ≠ none then
            some (total + ((pageCalls env sched fd fileExtension downloadDir w pageURLs).filterMap
              (fun c => c.2)).sum)
          else none,
          worldAfterPages env sched fd fileExtension downloadDir w pageURLs) := by
  intro pageURLs
  induction pageURLs with
  | nil => intro total w; simp [pagesLoop, pageCalls, worldAfterPages]
  | cons p rest ih =>
    intro total w
    simp only [pagesLoop, pageCalls, worldAfterPages]
    cases hr : DownloadFilesFromPage env sched fd
        { w with trace := w.trace ++ [.print (.procesandoPagina p)] } p fileExtension
        downloadDir with
    | mk o w2 =>
      cases o with
      | none => simp
      | some d =>
        simp only [ih, Option.isSome_some, if_true, List.mem_cons, forall_eq_or_imp, ne_eq,
          not_false_eq_true, true_and, List.filterMap_cons_some, List.sum_cons,
          reduceCtorEq]
        by_cases hall : ∀ c ∈ pageCalls env sched fd fileExtension downloadDir w2 rest,
            ¬ c.2 = none
        · simp only [hall, if_true, Nat.add_assoc]
          trivial
        · simp only [hall, if_false]

theorem pageCalls_prefix (env : Env) (sched : Nat → Nat) (fd : FileDownloader)
    (fileExtension downloadDir : GoString) :
    ∀ (pageURLs : List GoString) (w : World),
      (pageCalls env sched fd fileExtension downloadDir w pageURLs).map (fun c => c.1)
        <+: pageURLs := by
  intro pageURLs
  induction pageURLs with
  | nil => intro w; simp [pageCalls]
  | cons p rest ih =>
    intro w
    simp only [pageCalls]
    split
    · simp only [List.map_cons]
      exact List.prefix_cons_inj p |>.mpr (ih _)
    · simp

theorem pageCalls_pages (env : Env) (sched : Nat → Nat) (fd : FileDownloader)
    (fileExtension downloadDir : GoString) :
    ∀ (pageURLs : List GoString) (w : World),
      (∀ c ∈ pageCalls env sched fd fileExtension downloadDir w pageURLs, c.2 ≠ none) →
      (pageCalls env sched fd fileExtension downloadDir w pageURLs).map (fun c => c.1)
        = pageURLs := by
  intro pageURLs
  induction pageURLs with
  | nil => intro w _; rfl
  | cons p rest ih =>
    intro w hall
    simp only [pageCalls] at hall ⊢
    have h0 := hall _ (List.mem_cons_self _ _)
    simp only at h0
    have hsome : (DownloadFilesFromPage env sched fd
        { w with trace := w.trace ++ [.print (.procesandoPagina p)] } p fileExtension
        downloadDir).1.isSome = true := Option.isSome_iff_ne_none.mpr h0
    simp only [hsome, if_true, List.map_cons] at hall ⊢
    rw [ih _ (fun c hc => hall c (List.mem_cons_of_mem _ hc))]

theorem pagesProcessed_worldAfterPages (env : Env) (sched : Nat → Nat) (fd : FileDownloader)
    (fileExtension downloadDir : GoString) :
    ∀ (pageURLs : List GoString) (w : World),
      pagesProcessed (worldAfterPages env sched fd fileExtension downloadDir w pageURLs).trace
        = pagesProcessed w.trace ++
          (pageCalls env sched fd fileExtension downloadDir w pageURLs).map (fun c => c.1) := by
  intro pageURLs
  induction pageURLs with
  | nil => intro w; simp [worldAfterPages, pageCalls]
  | cons p rest ih =>
    intro w
    simp only [worldAfterPages, pageCalls]
    split
    · rw [ih, pagesProcessed_DownloadFilesFromPage, pagesProcessed_append]
      simp [pagesProcessed]
    · rw [pagesProcessed_DownloadFilesFromPage, pagesProcessed_append]
      simp [pagesProcessed]

theorem pageCalls_return (env : Env) (sched : Nat → Nat) (fd : FileDownloader)
    (downloadDir : GoString) (cps : List Nat) (hcps : ∀ c ∈ cps, IsScalarValue c) :
    ∀ (pageURLs : List GoString) (w : World),
      ∀ c ∈ pageCalls env sched fd (utf8.encode cps) downloadDir w pageURLs, c.2 ≠ none := by
  intro pageURLs
  induction pageURLs with
  | nil => intro w c hc; simp [pageCalls] at hc
  | cons p rest ih =>
    intro w c hc
    simp only [pageCalls] at hc
    rcases List.mem_cons.mp hc with rfl | hc
    · exact DownloadFilesFromPage_returns env sched fd _ p downloadDir cps hcps
    · split at hc
      · exact ih _ c hc
      · simp at hc

end Orchestrator

/-! ## Canonical absolute URLs are resolved to themselves -/

section AbsoluteURLFacts
open strings url

theorem Index_singleton_none (x : Nat) (s : GoString) (h : x ∉ s) : Index s [x] = none := by
  induction s with
  | nil => simp [Index]
  | cons c cs ih =>
    have hc : x ≠ c := fun hh => h (by simp [hh])
    have hcs : x ∉ cs := fun hh => h (by simp [hh])
    simp [Index, List.isPrefixOf, hc, ih hcs]

theorem Index_singleton_append (x : Nat) (a b : GoString) (h : x ∉ a) :
    Index (a ++ x :: b) [x] = some a.length := by
  induction a with
  | nil => simp [Index, List.isPrefixOf]
  | cons c cs ih =>
    have hc : x ≠ c := fun hh => h (by simp [hh])
    have hcs : x ∉ cs := fun hh => h (by simp [hh])
    simp [Index, List.isPrefixOf, hc, ih hcs]

theorem Cut_singleton_none (x : Nat) (s : GoString) (h : x ∉ s) : Cut s [x] = (s, [], false) := by
  simp [Cut, Index_singleton_none x s h]

theorem Cut_singleton_append (x : Nat) (a b : GoString) (h : x ∉ a) :
    Cut (a ++ x :: b) [x] = (a, b, true) := by
  simp [Cut, Index_singleton_append x a b h]

theorem Contains_singleton_of_not_mem (x : Nat) (s : GoString) (h : x ∉ s) :
    Contains s [x] = false := by
  simp [Contains, Index_singleton_none x s h]

theorem Contains_singleton_append (x : Nat) (a b : GoString) (h : x ∉ a) :
    Contains (a ++ x :: b) [x] = true := by
  simp [Contains, Index_singleton_append x a b h]

/-! ### The bytes of the parts -/

theorem unreserved_cases (c : Nat) (h : isUnreserved c) :
    ((97 ≤ c ∧ c ≤ 122) ∨ (65 ≤ c ∧ c ≤ 90) ∨ (48 ≤ c ∧ c ≤ 57)) ∨
      c = 45 ∨ c = 95 ∨ c = 46 ∨ c = 126 := by
  unfold isUnreserved at h
  omega

theorem shouldEscape_alnum (c : Nat) (mode : encoding)
    (h : (97 ≤ c ∧ c ≤ 122) ∨ (65 ≤ c ∧ c ≤ 90) ∨ (48 ≤ c ∧ c ≤ 57)) :
    shouldEscape c mode = false := by
  unfold shouldEscape
  rw [if_pos h]

theorem shouldEscape_unreserved (c : Nat) (mode : encoding) (h : isUnreserved c) :
    shouldEscape c mode = false := by
  rcases unreserved_cases c h with h | h | h | h | h
  · exact shouldEscape_alnum c mode h
  · subst h; cases mode <;> decide
  · subst h; cases mode <;> decide
  · subst h; cases mode <;> decide
  · subst h; cases mode <;> decide

theorem shouldEscape_userinfo (c : Nat) (h : isUserinfoByte c) :
    shouldEscape c .encodeUserPassword = false := by
  unfold isUserinfoByte at h
  rcases h with h | h | h | h | h | h | h
  · exact shouldEscape_unreserved c _ h
  all_goals (subst h; decide)

theorem shouldEscape_hostport (c : Nat) (h : isUnreserved c ∨ c = 58 ∨ isDigit c) :
    shouldEscape c .encodeHost = false := by
  rcases h with h | h | h
  · exact shouldEscape_unreserved c _ h
  · subst h; decide
  · unfold isDigit at h
    exact shouldEscape_alnum c _ (Or.inr (Or.inr h))

theorem pathByte_cases (c : Nat) (h : isPathByte c) :
    isUnreserved c ∨ c = 47 ∨
      c ∈ [33, 36, 38, 39, 40, 41, 42, 43, 44, 59, 61, 58, 64, 91, 93, 37] := by
  unfold isPathByte at h
  rcases h with h | h
  · exact Or.inl h
  · simp only [List.mem_cons, List.mem_singleton, List.not_mem_nil, or_false] at h ⊢
    omega

theorem validEncoded_path (p : GoString) (h : ∀ c ∈ p, isPathByte c) :
    validEncoded p .encodePath = true := by
  unfold validEncoded
  rw [List.all_eq_true]
  intro c hc
  rcases pathByte_cases c (h c hc) with h1 | h1 | h1
  · simp [shouldEscape_unreserved c _ h1]
  · subst h1; decide
  · simp [h1]

theorem validEncoded_fragment (f : GoString) (h : ∀ c ∈ f, isFragmentByte c) :
    validEncoded f .encodeFragment = true := by
  unfold validEncoded
  rw [List.all_eq_true]
  intro c hc
  rcases h c hc with h0 | h0
  · rcases pathByte_cases c h0 with h1 | h1 | h1
    · simp [shouldEscape_unreserved c _ h1]
    · subst h1; decide
    · simp [h1]
  · subst h0; decide

theorem ishex_of_isHexDigit (c : Nat) (h : isHexDigit c) : ishex c = true := by
  unfold isHexDigit at h
  unfold ishex
  simpa using h

/-- A text whose escapes are well formed unescapes, as a path or a fragment. -/
theorem unescapeValid_wellEscaped (mode : encoding)
    (hm : mode = .encodePath ∨ mode = .encodeFragment) :
    ∀ (n : Nat) (s : GoString), s.length ≤ n → wellEscaped s = true →
      unescapeValid mode s = true := by
  have hh : ¬ (mode = .encodeHost) ∧ ¬ (mode = .encodeZone) := by
    rcases hm with rfl | rfl <;> exact ⟨by decide, by decide⟩
  intro n
  induction n with
  | zero =>
    intro s hn _
    have : s = [] := List.length_eq_zero.mp (by omega)
    subst this
    simp [unescapeValid]
  | succ n ih =>
    intro s hn hw
    match s, hn, hw with
    | [], _, _ => simp [unescapeValid]
    | [c], _, hw =>
      by_cases h37 : c = 37
      · subst h37; simp [wellEscaped] at hw
      · by_cases h43 : c = 43
        · subst h43; simp [unescapeValid]
        · simp [unescapeValid, h37, h43, hh.1, hh.2]
    | [c, d], hn, hw =>
      by_cases h37 : c = 37
      · subst h37; simp [wellEscaped] at hw
      · have hw' : wellEscaped [d] = true := by
          simpa [wellEscaped, h37] using hw
        have hrec := ih [d] (by simp at hn ⊢; omega) hw'
        by_cases h43 : c = 43
        · subst h43; simp [unescapeValid, hrec]
        · simp [unescapeValid, h37, h43, hh.1, hh.2, hrec]
    | c :: d :: e :: rest, hn, hw =>
      by_cases h37 : c = 37
      · subst h37
        simp only [wellEscaped, Bool.and_eq_true, decide_eq_true_eq] at hw
        obtain ⟨⟨h1, h2⟩, h3⟩ := hw
        have hrec := ih rest (by simp at hn; omega) h3
        simp [unescapeValid, ishex_of_isHexDigit d h1, ishex_of_isHexDigit e h2, hh.1, hh.2, hrec]
      · have hw' : wellEscaped (d :: e :: rest) = true := by
          simpa [wellEscaped, h37] using hw
        have hrec := ih (d :: e :: rest) (by simp at hn ⊢; omega) hw'
        by_cases h43 : c = 43
        · subst h43; simp [unescapeValid, hrec]
        · simp [unescapeValid, h37, h43, hh.1, hh.2, hrec]

theorem unescape_wellEscaped (mode : encoding)
    (hm : mode = .encodePath ∨ mode = .encodeFragment) (s : GoString)
    (hw : wellEscaped s = true) : unescape s mode = some (unescapeDecode mode s) := by
  unfold unescape
  rw [unescapeValid_wellEscaped mode hm s.length s (Nat.le_refl _) hw]
  rfl

theorem unescapeDecode_ne_nil (mode : encoding) (s : GoString) (h : s ≠ []) :
    unescapeDecode mode s ≠ [] := by
  match s, h with
  | [c], _ =>
    by_cases h37 : c = 37
    · subst h37; simp [unescapeDecode]
    · by_cases h43 : c = 43
      · subst h43; simp [unescapeDecode]
      · simp [unescapeDecode, h37, h43]
  | [c, d], _ =>
    by_cases h37 : c = 37
    · subst h37; simp [unescapeDecode]
    · by_cases h43 : c = 43
      · subst h43; simp [unescapeDecode]
      · simp [unescapeDecode, h37, h43]
  | c :: d :: e :: rest, _ =>
    by_cases h37 : c = 37
    · subst h37; simp [unescapeDecode]
    · by_cases h43 : c = 43
      · subst h43; simp [unescapeDecode]
      · simp [unescapeDecode, h37, h43]

theorem unescapeDecode_slash (mode : encoding) (rest : GoString) :
    unescapeDecode mode (47 :: rest) = 47 :: unescapeDecode mode rest := by
  simp [unescapeDecode]

theorem escape_of_no_escape (s : GoString) (mode : encoding)
    (h : ∀ c ∈ s, shouldEscape c mode = false) (hq : mode ≠ .encodeQueryComponent) :
    escape s mode = s := by
  unfold escape
  induction s with
  | nil => rfl
  | cons c cs ih =>
    have hc := h c (by simp)
    have hcs := ih (fun x hx => h x (by simp [hx]))
    rw [List.map_cons, List.flatten_cons, hcs]
    simp [hq, hc]

theorem unescapeValid_plain (mode : encoding) (s : GoString)
    (h : ∀ c ∈ s, c ≠ 37 ∧ c ≠ 43 ∧
      ((mode = .encodeHost ∨ mode = .encodeZone) → shouldEscape c .encodeHost = false)) :
    unescapeValid mode s = true := by
  induction s with
  | nil => simp [unescapeValid]
  | cons c cs ih =>
    obtain ⟨h37, h43, hesc⟩ := h c (by simp)
    have hcs := ih (fun x hx => h x (by simp [hx]))
    by_cases hm : mode = .encodeHost ∨ mode = .encodeZone
    · simp [unescapeValid, h37, h43, hcs, hesc hm]
    · simp [unescapeValid, h37, h43, hcs, hm]

theorem unescapeDecode_plain (mode : encoding) (s : GoString)
    (h : ∀ c ∈ s, c ≠ 37 ∧ (c = 43 → mode ≠ .encodeQueryComponent)) :
    unescapeDecode mode s = s := by
  induction s with
  | nil => simp [unescapeDecode]
  | cons c cs ih =>
    obtain ⟨h37, h43⟩ := h c (by simp)
    have hcs := ih (fun x hx => h x (by simp [hx]))
    by_cases hc : c = 43
    · subst hc
      simp [unescapeDecode, hcs, h43 rfl]
    · simp [unescapeDecode, h37, hc, hcs]

/-- User names and passwords of bytes that are written as they are unescape to
themselves. -/
theorem unescape_userinfo (s : GoString) (h : ∀ c ∈ s, isUserinfoByte c) :
    unescape s .encodeUserPassword = some s := by
  have h37 : ∀ c ∈ s, c ≠ 37 := by
    intro c hc
    have := h c hc
    unfold isUserinfoByte isUnreserved at this
    omega
  have hv : unescapeValid .encodeUserPassword s = true := by
    clear h
    induction s with
    | nil => simp [unescapeValid]
    | cons c cs ih =>
      have hc := h37 c (by simp)
      have hcs := ih (fun x hx => h37 x (by simp [hx]))
      by_cases h43 : c = 43
      · subst h43; simp [unescapeValid, hcs]
      · simp [unescapeValid, hc, h43, hcs]
  unfold unescape
  rw [hv, unescapeDecode_plain _ s (fun c hc => ⟨h37 c hc, fun _ => by decide⟩)]
  rfl

theorem escape_userinfo (s : GoString) (h : ∀ c ∈ s, isUserinfoByte c) :
    escape s .encodeUserPassword = s :=
  escape_of_no_escape s _ (fun c hc => shouldEscape_userinfo c (h c hc)) (by decide)

theorem hostport_bytes (a : AbsoluteURL) (hhost : ∀ c ∈ a.host, isUnreserved c)
    (hport : ∀ p ∈ a.port, ∀ c ∈ p, isDigit c) :
    ∀ c ∈ a.hostport, isUnreserved c ∨ c = 58 ∨ isDigit c := by
  intro c hc
  unfold AbsoluteURL.hostport at hc
  rw [List.mem_append] at hc
  rcases hc with hc | hc
  · exact Or.inl (hhost c hc)
  · cases hp : a.port with
    | none => rw [hp] at hc; simp at hc
    | some p =>
      rw [hp] at hc
      simp only [List.mem_cons] at hc
      rcases hc with hc | hc
      · exact Or.inr (Or.inl hc)
      · exact Or.inr (Or.inr (hport p (by rw [hp]; rfl) c hc))

theorem hostport_not_mem (a : AbsoluteURL) (hhost : ∀ c ∈ a.host, isUnreserved c)
    (hport : ∀ p ∈ a.port, ∀ c ∈ p, isDigit c) (x : Nat)
    (hx : ¬ isUnreserved x ∧ x ≠ 58 ∧ ¬ isDigit x) : x ∉ a.hostport := by
  intro hmem
  rcases hostport_bytes a hhost hport x hmem with h | h | h
  · exact hx.1 h
  · exact hx.2.1 h
  · exact hx.2.2 h

theorem parseHost_hostport (a : AbsoluteURL) (hhost : ∀ c ∈ a.host, isUnreserved c)
    (hport : ∀ p ∈ a.port, ∀ c ∈ p, isDigit c) :
    parseHost a.hostport = some a.hostport := by
  have hb := hostport_bytes a hhost hport
  have hun : unescape a.hostport .encodeHost = some a.hostport := by
    unfold unescape
    rw [unescapeValid_plain .encodeHost a.hostport (fun c hc => by
        have := hb c hc
        refine ⟨?_, ?_, fun _ => shouldEscape_hostport c this⟩ <;>
          (unfold isUnreserved isDigit at this; omega)),
      unescapeDecode_plain _ a.hostport (fun c hc => by
        have := hb c hc
        refine ⟨?_, fun _ => by decide⟩
        unfold isUnreserved isDigit at this; omega)]
    rfl
  have h91 : HasPrefix a.hostport [91] = false := by
    cases hh : a.hostport with
    | nil => rfl
    | cons c cs =>
      have := hb c (by rw [hh]; simp)
      have hc : (91 : Nat) ≠ c := by
        unfold isUnreserved isDigit at this; omega
      simp [HasPrefix, List.isPrefixOf, hc]
  unfold parseHost
  rw [h91]
  simp only [Bool.false_eq_true, if_false]
  cases hp : a.port with
  | none =>
    have h58 : LastIndex a.hostport [58] = none := by
      apply LastIndex_of_not_mem
      unfold AbsoluteURL.hostport
      rw [hp, List.append_nil]
      intro hmem
      have := hhost 58 hmem
      unfold isUnreserved at this
      omega
    rw [h58]
    exact hun
  | some p =>
    have hpd : ∀ c ∈ p, isDigit c := hport p (by rw [hp]; rfl)
    have h58p : 58 ∉ p := by
      intro hmem
      have := hpd 58 hmem
      unfold isDigit at this
      omega
    have heq : a.hostport = a.host ++ 58 :: p := by
      unfold AbsoluteURL.hostport; rw [hp]
    have h58 : LastIndex a.hostport [58] = some a.host.length := by
      rw [heq]; exact LastIndex_append_sep 58 a.host p h58p
    have hvalid : validOptionalPort (a.hostport.drop a.host.length) = true := by
      rw [heq, List.drop_left]
      unfold validOptionalPort
      simp only [ne_eq, not_true_eq_false, if_false, List.all_eq_true, decide_eq_true_eq]
      intro c hc
      exact hpd c hc
    rw [h58]
    simp only [hvalid, Bool.not_true, Bool.false_eq_true, if_false]
    exact hun

theorem escape_hostport (a : AbsoluteURL) (hhost : ∀ c ∈ a.host, isUnreserved c)
    (hport : ∀ p ∈ a.port, ∀ c ∈ p, isDigit c) :
    escape a.hostport .encodeHost = a.hostport :=
  escape_of_no_escape _ _
    (fun c hc => shouldEscape_hostport c (hostport_bytes a hhost hport c hc)) (by decide)

theorem validUserinfo_bytes (s : GoString)
    (h : ∀ c ∈ s, isUserinfoByte c ∨ c = 58) : validUserinfo s = true := by
  unfold validUserinfo
  rw [List.all_eq_true]
  intro c hc
  have := h c hc
  unfold isUserinfoByte isUnreserved at this
  simp only [List.mem_cons, List.mem_singleton, List.not_mem_nil, or_false, decide_eq_true_eq]
  omega

/-- The authority of a canonical URL parses into its user information and its
host. -/
theorem parseAuthority_canonical (a : AbsoluteURL) (h : a.Canonical) :
    parseAuthority a.authority = some (a.user, a.hostport) := by
  have hph := parseHost_hostport a h.host h.port
  have h64 : 64 ∉ a.hostport :=
    hostport_not_mem a h.host h.port 64 (by unfold isUnreserved isDigit; omega)
  unfold AbsoluteURL.authority AbsoluteURL.userinfoText AbsoluteURL.user
  cases hu : a.userinfo with
  | none =>
    simp only [List.nil_append]
    unfold parseAuthority
    rw [LastIndex_of_not_mem 64 _ h64, hph]
    rfl
  | some ui =>
    obtain ⟨user, pw⟩ := ui
    have hui := h.userinfo (user, pw) (by rw [hu]; rfl)
    have huser : ∀ c ∈ user, isUserinfoByte c := hui.1
    have h58u : 58 ∉ user := by
      intro hmem
      have := huser 58 hmem
      unfold isUserinfoByte isUnreserved at this
      omega
    cases pw with
    | none =>
      simp only
      have hl : LastIndex (user ++ [64] ++ a.hostport) [64] = some user.length := by
        rw [List.append_assoc]
        exact LastIndex_append_sep 64 user _ h64
      unfold parseAuthority
      rw [hl]
      have hd : (user ++ [64] ++ a.hostport).drop (user.length + 1) = a.hostport := by
        rw [List.append_assoc, List.drop_append_eq_append_drop]
        simp
      have ht : (user ++ [64] ++ a.hostport).take user.length = user := by
        rw [List.append_assoc, List.take_left]
      simp only [hd, hph, ht]
      rw [validUserinfo_bytes user (fun c hc => Or.inl (huser c hc)),
        Contains_singleton_of_not_mem 58 user h58u, unescape_userinfo user huser]
      rfl
    | some p =>
      simp only
      have hp : ∀ c ∈ p, isUserinfoByte c := hui.2 p rfl
      have hl : LastIndex (user ++ 58 :: (p ++ [64]) ++ a.hostport) [64]
          = some (user ++ 58 :: p).length := by
        have : user ++ 58 :: (p ++ [64]) ++ a.hostport = (user ++ 58 :: p) ++ 64 :: a.hostport := by
          simp
        rw [this]
        exact LastIndex_append_sep 64 _ _ h64
      unfold parseAuthority
      rw [hl]
      have hd : (user ++ 58 :: (p ++ [64]) ++ a.hostport).drop ((user ++ 58 :: p).length + 1)
          = a.hostport := by
        have : user ++ 58 :: (p ++ [64]) ++ a.hostport = (user ++ 58 :: p) ++ 64 :: a.hostport := by
          simp
        rw [this, List.drop_append_eq_append_drop]
        simp
      have ht : (user ++ 58 :: (p ++ [64]) ++ a.hostport).take (user ++ 58 :: p).length
          = user ++ 58 :: p := by
        have : user ++ 58 :: (p ++ [64]) ++ a.hostport = (user ++ 58 :: p) ++ 64 :: a.hostport := by
          simp
        rw [this, List.take_left]
      simp only [hd, hph, ht]
      rw [validUserinfo_bytes (user ++ 58 :: p) (fun c hc => by
          simp only [List.mem_append, List.mem_cons] at hc
          rcases hc with hc | hc | hc
          · exact Or.inl (huser c hc)
          · exact Or.inr hc
          · exact Or.inl (hp c hc)),
        Contains_singleton_append 58 user p h58u, Cut_singleton_append 58 user p h58u]
      simp only [Bool.not_true, Bool.false_eq_true, if_false]
      rw [unescape_userinfo user huser, unescape_userinfo p hp]

theorem setPath_wellEscaped (u : URL) (p : GoString) (hw : wellEscaped p = true) :
    setPath u p = some { u with
      Path := unescapeDecode .encodePath p,
      RawPath := if p = escape (unescapeDecode .encodePath p) .encodePath then [] else p } := by
  unfold setPath
  rw [unescape_wellEscaped .encodePath (Or.inl rfl) p hw]

theorem setFragment_wellEscaped (u : URL) (f : GoString) (hw : wellEscaped f = true) :
    setFragment u f = some { u with
      Fragment := unescapeDecode .encodeFragment f,
      RawFragment :=
        if f = escape (unescapeDecode .encodeFragment f) .encodeFragment then [] else f } := by
  unfold setFragment
  rw [unescape_wellEscaped .encodeFragment (Or.inr rfl) f hw]

/-- The escaped path of a URL whose path was set from a canonical path is that
path. -/
theorem EscapedPath_canonical (u : URL) (p : GoString)
    (hroot : p = [] ∨ p.head? = some 47) (hbytes : ∀ c ∈ p, isPathByte c)
    (hw : wellEscaped p = true)
    (hP : u.Path = unescapeDecode .encodePath p)
    (hR : u.RawPath =
      if p = escape (unescapeDecode .encodePath p) .encodePath then [] else p) :
    EscapedPath u = p := by
  have hstar : unescapeDecode .encodePath p ≠ [42] := by
    rcases hroot with rfl | hroot
    · simp [unescapeDecode]
    · cases p with
      | nil => simp at hroot
      | cons c cs =>
        simp at hroot
        subst hroot
        rw [unescapeDecode_slash]
        simp
  unfold EscapedPath
  rw [hR, hP]
  by_cases hpe : p = escape (unescapeDecode .encodePath p) .encodePath
  · rw [if_pos hpe]
    simp only [ne_eq, not_true_eq_false, false_and, if_false, hstar]
    exact hpe.symm
  · rw [if_neg hpe]
    have hne : p ≠ [] := by
      intro hh
      apply hpe
      rw [hh]
      simp [unescapeDecode, escape]
    rw [if_pos ⟨hne, validEncoded_path p hbytes,
      unescape_wellEscaped .encodePath (Or.inl rfl) p hw⟩]

theorem EscapedFragment_canonical (u : URL) (f : GoString)
    (hbytes : ∀ c ∈ f, isFragmentByte c) (hw : wellEscaped f = true)
    (hF : u.Fragment = unescapeDecode .encodeFragment f)
    (hR : u.RawFragment =
      if f = escape (unescapeDecode .encodeFragment f) .encodeFragment then [] else f) :
    EscapedFragment u = f := by
  unfold EscapedFragment
  rw [hR, hF]
  by_cases hpe : f = escape (unescapeDecode .encodeFragment f) .encodeFragment
  · rw [if_pos hpe]
    simp only [ne_eq, not_true_eq_false, false_and, if_false]
    exact hpe.symm
  · rw [if_neg hpe]
    have hne : f ≠ [] := by
      intro hh
      apply hpe
      rw [hh]
      simp [unescapeDecode, escape]
    rw [if_pos ⟨hne, validEncoded_fragment f hbytes,
      unescape_wellEscaped .encodeFragment (Or.inr rfl) f hw⟩]

theorem userinfoText_bytes (a : AbsoluteURL) (h : a.Canonical) :
    ∀ c ∈ a.userinfoText, isUserinfoByte c ∨ c = 58 ∨ c = 64 := by
  intro c hc
  unfold AbsoluteURL.userinfoText at hc
  cases hu : a.userinfo with
  | none => rw [hu] at hc; simp at hc
  | some ui =>
    obtain ⟨user, pw⟩ := ui
    have hui := h.userinfo (user, pw) (by rw [hu]; rfl)
    rw [hu] at hc
    cases pw with
    | none =>
      simp only [List.mem_append, List.mem_singleton] at hc
      rcases hc with hc | hc
      · exact Or.inl (hui.1 c hc)
      · exact Or.inr (Or.inr hc)
    | some p =>
      simp only [List.mem_append, List.mem_cons, List.mem_singleton, List.not_mem_nil,
        or_false] at hc
      rcases hc with hc | hc | hc | hc
      · exact Or.inl (hui.1 c hc)
      · exact Or.inr (Or.inl hc)
      · exact Or.inl (hui.2 p rfl c hc)
      · exact Or.inr (Or.inr hc)

/-- The bytes of the authority: no control byte, no `/`, `?` or `#`. -/
theorem authority_bytes (a : AbsoluteURL) (h : a.Canonical) :
    ∀ c ∈ a.authority, 32 ≤ c ∧ c ≠ 127 ∧ c ≠ 47 ∧ c ≠ 63 ∧ c ≠ 35 := by
  intro c hc
  unfold AbsoluteURL.authority at hc
  rw [List.mem_append] at hc
  rcases hc with hc | hc
  · have := userinfoText_bytes a h c hc
    unfold isUserinfoByte isUnreserved at this
    omega
  · have := hostport_bytes a h.host h.port c hc
    unfold isUnreserved isDigit at this
    omega

/-- The bytes of the path: no control byte, no `?` or `#`. -/
theorem path_bytes (a : AbsoluteURL) (h : a.Canonical) :
    ∀ c ∈ a.path, 32 ≤ c ∧ c ≠ 127 ∧ c ≠ 63 ∧ c ≠ 35 := by
  intro c hc
  rcases pathByte_cases c (h.path.1 c hc) with h1 | h1 | h1
  · unfold isUnreserved at h1; omega
  · omega
  · simp only [List.mem_cons, List.mem_singleton, List.not_mem_nil, or_false] at h1
    omega

theorem queryText_bytes (a : AbsoluteURL) (h : a.Canonical) :
    ∀ c ∈ a.queryText, 32 ≤ c ∧ c ≠ 127 ∧ c ≠ 35 := by
  intro c hc
  unfold AbsoluteURL.queryText at hc
  cases hq : a.query with
  | none => rw [hq] at hc; simp at hc
  | some q =>
    rw [hq] at hc
    simp only [List.mem_cons] at hc
    rcases hc with hc | hc
    · omega
    · have := h.query q (by rw [hq]; rfl) c hc
      unfold isQueryByte at this
      exact this

theorem authority_split (A P : GoString) (hA : 47 ∉ A) (hP : P = [] ∨ P.head? = some 47) :
    (match Index (A ++ P) [47] with
      | some i => (A ++ P).take i
      | none => A ++ P) = A ∧
    (match Index (A ++ P) [47] with
      | some i => (A ++ P).drop i
      | none => []) = P := by
  rcases hP with rfl | hP
  · rw [List.append_nil, Index_singleton_none 47 A hA]
    exact ⟨rfl, rfl⟩
  · cases P with
    | nil => simp at hP
    | cons c cs =>
      simp at hP
      subst hP
      rw [Index_singleton_append 47 A _ hA]
      simp

/-- The part of `parse` after the scheme and the query, on a canonical URL. -/
theorem parseRest_canonical (a : AbsoluteURL) (h : a.Canonical) (u0 : URL)
    (hs : u0.Scheme ≠ []) :
    parseRest u0 (47 :: 47 :: (a.authority ++ a.path)) false =
      some { u0 with
        User := a.user, Host := a.hostport,
        Path := unescapeDecode .encodePath a.path,
        RawPath :=
          if a.path = escape (unescapeDecode .encodePath a.path) .encodePath then []
          else a.path } := by
  have h47 : 47 ∉ a.authority := fun hm => (authority_bytes a h 47 hm).2.2.1 rfl
  obtain ⟨ha1, ha2⟩ := authority_split a.authority a.path h47 h.rooted
  unfold parseRest
  have hp1 : HasPrefix (47 :: 47 :: (a.authority ++ a.path)) [47] = true := by
    simp [HasPrefix, List.isPrefixOf]
  have hp2 : HasPrefix (47 :: 47 :: (a.authority ++ a.path)) [47, 47] = true := by
    simp [HasPrefix, List.isPrefixOf]
  simp only [hp1, hp2, Bool.not_true, Bool.false_eq_true, false_and, if_false, ne_eq, hs,
    not_false_eq_true, true_or, and_self, if_true, List.drop_succ_cons, List.drop_zero]
  rw [ha1, ha2, parseAuthority_canonical a h]
  simp only
  rw [setPath_wellEscaped _ _ h.path.2]

theorem HasSuffix_snoc (s : GoString) (c : Nat) : HasSuffix (s ++ [c]) [c] = true := by
  simp [HasSuffix, List.isPrefixOf]

theorem HasSuffix_of_last_ne (s q : GoString) (c : Nat) (hq : q ≠ []) (hc : c ∉ q) :
    HasSuffix (s ++ q) [c] = false := by
  obtain ⟨q', x, rfl⟩ : ∃ q' x, q = q' ++ [x] := by
    rcases List.eq_nil_or_concat q with h | ⟨l, b, h⟩
    · exact absurd h hq
    · exact ⟨l, b, by rw [h]; simp⟩
  have hx : c ≠ x := fun hh => hc (by simp [hh])
  simp [HasSuffix, List.isPrefixOf, hx]

/-- How `parse` splits the query off: the flag `ForceQuery`, the raw query and
what is left. -/
theorem query_split (R : GoString) (query : Option GoString) (hR : 63 ∉ R) :
    let rest := R ++ (match query with
      | none => []
      | some q => 63 :: q)
    let forceQuery : Bool := HasSuffix rest [63] ∧ Count rest 63 = 1
    forceQuery = decide (query = some []) ∧
    (if forceQuery then [] else (Cut rest [63]).2.1) = query.getD [] ∧
    (if forceQuery then rest.take (rest.length - 1) else (Cut rest [63]).1) = R := by
  have hcount : Count R 63 = 0 := by
    unfold Count
    exact List.count_eq_zero.mpr hR
  cases query with
  | none =>
    simp only [List.append_nil, hcount, Nat.zero_ne_one, and_false, decide_False,
      Bool.false_eq_true, if_false, Cut_singleton_none 63 R hR, Option.getD_none]
    simp
  | some q =>
    cases q with
    | nil =>
      have hc1 : Count (R ++ [63]) 63 = 1 := by
        unfold Count at hcount ⊢
        rw [List.count_append, hcount]
        simp
      simp only [HasSuffix_snoc, hc1, and_self, decide_True, if_true, Option.getD_some]
      simp
    | cons x xs =>
      have hf : (decide (HasSuffix (R ++ 63 :: x :: xs) [63] = true ∧
          Count (R ++ 63 :: x :: xs) 63 = 1)) = false := by
        by_cases hmem : 63 ∈ (x :: xs)
        · have : Count (R ++ 63 :: x :: xs) 63 ≠ 1 := by
            unfold Count at hcount ⊢
            rw [List.count_append, hcount, List.count_cons_self]
            have := List.count_pos_iff.mpr hmem
            omega
          simp [this]
        · have : HasSuffix (R ++ 63 :: x :: xs) [63] = false := by
            have := HasSuffix_of_last_ne (R ++ [63]) (x :: xs) 63 (by simp) hmem
            simpa using this
          simp [this]
      simp only [hf, Bool.false_eq_true, if_false, Cut_singleton_append 63 R (x :: xs) hR,
        Option.getD_some]
      simp

theorem validScheme_bytes (s : GoString) (h : validScheme s) :
    ∀ c ∈ s, isSchemeLetter c ∨ isSchemeOther c := by
  cases s with
  | nil => exact absurd h (by simp [validScheme])
  | cons a as =>
    have hv : isSchemeLetter a ∧ ∀ x ∈ as, isSchemeLetter x ∨ isSchemeOther x := h
    intro c hc
    rcases List.mem_cons.mp hc with rfl | hc
    · exact Or.inl hv.1
    · exact hv.2 c hc

theorem ToLower_of_lower (s : GoString) (h : ∀ c ∈ s, ¬ (65 ≤ c ∧ c ≤ 90)) : ToLower s = s := by
  unfold ToLower
  induction s with
  | nil => rfl
  | cons c cs ih =>
    have hc := h c (by simp)
    rw [List.map_cons, ih (fun x hx => h x (by simp [hx])), if_neg hc]

/-- The text of a canonical URL before its fragment: no control byte, no `#`. -/
theorem beforeFragment_bytes (a : AbsoluteURL) (h : a.Canonical) :
    ∀ c ∈ a.scheme ++ 58 :: 47 :: 47 :: (a.authority ++ (a.path ++ a.queryText)),
      32 ≤ c ∧ c ≠ 127 ∧ c ≠ 35 := by
  intro c hc
  simp only [List.mem_append, List.mem_cons] at hc
  rcases hc with hc | hc | hc | hc | hc | hc | hc
  · have := validScheme_bytes a.scheme h.scheme.1 c hc
    unfold isSchemeLetter isSchemeOther at this
    omega
  · omega
  · omega
  · omega
  · have := authority_bytes a h c hc
    omega
  · have := path_bytes a h c hc
    omega
  · exact queryText_bytes a h c hc

theorem parse_canonical (a : AbsoluteURL) (h : a.Canonical) :
    parse (a.scheme ++ 58 :: 47 :: 47 :: (a.authority ++ (a.path ++ a.queryText))) false =
      some { Scheme := a.scheme, User := a.user, Host := a.hostport,
             Path := unescapeDecode .encodePath a.path,
             RawPath :=
               if a.path = escape (unescapeDecode .encodePath a.path) .encodePath then []
               else a.path,
             ForceQuery := decide (a.query = some []),
             RawQuery := a.query.getD [] } := by
  have hbytes := beforeFragment_bytes a h
  have hv := h.scheme.1
  have hs : a.scheme ≠ [] := by
    intro hh; rw [hh] at hv; exact hv
  have hctl : stringContainsCTLByte
      (a.scheme ++ 58 :: 47 :: 47 :: (a.authority ++ (a.path ++ a.queryText))) = false := by
    unfold stringContainsCTLByte
    rw [List.any_eq_false]
    intro c hc
    have := hbytes c hc
    simp
    omega
  have hstar : a.scheme ++ 58 :: 47 :: 47 :: (a.authority ++ (a.path ++ a.queryText))
      ≠ [42] := by
    intro hh
    have := congrArg List.length hh
    simp at this
    omega
  have hgs : getScheme
      (a.scheme ++ 58 :: 47 :: 47 :: (a.authority ++ (a.path ++ a.queryText))) =
      some (a.scheme, 47 :: 47 :: (a.authority ++ (a.path ++ a.queryText))) :=
    getScheme_of_valid a.scheme _ hv
  have hR : 63 ∉ (47 :: 47 :: (a.authority ++ a.path) : GoString) := by
    intro hmem
    simp only [List.mem_cons, List.mem_append] at hmem
    rcases hmem with hm | hm | hm | hm
    · omega
    · omega
    · exact (authority_bytes a h 63 hm).2.2.2.1 rfl
    · exact (path_bytes a h 63 hm).2.2.1 rfl
  have hrest : (47 :: 47 :: (a.authority ++ (a.path ++ a.queryText)) : GoString) =
      (47 :: 47 :: (a.authority ++ a.path)) ++ a.queryText := by
    simp
  obtain ⟨q1, q2, q3⟩ := query_split (47 :: 47 :: (a.authority ++ a.path)) a.query hR
  unfold parse
  rw [hctl, hgs]
  simp only [Bool.false_eq_true, if_false, and_false, hstar, ToLower_of_lower a.scheme h.scheme.2]
  rw [hrest]
  unfold AbsoluteURL.queryText
  rw [q2, q3, q1]
  rw [parseRest_canonical a h _ hs]

/-- What `url.Parse` makes of the text of a canonical URL. -/
theorem Parse_canonical (a : AbsoluteURL) (h : a.Canonical) : Parse a.text = some a.parsed := by
  have h35 : 35 ∉ a.scheme ++ 58 :: 47 :: 47 :: (a.authority ++ (a.path ++ a.queryText)) :=
    fun hm => (beforeFragment_bytes a h 35 hm).2.2 rfl
  have htext : a.text =
      (a.scheme ++ 58 :: 47 :: 47 :: (a.authority ++ (a.path ++ a.queryText))) ++
        a.fragmentText := by
    unfold AbsoluteURL.text
    simp
  unfold Parse
  rw [htext]
  unfold AbsoluteURL.fragmentText AbsoluteURL.parsed
  cases hf : a.fragment with
  | none =>
    rw [List.append_nil, Cut_singleton_none 35 _ h35]
    simp only [parse_canonical a h, if_true, Option.getD_none]
    simp [unescapeDecode, escape]
  | some f =>
    obtain ⟨hne, _, hw⟩ := h.fragment f (by rw [hf]; rfl)
    rw [Cut_singleton_append 35 _ f h35]
    simp only [parse_canonical a h, hne, if_false, Option.getD_some]
    rw [setFragment_wellEscaped _ f hw]

theorem pathOfSegments_cons (e : GoString) (es : List GoString) :
    pathOfSegments (e :: es) = 47 :: (e ++ pathOfSegments es) := by
  simp [pathOfSegments]

/-- Joining the pieces of a split with `/` gives the text back. -/
theorem pathOfSegments_Split (p : GoString) : pathOfSegments (Split 47 p) = 47 :: p := by
  induction p with
  | nil => simp [Split, pathOfSegments]
  | cons x xs ih =>
    by_cases hx : x = 47
    · subst hx
      simp only [Split, if_true]
      rw [pathOfSegments_cons, ih]
      rfl
    · simp only [Split, if_neg hx]
      cases hs : Split 47 xs with
      | nil => exact absurd hs (Split_ne_nil 47 xs)
      | cons e es =>
        rw [hs, pathOfSegments_cons] at ih
        simp only
        rw [pathOfSegments_cons]
        simp only [List.cons.injEq, true_and] at ih ⊢
        rw [List.cons_append, ih]

theorem foldl_resolveStep_plain (segs : List GoString)
    (hsegs : ∀ e ∈ segs, e ≠ [46] ∧ e ≠ [46, 46]) :
    ∀ dst : GoString,
      segs.foldl resolveStep (dst, false) = (dst ++ pathOfSegments segs, false) := by
  induction segs with
  | nil => intro dst; simp [pathOfSegments]
  | cons e es ih =>
    intro dst
    obtain ⟨h1, h2⟩ := hsegs e (by simp)
    rw [List.foldl_cons]
    have hstep : resolveStep (dst, false) e = (dst ++ [47] ++ e, false) := by
      simp [resolveStep, h1, h2]
    rw [hstep, ih (fun x hx => hsegs x (by simp [hx])), pathOfSegments_cons]
    simp

/-- A path that is empty or starts with `/` and has no dot segment is resolved to
itself. -/
theorem resolvePath_rooted (p : GoString) (hroot : p = [] ∨ p.head? = some 47)
    (hdots : ∀ e ∈ pathSegments p, e ≠ [46] ∧ e ≠ [46, 46]) : resolvePath p [] = p := by
  rcases hroot with rfl | hroot
  · simp [resolvePath]
  · cases p with
    | nil => simp at hroot
    | cons c cs =>
      simp at hroot
      subst hroot
      have hsplit : Split 47 (47 :: cs) = [] :: Split 47 cs := by simp [Split]
      unfold pathSegments at hdots
      rw [hsplit] at hdots
      have hd2 : ∀ e ∈ Split 47 cs, e ≠ [46] ∧ e ≠ [46, 46] :=
        fun e he => hdots e (by simp [he])
      have hfirst : resolveStep ([47], true) [] = ([47], false) := by
        simp [resolveStep]
      have hfold : List.foldl resolveStep ([47], true) ([] :: Split 47 cs) =
          ([47] ++ pathOfSegments (Split 47 cs), false) := by
        rw [List.foldl_cons, hfirst, foldl_resolveStep_plain _ hd2]
      have hl1 : ¬ (([] :: Split 47 cs : List GoString).getLast? = some [46] ∨
          ([] :: Split 47 cs : List GoString).getLast? = some [46, 46]) := by
        intro h
        rcases h with h | h
        · exact (hdots _ (List.mem_of_getLast?_eq_some h)).1 rfl
        · exact (hdots _ (List.mem_of_getLast?_eq_some h)).2 rfl
      unfold resolvePath
      simp only [if_true, List.cons_ne_nil, if_false, hsplit, hfold, hl1]
      rw [pathOfSegments_Split]
      simp

theorem ResolveReference_canonical (b : URL) (a : AbsoluteURL) (h : a.Canonical) :
    ResolveReference b a.parsed = a.parsed := by
  have hv := h.scheme.1
  have hs : a.parsed.Scheme ≠ [] := by
    show a.scheme ≠ []
    intro hh; rw [hh] at hv; exact hv
  have hpath : EscapedPath a.parsed = a.path :=
    EscapedPath_canonical a.parsed a.path h.rooted h.path.1 h.path.2 rfl rfl
  rw [ResolveReference_of_Scheme b _ hs, hpath, resolvePath_rooted a.path h.rooted h.segments]
  unfold setPathIgnoringError
  rw [setPath_wellEscaped _ _ h.path.2]
  rfl

theorem userinfoText_eq (a : AbsoluteURL) (h : a.Canonical) :
    (match a.user with
      | some ui => ui.String ++ [64]
      | none => []) = a.userinfoText := by
  unfold AbsoluteURL.user AbsoluteURL.userinfoText
  cases hu : a.userinfo with
  | none => rfl
  | some ui =>
    obtain ⟨user, pw⟩ := ui
    have hui := h.userinfo (user, pw) (by rw [hu]; rfl)
    cases pw with
    | none =>
      simp only [Userinfo.String, escape_userinfo user hui.1]
      simp
    | some p =>
      simp only [Userinfo.String, escape_userinfo user hui.1, escape_userinfo p (hui.2 p rfl)]
      simp

theorem user_ne_none (a : AbsoluteURL) (h : a.userinfoText ≠ []) : a.user ≠ none := by
  unfold AbsoluteURL.user
  unfold AbsoluteURL.userinfoText at h
  cases hu : a.userinfo with
  | none => rw [hu] at h; exact absurd rfl h
  | some ui =>
    obtain ⟨user, pw⟩ := ui
    cases pw <;> simp

/-- Writing the parts of a canonical URL gives its text. -/
theorem String_canonical (a : AbsoluteURL) (h : a.Canonical) : a.parsed.String = a.text := by
  have hv := h.scheme.1
  have hs : a.scheme ≠ [] := by
    intro hh; rw [hh] at hv; exact hv
  have hpath : EscapedPath a.parsed = a.path :=
    EscapedPath_canonical a.parsed a.path h.rooted h.path.1 h.path.2 rfl rfl
  have hhost := escape_hostport a h.host h.port
  have huser := userinfoText_eq a h
  have hne : a.hostport ≠ [] ∨ unescapeDecode .encodePath a.path ≠ [] ∨ a.user ≠ none := by
    rcases h.nonempty with hA | hP
    · unfold AbsoluteURL.authority at hA
      by_cases hu : a.userinfoText = []
      · left
        rw [hu, List.nil_append] at hA
        exact hA
      · right; right
        exact user_ne_none a hu
    · right; left
      exact unescapeDecode_ne_nil _ _ hP
  have hslash : ¬ (a.path ≠ [] ∧ a.path.head? ≠ some 47 ∧ a.hostport ≠ []) := by
    rintro ⟨h1, h2, _⟩
    rcases h.rooted with hr | hr
    · exact h1 hr
    · exact h2 hr
  have hauth : a.parsed.authorityString = 47 :: 47 :: a.authority := by
    unfold URL.authorityString
    have h1 : a.parsed.Scheme ≠ [] := hs
    have h2 : a.parsed.OmitHost = false := rfl
    have h3 : a.parsed.Host = a.hostport := rfl
    have h4 : a.parsed.Path = unescapeDecode .encodePath a.path := rfl
    have h5 : a.parsed.User = a.user := rfl
    rw [h2, h3, h4, h5]
    rw [if_pos (Or.inl h1), if_neg (by simp), if_pos hne, huser]
    unfold AbsoluteURL.authority
    by_cases hh : a.hostport = []
    · rw [if_neg (by simpa using hh), hh]
      simp
    · rw [if_pos hh, hhost]
      simp
  have hquery : (if a.parsed.ForceQuery ∨ a.parsed.RawQuery ≠ [] then 63 :: a.parsed.RawQuery
      else []) = a.queryText := by
    unfold AbsoluteURL.parsed AbsoluteURL.queryText
    cases hq : a.query with
    | none => simp
    | some q =>
      cases q with
      | nil => simp
      | cons x xs => simp
  have hfrag : (if a.parsed.Fragment ≠ [] then 35 :: EscapedFragment a.parsed else [])
      = a.fragmentText := by
    unfold AbsoluteURL.fragmentText
    cases hf : a.fragment with
    | none =>
      have : a.parsed.Fragment = [] := by
        unfold AbsoluteURL.parsed
        simp [hf, unescapeDecode]
      rw [this]
      simp
    | some f =>
      obtain ⟨hne, hb, hw⟩ := h.fragment f (by rw [hf]; rfl)
      have hF : a.parsed.Fragment = unescapeDecode .encodeFragment f := by
        unfold AbsoluteURL.parsed
        simp [hf]
      have hR : a.parsed.RawFragment =
          if f = escape (unescapeDecode .encodeFragment f) .encodeFragment then [] else f := by
        unfold AbsoluteURL.parsed
        simp [hf]
      rw [EscapedFragment_canonical a.parsed f hb hw hF hR, hF,
        if_pos (unescapeDecode_ne_nil _ _ hne)]
  unfold URL.String
  simp only
  rw [hquery, hfrag]
  have hop : a.parsed.Opaque = [] := rfl
  have hsc : a.parsed.Scheme = a.scheme := rfl
  rw [hop, hsc, if_pos hs, if_neg (by simp)]
  unfold URL.hierString
  simp only
  rw [hauth, hpath]
  have h3 : a.parsed.Host = a.hostport := rfl
  rw [h3, if_neg hslash]
  have hdot : ¬ ((a.scheme ++ [58] ++ (47 :: 47 :: a.authority) ++ ([] : GoString) = [] ∧
      Contains (Cut a.path [47]).1 [58] = true)) := by
    rintro ⟨h1, _⟩
    simp at h1
  rw [if_neg hdot]
  unfold AbsoluteURL.text
  simp

/-- A canonical absolute URL resolves to itself, against every base. -/
theorem ResolveURL_canonical (baseURL : GoString) (a : AbsoluteURL) (h : a.Canonical) :
    ResolveURL baseURL a.text = a.text := by
  unfold ResolveURL
  cases hb : Parse baseURL with
  | none => rfl
  | some b =>
    simp only [Parse_canonical a h, ResolveReference_canonical b a h, String_canonical a h]

end AbsoluteURLFacts

end Descargador
